import Mathlib

/-!
# blazingsql engine: order-by partition planning and UCX message tags

A shallow embedding of the integer and tag computations of

* `engine/src/operators/OrderBy.cpp`
  (`compute_total_samples`, `generate_partition_plan`, `determine_local_limit`,
  `partition_table`),
* `engine/src/communication/CommunicationInterface/protocols.cpp`
  (`generate_message_tag`, `send_impl`, `send_begin_transmission`,
  `recv_begin_transmission_ack`),

followed by the properties proved about them.

Conventions.  `std::size_t` values are naturals below `2 ^ 64`, `int` and
`cudf::size_type` values are integers in the signed 32-bit range.  The two
`double` computations of `OrderBy.cpp` are embedded with an exact model of
IEEE-754 binary64 round-to-nearest-even arithmetic on non-negative values
(namespace `Dbl`).  32-bit arithmetic follows the compiled code: a signed
overflow wraps around in two's complement and a `double` that does not fit an
`int` converts to `INT_MIN`.  An integer division that traps, a thrown exception
and an assertion that fails make the embedded function return `none` or an
error value.
-/

/-! ## IEEE-754 binary64 arithmetic on non-negative values -/

namespace Dbl

/-- Every finite binary64 value is an integer multiple of `2 ^ (-1074)`; a
non-negative double `x` is represented by the natural number `x * 2 ^ 1074`. -/
def SCALE : Nat := 2 ^ 1074

/-- Quotient `N / D` rounded to the nearest integer, ties to the even one. -/
def roundHalfEven (N D : Nat) : Nat :=
  let q := N / D
  let r := N % D
  if 2 * r < D then q
  else if D < 2 * r then q + 1
  else if q % 2 = 0 then q else q + 1

/-- Worker of `bitLen`; the first argument bounds the recursion depth. -/
def bitLenAux : Nat → Nat → Nat
  | 0, _ => 0
  | fuel + 1, n => if n = 0 then 0 else bitLenAux fuel (n / 2) + 1

/-- Number of binary digits of `n` (`0` for `n = 0`). -/
def bitLen (n : Nat) : Nat := bitLenAux n n

/-- The double nearest to the rational `N / D` (ties to even), as a multiple of
`2 ^ (-1074)`: the quotient is rounded at the position that leaves a 53-bit
significand (position `0` in the subnormal range). -/
def round (N D : Nat) : Nat :=
  let X := N * SCALE
  let s := bitLen (X / D) - 53
  roundHalfEven X (D * 2 ^ s) * 2 ^ s

/-- Conversion `(double) n` of an unsigned integer. -/
def ofNat (n : Nat) : Nat := round n 1

/-- Product `a * b` of two doubles. -/
def mul (a b : Nat) : Nat := round (a * b) (SCALE * SCALE)

/-- Quotient `a / b` of two doubles, `b` non-zero. -/
def div (a b : Nat) : Nat := round a b

/-- Conversion of a double to an integer type: the fractional part is dropped. -/
def trunc (a : Nat) : Nat := a / SCALE

/-- The function `std::ceil`, returned as the integer it denotes. -/
def ceil (a : Nat) : Nat := (a + SCALE - 1) / SCALE

/-- The literal `0.1`, that is `3602879701896397 * 2 ^ (-55)`. -/
def tenth : Nat := 3602879701896397 * 2 ^ 1019

end Dbl

/-! ## cudf primitives used by `partition_table` -/

namespace cudf

/-- The function `cudf::upper_bound` on a haystack sorted under `lt`: for every
needle the index of the first haystack row ordered after it, the haystack size
when there is none. One index per needle. -/
def upper_bound {κ : Type} (lt : κ → κ → Bool) (haystack needles : List κ) : List Nat :=
  needles.map fun v => (haystack.takeWhile fun h => !lt v h).length

/-- The check `cudf::split` makes on its split points: they do not decrease and
none exceeds the number of rows. -/
def splits_valid (size : Nat) : Nat → List Nat → Bool
  | prev, [] => decide (prev ≤ size)
  | prev, s :: rest => decide (prev ≤ s) && decide (s ≤ size) && splits_valid size s rest

/-- The views `[start, s0), [s0, s1), ..., [s_last, size)` of `input`. -/
def slices {α : Type} (input : List α) : Nat → List Nat → List (List α)
  | start, [] => [input.drop start]
  | start, s :: rest => ((input.drop start).take (s - start)) :: slices input s rest

/-- The function `cudf::split`: `none` stands for the `cudf::logic_error` thrown
on invalid split points. -/
def split {α : Type} (input : List α) (splits : List Nat) : Option (List (List α)) :=
  if splits_valid input.length 0 splits then some (slices input 0 splits) else none

end cudf

/-! ## `engine/src/operators/OrderBy.cpp` -/

namespace ral.operators

/-- The parts of `blazingdb::manager::Context` read by the functions below:
the two configuration options, already parsed by `std::stoull` and `std::stoi`
(`none` when the key is absent), `getTotalNodes()`, and for the limit
computation the row counts of the nodes and the index of this node. -/
structure Context where
  NUM_BYTES_PER_ORDER_BY_PARTITION : Option Nat
  MAX_NUM_ORDER_BY_PARTITIONS_PER_NODE : Option Int
  total_nodes : Int
  nodesRowSize : List Int
  self_node_idx : Nat

/-- The result of a computation in `int` or `cudf::size_type`: the exact value
reduced to the 32-bit two's-complement range, which is what the compiled code
hands over when the operation overflows. -/
def int32 (x : Int) : Int :=
  (x + 2147483648) % 4294967296 - 2147483648

/-- Conversion of a non-negative `double` to `cudf::size_type`: the value is
truncated; for a value that does not fit, the conversion instruction of x86-64
gives `INT_MIN`. -/
def int32_of_double (a : Nat) : Int :=
  if Dbl.trunc a ≤ 2147483647 then Dbl.trunc a else -2147483648

/-- Body of `determine_local_limit`: the distributed computation is commented
out in the source and the function returns `0` whatever its arguments. -/
def determine_local_limit (_context : Context) (_local_num_rows : Int) (_limit_rows : Int) : Int :=
  0

/-- The local limit as the specification and the documentation comment of
`determine_local_limit` describe it (it is also the commented-out body):
`min (max (limit_rows - prev_total_rows) 0) local_num_rows` with
`prev_total_rows` the sum of the row counts of the nodes of lower index. -/
def spec_local_limit (context : Context) (local_num_rows : Int) (limit_rows : Int) : Int :=
  let prev_total_rows := (context.nodesRowSize.take context.self_node_idx).foldl (· + ·) 0
  min (max (limit_rows - prev_total_rows) 0) local_num_rows

/-- Function `compute_total_samples`. -/
def compute_total_samples (num_rows : Nat) : Nat :=
  let num_samples := Dbl.ceil (Dbl.mul (Dbl.ofNat num_rows) Dbl.tenth)
  let MAX_SAMPLES := 1000
  let MIN_SAMPLES := 100
  let num_samples := min num_samples MAX_SAMPLES
  let num_samples := max num_samples MIN_SAMPLES
  let num_samples := if num_rows < num_samples then num_rows else num_samples
  num_samples

/-- The value of `total_num_partitions` after lines 352 and 353 of the source:
the `double` quotient converted to `cudf::size_type`, and `1` in place of a
value that is not positive. With a byte target of zero the quotient is an
infinity or a NaN, which the conversion turns into `INT_MIN`. -/
def total_num_partitions_quotient (table_num_rows avg_bytes_per_row : Nat) (context : Context) :
    Int :=
  let num_bytes_per_order_by_partition := context.NUM_BYTES_PER_ORDER_BY_PARTITION.getD 400000000
  let total_num_partitions :=
    if num_bytes_per_order_by_partition = 0 then -2147483648
    else
      int32_of_double (Dbl.div (Dbl.mul (Dbl.ofNat table_num_rows) (Dbl.ofNat avg_bytes_per_row))
        (Dbl.ofNat num_bytes_per_order_by_partition))
  if total_num_partitions ≤ 0 then 1 else total_num_partitions

/-- The value of `total_num_partitions` that `generate_partition_plan` passes to
`generatePartitionPlans` (lines 339 to 356 of the source), with the 32-bit
arithmetic of the compiled code; `none` when the integer division traps (a
divisor of zero, or `INT_MIN / -1`). -/
def generate_partition_plan (table_num_rows avg_bytes_per_row : Nat) (context : Context) :
    Option Int :=
  let max_num_order_by_partitions_per_node := context.MAX_NUM_ORDER_BY_PARTITIONS_PER_NODE.getD 8
  let num_nodes := context.total_nodes
  let total_num_partitions :=
    total_num_partitions_quotient table_num_rows avg_bytes_per_row context
  let sum := int32 (int32 (total_num_partitions + num_nodes) - 1)
  if num_nodes = 0 ∨ (sum = -2147483648 ∧ num_nodes = -1) then none
  else
    let total_num_partitions := int32 (int32 (Int.tdiv sum num_nodes) * num_nodes)
    let cap := int32 (max_num_order_by_partitions_per_node * num_nodes)
    some (if total_num_partitions > cap then cap else total_num_partitions)

/-- The partition count as the specification words it, with the quotient
rounded by `quot`: `clamp(quot, 1, MAX * num_nodes)` rounded up to a multiple of
`num_nodes`. -/
def spec_partition_count (quot : Int) (max_per_node num_nodes : Int) : Int :=
  let clamped := min (max quot 1) (max_per_node * num_nodes)
  ((clamped + num_nodes - 1) / num_nodes) * num_nodes

/-- Function `partition_table`, on a table given as its list of rows. `key`
selects the sort-key columns of a row and `lt` is the row comparison fixed by the
sort orders; `partitionPlan` is the pivot table. -/
def partition_table {α κ : Type} (key : α → κ) (lt : κ → κ → Bool)
    (partitionPlan : List κ) (sortedTable : List α) : Option (List (List α)) :=
  if sortedTable.length = 0 then some [sortedTable]
  else
    let columns_to_search := sortedTable.map key
    let split_indexes := cudf.upper_bound lt columns_to_search partitionPlan
    cudf.split sortedTable split_indexes

end ral.operators

/-! ## `engine/src/communication/CommunicationInterface/protocols.cpp` -/

namespace comm

/-- Modelled from the spec: the declaration of `blazing_ucp_tag` (in
`protocols.hpp`) is the 64-bit tag `[message_id:32 | origin_node_id:16 |
frame_id:16]`: an `int` followed by two `uint16_t`. -/
structure blazing_ucp_tag where
  message_id : Int
  worker_origin_id : Nat
  frame_id : Nat
deriving DecidableEq, Repr

/-- Conversion of an integer to `int`, wrapping to the signed 32-bit range. -/
def to_int32 (x : Int) : Int :=
  let u := x % 4294967296
  if u < 2147483648 then u else u - 4294967296

/-- The cast `*reinterpret_cast<ucp_tag_t *>(&blazing_tag)`: the three fields
side by side in the 64-bit word, first field in the low-order bits. -/
def to_ucp_tag (t : blazing_ucp_tag) : Nat :=
  (t.message_id % 4294967296).toNat + 4294967296 * (t.worker_origin_id % 65536)
    + 281474976710656 * (t.frame_id % 65536)

/-- The cast `*reinterpret_cast<blazing_ucp_tag *>(&tag)`. -/
def of_ucp_tag (tag : Nat) : blazing_ucp_tag where
  message_id := to_int32 (Int.ofNat (tag % 4294967296))
  worker_origin_id := tag / 4294967296 % 65536
  frame_id := tag / 281474976710656 % 65536

/-- A field triple whose values fit their C++ types. -/
def blazing_ucp_tag.wf (t : blazing_ucp_tag) : Prop :=
  -2147483648 ≤ t.message_id ∧ t.message_id < 2147483648 ∧
    t.worker_origin_id < 65536 ∧ t.frame_id < 65536

/-- Function `ucx_buffer_transport::generate_message_tag`: from the value of
the global counter `atomic_message_id` and the `ral_id` of the transport, the
returned tag and the counter after `fetch_add(1)`. -/
def generate_message_tag (atomic_message_id : Int) (ral_id : Int) : Nat × Int :=
  let current_message_id := atomic_message_id
  let blazing_tag : blazing_ucp_tag :=
    { message_id := current_message_id
      worker_origin_id := (ral_id % 65536).toNat
      frame_id := 0 }
  (to_ucp_tag blazing_tag, to_int32 (atomic_message_id + 1))

/-- The tag `send_impl` passes to `ucp_tag_send_nb` for every destination:
the transport tag with `frame_id = buffer_sent + 1`. -/
def send_impl_tag (tag : Nat) (buffer_sent : Nat) : Nat :=
  let blazing_tag := of_ucp_tag tag
  let blazing_tag := { blazing_tag with frame_id := (buffer_sent + 1) % 65536 }
  to_ucp_tag blazing_tag

/-- The tag `send_begin_transmission` passes to `ucp_tag_recv_nbr` to receive
the acknowledgment. -/
def send_begin_transmission_acknowledge_tag (tag : Nat) : Nat :=
  let acknowledge_tag := of_ucp_tag tag
  let acknowledge_tag := { acknowledge_tag with frame_id := 0xFFFF }
  to_ucp_tag acknowledge_tag

/-- The tag `recv_begin_transmission_ack` passes to `ucp_tag_probe_nb`. -/
def recv_begin_transmission_ack_acknowledge_tag (tag : Nat) : Nat :=
  let acknowledge_tag := of_ucp_tag tag
  let acknowledge_tag := { acknowledge_tag with frame_id := 0xFFFF }
  to_ucp_tag acknowledge_tag

end comm

/-! ## C++ standard library strings

A `std::string` is its list of characters; a `std::size_t` position is a
natural number below `2 ^ 64`, with `npos = 2 ^ 64 - 1`. -/

/-- A loop that converts the elements of a list one after the other and collects
the results; `none` as soon as one conversion throws. -/
def map_or_throw {α β : Type} (f : α → Option β) : List α → Option (List β)
  | [] => some []
  | a :: l =>
    match f a with
    | none => none
    | some b => (map_or_throw f l).map fun bs => b :: bs

namespace std

/-- The constant `std::string::npos`. -/
def npos : Nat := 18446744073709551615

/-- Sum of two `std::size_t` values. -/
def size_add (a b : Nat) : Nat := (a + b) % 18446744073709551616

/-- Product of two `std::size_t` values. -/
def size_mul (a b : Nat) : Nat := (a * b) % 18446744073709551616

/-- Difference of two `std::size_t` values, wrapping below zero. -/
def size_sub (a b : Nat) : Nat := (a + 18446744073709551616 - b) % 18446744073709551616

/-- Worker of `find`: the first position at or after the current one, `i`,
where `pat` starts. -/
def find_aux (pat : List Char) : List Char → Nat → Nat
  | [], i => if pat.isEmpty then i else npos
  | c :: s, i => if pat.isPrefixOf (c :: s) then i else find_aux pat s (i + 1)

/-- The call `s.find(pat)`: position of the first occurrence of `pat`, or `npos`. -/
def find (s pat : List Char) : Nat := find_aux pat s 0

/-- Worker of `rfind`: `best` is the last position found so far. -/
def rfind_aux (pat : List Char) : List Char → Nat → Nat → Nat
  | [], i, best => if pat.isEmpty then i else best
  | c :: s, i, best => rfind_aux pat s (i + 1) (if pat.isPrefixOf (c :: s) then i else best)

/-- The call `s.rfind(pat)`: position of the last occurrence of `pat`, or `npos`. -/
def rfind (s pat : List Char) : Nat := rfind_aux pat s 0 npos

/-- The call `s.substr(pos, len)`; `none` stands for `std::out_of_range`. -/
def substr (s : List Char) (pos len : Nat) : Option (List Char) :=
  if pos > s.length then none else some ((s.drop pos).take len)

/-- The function `std::to_string` on a non-negative integer. -/
def to_string (n : Nat) : List Char := Nat.toDigits 10 n

/-- Value of a string of decimal digits. -/
def digits_value (digits : List Char) : Nat :=
  digits.foldl (fun acc c => 10 * acc + (c.toNat - 48)) 0

/-- The function `isspace` in the C locale. -/
def isspace (c : Char) : Bool :=
  c == ' ' || c == '\t' || c == '\n' || c == '\x0b' || c == '\x0c' || c == '\x0d'

/-- The function `std::stoi`: leading white space, an optional sign, then the
longest run of decimal digits; `none` stands for `std::invalid_argument` (no
digit) and `std::out_of_range` (value not an `int`). -/
def stoi (str : List Char) : Option Int :=
  let s := str.dropWhile isspace
  let negative := s.head? = some '-'
  let s := if s.head? = some '-' ∨ s.head? = some '+' then s.drop 1 else s
  let digits := s.takeWhile Char.isDigit
  if digits.isEmpty then none
  else
    let value : Int := if negative then -(digits_value digits : Int) else digits_value digits
    if -2147483648 ≤ value ∧ value ≤ 2147483647 then some value else none

/-- The function `std::stoull` on unsigned input: as `stoi`, with the range of
`unsigned long long`. -/
def stoull (str : List Char) : Option Nat :=
  let s := str.dropWhile isspace
  let s := if s.head? = some '+' then s.drop 1 else s
  let digits := s.takeWhile Char.isDigit
  if digits.isEmpty then none
  else if digits_value digits ≤ 18446744073709551615 then some (digits_value digits) else none

end std

/-! ## String helpers of the repository that are not part of the sources at hand -/

namespace StringUtil

/-- Worker of `split`: the tokens of the text, the first one being the token
under construction; `skip` counts the characters of a separator still to pass. -/
def split_aux (sep : List Char) : List Char → Nat → List (List Char)
  | [], _ => [[]]
  | _ :: s, skip + 1 => split_aux sep s skip
  | c :: s, 0 =>
    if sep.isPrefixOf (c :: s) then [] :: split_aux sep s (sep.length - 1)
    else
      match split_aux sep s 0 with
      | token :: rest => (c :: token) :: rest
      | [] => [[c]]

/-- Modelled from the spec: `StringUtil::split(input, separator)` (library
`blazingdb/io`), the pieces of `input` between the occurrences of `separator`,
in order; a text without separator is its own single piece. -/
def split (input sep : List Char) : List (List Char) := split_aux sep input 0

/-- Worker of `replace`. -/
def replace_aux (pattern replacement : List Char) : List Char → Nat → List Char
  | [], _ => []
  | _ :: s, skip + 1 => replace_aux pattern replacement s skip
  | c :: s, 0 =>
    if pattern.isPrefixOf (c :: s) then
      replacement ++ replace_aux pattern replacement s (pattern.length - 1)
    else c :: replace_aux pattern replacement s 0

/-- Modelled from the spec: `StringUtil::replace(text, pattern, replacement)`
(library `blazingdb/io`), `text` with every occurrence of `pattern`, taken from
left to right, replaced by `replacement`. -/
def replace (text pattern replacement : List Char) : List Char :=
  replace_aux pattern replacement text 0

end StringUtil

namespace cudf

/-- The enumeration `cudf::order`. -/
inductive order where
  | ASCENDING
  | DESCENDING
deriving DecidableEq, Repr

end cudf

/-! ## Plan parsing in `OrderBy.cpp` and `CalciteInterpreter.cpp` -/

namespace ral.operators

/-- Worker of `count_string_occurrence`. -/
def count_aux (needle : List Char) : List Char → Nat → Nat
  | [], _ => 0
  | _ :: s, skip + 1 => count_aux needle s skip
  | c :: s, 0 =>
    if needle.isPrefixOf (c :: s) then 1 + count_aux needle s (needle.length - 1)
    else count_aux needle s 0

/-- Modelled from the spec: `count_string_occurrence(haystack, needle)`
(`CalciteExpressionParsing`), the number of occurrences of `needle` counted from
left to right without overlap. -/
def count_string_occurrence (haystack needle : List Char) : Nat := count_aux needle haystack 0

/-- Modelled from the spec: `get_named_expression(query_part, name)`
(`CalciteExpressionParsing`), the value of the parameter `name` in a text with
parameters of the form `name=[value]`: the characters between the first
`name=[` and the next `]`; the empty string when there is no such parameter. -/
def get_named_expression : List Char → List Char → List Char
  | [], _ => []
  | c :: s, name =>
    if (name ++ ['=', '[']).isPrefixOf (c :: s) then
      ((c :: s).drop (name.length + 2)).takeWhile (fun x => x != ']')
    else get_named_expression s name

/-- Modelled from the spec: `get_index(operand)` (`CalciteExpressionParsing`),
the integer of a scalar reference `$<int>`. -/
def get_index (operand_string : List Char) : Option Nat := std.stoull (operand_string.drop 1)

/-- The constant `ASCENDING_ORDER_SORT_TEXT`. -/
def ASCENDING_ORDER_SORT_TEXT : List Char := ['A', 'S', 'C']

/-- The constant `DESCENDING_ORDER_SORT_TEXT`. -/
def DESCENDING_ORDER_SORT_TEXT : List Char := ['D', 'E', 'S', 'C']

/-- Function `get_sort_vars`; `none` when the source throws. -/
def get_sort_vars (query_part : List Char) : Option (List Int × List cudf.order × Int) := do
  let rangeStart := std.find query_part ['(']
  let rangeEnd := std.size_sub (std.size_sub (std.rfind query_part [')']) rangeStart) 1
  let combined_expression ← std.substr query_part (std.size_add rangeStart 1) rangeEnd
  let num_sort_columns := count_string_occurrence combined_expression ['s', 'o', 'r', 't']
  let sortColIndices ← map_or_throw
    (fun i => (get_index (get_named_expression combined_expression
      (['s', 'o', 'r', 't'] ++ std.to_string i))).map fun (index : Nat) => comm.to_int32 (Int.ofNat index))
    (List.range num_sort_columns)
  let sortOrderTypes := (List.range num_sort_columns).map fun i =>
    if get_named_expression combined_expression (['d', 'i', 'r'] ++ std.to_string i)
        = ASCENDING_ORDER_SORT_TEXT
    then cudf.order.ASCENDING else cudf.order.DESCENDING
  let limitRowsStr := get_named_expression combined_expression ['f', 'e', 't', 'c', 'h']
  let limitRows ← if !limitRowsStr.isEmpty then std.stoi limitRowsStr else some (-1)
  return (sortColIndices, sortOrderTypes, limitRows)

/-- The functions of `parser/expression_utils.hpp` that the window-function
paths call and whose bodies are not part of the sources at hand. -/
structure expression_utils where
  is_window_function : List Char → Bool
  window_expression_contains_order_by : List Char → Bool
  window_expression_contains_partition_by : List Char → Bool
  get_first_over_expression_from_logical_plan : List Char → List Char → List Char

/-- The text `"PARTITION BY "`. -/
def PARTITION_BY : List Char :=
  ['P', 'A', 'R', 'T', 'I', 'T', 'I', 'O', 'N', ' ', 'B', 'Y', ' ']

/-- The text `"ORDER BY "`. -/
def ORDER_BY : List Char := ['O', 'R', 'D', 'E', 'R', ' ', 'B', 'Y', ' ']

/-- Function `get_vars_to_partition`; `none` when the source throws. -/
def get_vars_to_partition (eu : expression_utils) (logical_plan : List Char) :
    Option (List Int × List cudf.order) :=
  let partition_expr := PARTITION_BY
  let over_expression := eu.get_first_over_expression_from_logical_plan logical_plan partition_expr
  if over_expression.length = 0 then some ([], [])
  else do
    let start_position := std.size_add (std.find over_expression partition_expr) partition_expr.length
    let end_position := std.find over_expression ORDER_BY
    let end_position :=
      if end_position = std.npos then std.size_add over_expression.length 1 else end_position
    let values ← std.substr over_expression start_position
      (std.size_sub (std.size_sub end_position start_position) 1)
    let column_numbers_string := StringUtil.split values [',', ' ']
    let column_index ← map_or_throw (fun s => std.stoi (StringUtil.replace s ['$'] []))
      column_numbers_string
    return (column_index, column_numbers_string.map fun _ => cudf.order.ASCENDING)

/-- Function `get_vars_to_orders`; `none` when the source throws. -/
def get_vars_to_orders (eu : expression_utils) (logical_plan : List Char) :
    Option (List Int × List cudf.order) :=
  let order_expr := ORDER_BY
  let over_expression := eu.get_first_over_expression_from_logical_plan logical_plan order_expr
  if over_expression.length = 0 then some ([], [])
  else do
    let start_position := std.size_add (std.find over_expression order_expr) order_expr.length
    let end_position := std.find over_expression ['R', 'O', 'W', 'S']
    let end_position :=
      if end_position ≠ std.npos then std.size_sub end_position 1 else over_expression.length
    let values ← std.substr over_expression start_position
      (std.size_sub end_position start_position)
    let column_express := StringUtil.split values [',', ' ']
    let order_types := column_express.map fun e =>
      if (StringUtil.split e [' ']).length = 1 then cudf.order.ASCENDING
      else cudf.order.DESCENDING
    let column_index ← map_or_throw
      (fun e => std.stoi (StringUtil.replace ((StringUtil.split e [' ']).headD []) ['$'] []))
      column_express
    return (column_index, order_types)

/-- Function `get_vars_to_partition_and_order`. -/
def get_vars_to_partition_and_order (eu : expression_utils) (query_part : List Char) :
    Option (List Int × List cudf.order) := do
  let (column_index_partition, order_types_partition) ← get_vars_to_partition eu query_part
  let (column_index_order, order_types_order) ← get_vars_to_orders eu query_part
  return (column_index_partition ++ column_index_order, order_types_partition ++ order_types_order)

/-- Function `get_right_sorts_vars`. -/
def get_right_sorts_vars (eu : expression_utils) (query_part : List Char) :
    Option (List Int × List cudf.order) :=
  if eu.is_window_function query_part then
    if eu.window_expression_contains_order_by query_part
        && eu.window_expression_contains_partition_by query_part then
      get_vars_to_partition_and_order eu query_part
    else if !eu.window_expression_contains_order_by query_part then
      get_vars_to_partition eu query_part
    else
      -- TODO of the source: over clauses without `partition by`
      some ([], [])
  else (get_sort_vars query_part).map fun r => (r.1, r.2.1)

/-- A sort parameter pair `sort<i>=[$<c>], dir<i>=[<d>]` as the plan prints it. -/
def sort_param (i : Nat) (column : Nat) (direction : cudf.order) : List Char :=
  ['s', 'o', 'r', 't'] ++ std.to_string i ++ ['=', '[', '$'] ++ std.to_string column
    ++ [']', ',', ' ', 'd', 'i', 'r'] ++ std.to_string i ++ ['=', '[']
    ++ (if direction = cudf.order.ASCENDING then ASCENDING_ORDER_SORT_TEXT
        else DESCENDING_ORDER_SORT_TEXT)
    ++ [']']

/-- The parameter `fetch=[<N>]` as the plan prints it. -/
def fetch_param (limit : Nat) : List Char :=
  ['f', 'e', 't', 'c', 'h', '=', '['] ++ std.to_string limit ++ [']']

/-- The parameters of a sort line: `sort0=[$c0], dir0=[d0], ...,` then
`fetch=[N]` when the line has a limit, separated by `", "`. -/
def sort_line_params (columns : List (Nat × cudf.order)) (fetch : Option Nat) : List Char :=
  List.intercalate [',', ' ']
    ((columns.enum.map fun p => sort_param p.1 p.2.1 p.2.2) ++ fetch.toList.map fetch_param)

/-- The list `$a1, ..., $am` of a `PARTITION BY`. -/
def partition_by_list (columns : List Nat) : List Char :=
  List.intercalate [',', ' '] (columns.map fun a => '$' :: std.to_string a)

/-- An item `$i` or `$i DESC` of an `ORDER BY`. -/
def order_by_item (column : Nat) (direction : cudf.order) : List Char :=
  '$' :: std.to_string column
    ++ (if direction = cudf.order.ASCENDING then [] else ' ' :: DESCENDING_ORDER_SORT_TEXT)

/-- The list of the items of an `ORDER BY`, separated by `", "`. -/
def order_by_list (columns : List (Nat × cudf.order)) : List Char :=
  List.intercalate [',', ' '] (columns.map fun p => order_by_item p.1 p.2)

end ral.operators

namespace ral.cache

/-- The enumeration `CacheType`. -/
inductive CacheType where
  | SIMPLE
  | CONCATENATING
  | FOR_EACH
deriving DecidableEq, Repr

/-- The fields of `cache_settings` that `generate_graph` sets. -/
structure cache_settings where
  type : CacheType
  concat_all : Bool
deriving DecidableEq, Repr

/-- A `kpair`: source kernel, target kernel and the settings of the cache
between them. -/
structure kpair (κ : Type) where
  src : κ
  dst : κ
  cache_machine_config : cache_settings

end ral.cache

/-- The pair `generate_graph` hands to `query_graph->addPair` (lines 100 to 106
of `CalciteInterpreter.cpp`), `none` when it adds no pair. `num_nodes` is
`query_graph->num_nodes()`, `last_kernel` is `query_graph->get_last_kernel()`,
`output` the new `OutputKernel` and `total_nodes` is
`queryContext.getTotalNodes()`. -/
def generate_graph_output_pair {κ : Type} (num_nodes : Nat) (last_kernel output : κ)
    (total_nodes : Int) : Option (ral.cache.kpair κ) :=
  if num_nodes > 0 then
    let cache_machine_config : ral.cache.cache_settings :=
      { type := if total_nodes = 1 then ral.cache.CacheType.CONCATENATING
                else ral.cache.CacheType.SIMPLE
        concat_all := true }
    some ⟨last_kernel, output, cache_machine_config⟩
  else none

/-! ## Sending in `protocols.cpp` -/

namespace comm

/-- The status codes of UCX: success, operation in progress, or an error code. -/
inductive ucs_status_t where
  | UCS_OK
  | UCS_INPROGRESS
  | UCS_ERR (code : Int)
deriving DecidableEq, Repr

/-- The value `ucp_tag_send_nb` returns: an error, `UCS_OK` for a send completed
at once, or the request of a send in progress. -/
inductive ucs_status_ptr_t where
  | error (code : Int)
  | UCS_OK
  | request (id : Nat)
deriving DecidableEq, Repr

/-- Modelled from the spec: the enumeration `status_code` of `protocols.hpp`,
the status carried by an acknowledgment; the source names `OK` and `INVALID`. -/
inductive status_code where
  | INVALID
  | OK
  | ERROR
deriving DecidableEq, Repr

/-- A destination `node`, with the identifier printed in error messages. -/
structure node where
  id : String
deriving DecidableEq, Repr

/-- What the UCX worker answers for one destination during
`send_begin_transmission`: the status `ucp_tag_send_nbr` returns, the statuses
the successive `ucp_request_check_status` calls return, the status
`ucp_tag_recv_nbr` returns, the statuses the successive
`ucp_tag_recv_request_test` calls return, and the status code written to
`recv_begin_status` by the receive. -/
structure begin_transmission_events where
  send_status : ucs_status_t
  send_checks : List ucs_status_t
  recv_status : ucs_status_t
  recv_tests : List ucs_status_t
  recv_begin_status : status_code
deriving DecidableEq, Repr

/-- The loop `if (status == UCS_INPROGRESS) do { status = check(); } while
(status == UCS_INPROGRESS)`: the status on leaving the loop, `none` when the
answers at hand end before the loop does. -/
def poll_status (status : ucs_status_t) (checks : List ucs_status_t) : Option ucs_status_t :=
  if status = ucs_status_t.UCS_INPROGRESS then
    checks.find? fun s => decide (s ≠ ucs_status_t.UCS_INPROGRESS)
  else some status

/-- Function `ucx_buffer_transport::send_begin_transmission` on the counter of
begin transmissions: `some (ok n)` when it returns with the counter at `n`,
`some (error what)` when it throws, `none` when it is still polling at the end of
the answers at hand. -/
def send_begin_transmission :
    List (node × begin_transmission_events) → Nat → Option (Except String Nat)
  | [], transmitted_begin_frames => some (.ok transmitted_begin_frames)
  | (node, events) :: rest, transmitted_begin_frames =>
    match poll_status events.send_status events.send_checks with
    | none => none
    | some status =>
      if status ≠ ucs_status_t.UCS_OK then
        some (.error ("Was not able to send begin transmission to " ++ node.id))
      else
        match poll_status events.recv_status events.recv_tests with
        | none => none
        | some status =>
          if status ≠ ucs_status_t.UCS_OK then
            some (.error
              ("Was not able to receive acknowledgment of begin transmission from " ++ node.id))
          else
            send_begin_transmission rest
              (if events.recv_begin_status = status_code.OK then transmitted_begin_frames + 1
               else transmitted_begin_frames)

/-- Function `ucx_buffer_transport::send_impl` on the counter of transmitted
frames: `requests` holds what `ucp_tag_send_nb` returned for each destination.
The function has no `throw`; it always returns. -/
def send_impl (requests : List ucs_status_ptr_t) (transmitted_frames : Nat) : Except String Nat :=
  .ok (requests.foldl
    (fun transmitted request =>
      match request with
      | ucs_status_ptr_t.error _ => transmitted
      | ucs_status_ptr_t.UCS_OK => transmitted + 1
      | ucs_status_ptr_t.request _ => transmitted)
    transmitted_frames)

/-- Function `send_callback_c` on the counter of transmitted frames: the
completion status is not looked at. -/
def send_callback_c (_status : ucs_status_t) (transmitted_frames : Nat) : Nat :=
  transmitted_frames + 1

/-- The predicate `wait_until_complete` waits for. -/
def wait_until_complete_condition (transmitted_frames : Nat) (buffer_sizes : List Nat)
    (destinations : List node) : Bool :=
  if transmitted_frames ≥ std.size_mul buffer_sizes.length destinations.length then true
  else false

end comm

/-! ## Reference forms used to state the properties of `getTableScanInfo` -/

/-- The sort parameters numbered from `i`, each one preceded by the separator
`", "`, followed by `tail`: the shape in which the proofs walk a sort line. -/
def sort_params_from (i : Nat) : List (Nat × cudf.order) → List Char → List Char
  | [], tail => tail
  | p :: rest, tail =>
    ',' :: ' ' :: (ral.operators.sort_param i p.1 p.2 ++ sort_params_from (i + 1) rest tail)

/-- The parameter `fetch=[N]` preceded by the separator, nothing when the line
has no limit. -/
def fetch_tail : Option Nat → List Char
  | none => []
  | some n => ',' :: ' ' :: ral.operators.fetch_param n

/-! ## Standard containers -/

namespace std

/-- The function `std::to_string` on an `int`. -/
def to_string_int (x : Int) : List Char :=
  if x < 0 then '-' :: to_string (-x).toNat else to_string x.toNat

/-- The call `s.insert(x)` on a `std::set` ordered by `lt`, the set given as the
list of its elements in order: `x` goes to its place in the order, and the set
stays as it is when it holds an element equivalent to `x` (neither less than
the other). -/
def set_insert {α : Type} (lt : α → α → Bool) : List α → α → List α
  | [], x => [x]
  | y :: s, x =>
    if lt x y then x :: y :: s
    else if lt y x then y :: set_insert lt s x
    else y :: s

/-- The call `m.find(k)` on a map given as the list of its entries: the value
stored under `k`, `none` for `m.end()`. -/
def map_find {κ γ : Type} [DecidableEq κ] : List (κ × γ) → κ → Option γ
  | [], _ => none
  | e :: m, k => if e.1 = k then some e.2 else map_find m k

/-- The call `m.insert` of the pair of `k` and `v`: a new entry, unless `m` has an entry
under `k`, which stays. -/
def map_insert {κ γ : Type} [DecidableEq κ] (m : List (κ × γ)) (k : κ) (v : γ) : List (κ × γ) :=
  match map_find m k with
  | some _ => m
  | none => m ++ [(k, v)]

/-- The call `m.erase(k)`. -/
def map_erase {κ γ : Type} [DecidableEq κ] (m : List (κ × γ)) (k : κ) : List (κ × γ) :=
  m.filter fun e => e.1 ≠ k

end std

/-! ## `engine/src/execution_graph/logic_controllers/taskflow/graph.h` -/

namespace ral.cache

/-- A cache machine as `create_cache_machine` makes it: a `CacheMachine` with its
name, or a `ConcatenatingCacheMachine` with its byte count, its `concat_all`
flag and its name. The context, handed on unchanged, is left out. -/
inductive CacheMachine where
  | make_CacheMachine (cache_machine_name : List Char)
  | make_ConcatenatingCacheMachine (concat_cache_num_bytes : Nat) (concat_all : Bool)
      (cache_machine_name : List Char)
deriving DecidableEq, Repr

/-- The name a cache machine was made with. -/
def CacheMachine.name : CacheMachine → List Char
  | .make_CacheMachine cache_machine_name => cache_machine_name
  | .make_ConcatenatingCacheMachine _ _ cache_machine_name => cache_machine_name

/-- Function `create_cache_machine`; `none` is the null pointer.
`concat_cache_num_bytes` is `config.concat_cache_num_bytes`. -/
def create_cache_machine (config : cache_settings) (concat_cache_num_bytes : Nat)
    (cache_machine_name : List Char) : Option CacheMachine :=
  if config.type = CacheType.SIMPLE ∨ config.type = CacheType.FOR_EACH then
    some (CacheMachine.make_CacheMachine cache_machine_name)
  else if config.type = CacheType.CONCATENATING then
    some (CacheMachine.make_ConcatenatingCacheMachine concat_cache_num_bytes config.concat_all
      cache_machine_name)
  else none

/-- Function `create_cache_machines`. `num_partitions` is
`config.num_partitions` and `concat_cache_num_bytes` is
`config.concat_cache_num_bytes`. -/
def create_cache_machines (config : cache_settings) (num_partitions : Int)
    (concat_cache_num_bytes : Nat) (source_port : List Char) (source_kernel_id : Int) :
    List (Option CacheMachine) :=
  if num_partitions > 1 then
    (List.range num_partitions.toNat).foldl
      (fun machines i =>
        let cache_machine_name :=
          std.to_string_int source_kernel_id ++ ['_'] ++ source_port ++ ['_'] ++ std.to_string i
        machines ++ [create_cache_machine config concat_cache_num_bytes cache_machine_name])
      []
  else
    let cache_machine_name := std.to_string_int source_kernel_id ++ ['_'] ++ source_port
    [create_cache_machine config concat_cache_num_bytes cache_machine_name]

/-- The members `source` and `target` and the two port names of `graph::Edge`. -/
structure Edge where
  source : Int
  target : Int
  source_port_name : List Char
  target_port_name : List Char
deriving DecidableEq, Repr

/-- The member `Edge::operator<`. -/
def Edge.lt (self e : Edge) : Bool :=
  decide (self.target < e.target) || (decide (self.target = e.target) && decide (self.source < e.source))

/-- The member `Edge::operator==`. -/
def Edge.eq (self e : Edge) : Bool :=
  decide (self.target = e.target) && decide (self.source = e.source)

end ral.cache

/-! ## Limit in `OrderBy.cpp` -/

namespace ral.frame

/-- A `BlazingTable` or `BlazingTableView`: the rows of the table and the column
names. -/
structure BlazingTable (α : Type) where
  view : List α
  names : List (List Char)
deriving DecidableEq, Repr

/-- The member `num_rows()`. -/
def BlazingTable.num_rows {α : Type} (table : BlazingTable α) : Int := table.view.length

end ral.frame

namespace ral.operators

/-- The statement of `logicalLimit` that a call ends in. -/
inductive logicalLimit_path where
  | assertion_failed
  | empty_like
  | split
  | whole_table
deriving DecidableEq, Repr

/-- The control flow of `logicalLimit`: the assertion, then the three branches.
`num_rows` is `table.num_rows()`. -/
def logicalLimit_control (num_rows : Int) (limitRows : Int) : logicalLimit_path :=
  if ¬ limitRows < num_rows then logicalLimit_path.assertion_failed
  else if limitRows = 0 then logicalLimit_path.empty_like
  else if limitRows < num_rows then logicalLimit_path.split
  else logicalLimit_path.whole_table

/-- Function `logicalLimit`, on a table given as its list of rows; `none` when
the assertion fails or `cudf::split` throws. -/
def logicalLimit {α : Type} (table : List α) (limitRows : Int) : Option (List α) :=
  match logicalLimit_control table.length limitRows with
  | logicalLimit_path.assertion_failed => none
  | logicalLimit_path.empty_like => some []
  | logicalLimit_path.split =>
    if limitRows < 0 then none
    else
      let splits := [limitRows.toNat]
      (cudf.split table splits).bind fun split_table => split_table.head?
  | logicalLimit_path.whole_table => some table

/-- The call of `logicalLimit` that `limit_table` makes: the table and the limit
it passes, the 64-bit limit converted to `cudf::size_type`; `none` when
`limit_table` returns without the call. -/
def limit_table_logicalLimit_call {α : Type} (table : ral.frame.BlazingTable α)
    (num_rows_limit : Int) : Option (List α × Int) :=
  let table_rows := table.num_rows
  if num_rows_limit ≤ 0 then none
  else if num_rows_limit ≥ table_rows then none
  else some (table.view, comm.to_int32 num_rows_limit)

/-- Function `limit_table`: the limited table, the flag and the limit that is
left; `none` when `logicalLimit` does not return. -/
def limit_table {α : Type} (table : ral.frame.BlazingTable α) (num_rows_limit : Int) :
    Option (ral.frame.BlazingTable α × Bool × Int) :=
  let table_rows := table.num_rows
  if num_rows_limit ≤ 0 then some (⟨[], table.names⟩, false, 0)
  else if num_rows_limit ≥ table_rows then some (⟨table.view, table.names⟩, true, num_rows_limit - table_rows)
  else
    (logicalLimit table.view (comm.to_int32 num_rows_limit)).map fun limited =>
      (⟨limited, table.names⟩, false, 0)

end ral.operators

/-! ## The registry of graphs in `protocols.cpp` -/

namespace comm

/-- The member `_ctx_token_to_graph_map` of `graphs_info`, a map from context
tokens to graphs. -/
structure graphs_info (γ : Type) where
  _ctx_token_to_graph_map : List (Int × γ)

/-- The registry of a program at its start. -/
def graphs_info.getInstance {γ : Type} : graphs_info γ := ⟨[]⟩

/-- Function `graphs_info::register_graph`. -/
def graphs_info.register_graph {γ : Type} (self : graphs_info γ) (ctx_token : Int) (graph : γ) :
    graphs_info γ :=
  ⟨std.map_insert self._ctx_token_to_graph_map ctx_token graph⟩

/-- Function `graphs_info::deregister_graph`. -/
def graphs_info.deregister_graph {γ : Type} (self : graphs_info γ) (ctx_token : Int) :
    graphs_info γ :=
  match std.map_find self._ctx_token_to_graph_map ctx_token with
  | none => self
  | some _ => ⟨std.map_erase self._ctx_token_to_graph_map ctx_token⟩

/-- Function `graphs_info::get_graph`; the error is the text of the
`std::runtime_error`. -/
def graphs_info.get_graph {γ : Type} (self : graphs_info γ) (ctx_token : Int) : Except String γ :=
  match std.map_find self._ctx_token_to_graph_map ctx_token with
  | none => Except.error "Graph not found"
  | some graph => Except.ok graph

/-- A call on the registry. -/
inductive graphs_info_call (γ : Type) where
  | register_graph (ctx_token : Int) (graph : γ)
  | deregister_graph (ctx_token : Int)

/-- The registry after a call. -/
def graphs_info.call {γ : Type} (self : graphs_info γ) : graphs_info_call γ → graphs_info γ
  | .register_graph ctx_token graph => self.register_graph ctx_token graph
  | .deregister_graph ctx_token => self.deregister_graph ctx_token

/-- The registry after a sequence of calls from the start of the program. -/
def graphs_info.after {γ : Type} (calls : List (graphs_info_call γ)) : graphs_info γ :=
  calls.foldl graphs_info.call graphs_info.getInstance

/-- Whether a call is `deregister_graph(t)`. -/
def graphs_info_call.deregisters {γ : Type} (t : Int) : graphs_info_call γ → Bool
  | .register_graph _ _ => false
  | .deregister_graph ctx_token => decide (ctx_token = t)

/-- The calls made since the last `deregister_graph(t)`. -/
def calls_since_last_deregister {γ : Type} (t : Int) (calls : List (graphs_info_call γ)) :
    List (graphs_info_call γ) :=
  (calls.reverse.takeWhile fun c => !c.deregisters t).reverse

/-- The graph of the earliest `register_graph(t, .)` among the calls. -/
def earliest_registration {γ : Type} (t : Int) : List (graphs_info_call γ) → Option γ
  | [] => none
  | .register_graph ctx_token graph :: calls =>
    if ctx_token = t then some graph else earliest_registration t calls
  | .deregister_graph _ :: calls => earliest_registration t calls

end comm
/-! ## Properties of the binary64 model -/

namespace Dbl

theorem SCALE_pos : 0 < SCALE := by
  unfold SCALE; positivity

theorem roundHalfEven_ge (N D : Nat) : N / D ≤ roundHalfEven N D := by
  unfold roundHalfEven
  simp only
  split_ifs <;> omega

theorem roundHalfEven_le (N D : Nat) : roundHalfEven N D ≤ N / D + 1 := by
  unfold roundHalfEven
  simp only
  split_ifs <;> omega

theorem roundHalfEven_down (N D : Nat) (h : 2 * (N % D) < D) : roundHalfEven N D = N / D := by
  unfold roundHalfEven
  simp only
  rw [if_pos h]

theorem roundHalfEven_up (N D : Nat) (h : roundHalfEven N D ≠ N / D) : D ≤ 2 * (N % D) := by
  by_contra hc
  exact h (roundHalfEven_down N D (by omega))

theorem bitLenAux_spec : ∀ (fuel n : Nat), n ≤ fuel →
    n < 2 ^ bitLenAux fuel n ∧ (n ≠ 0 → 2 ^ (bitLenAux fuel n - 1) ≤ n)
  | 0, n, h => by
    have : n = 0 := by omega
    subst this
    simp [bitLenAux]
  | fuel + 1, n, h => by
    unfold bitLenAux
    by_cases hn : n = 0
    · subst hn; simp
    · rw [if_neg hn]
      have ih := bitLenAux_spec fuel (n / 2) (by omega)
      obtain ⟨ih1, ih2⟩ := ih
      constructor
      · rw [pow_succ]; omega
      · intro _
        simp only [Nat.add_sub_cancel]
        by_cases h2 : n / 2 = 0
        · have h1 : n = 1 := by omega
          subst h1
          simp [bitLenAux]
          cases fuel <;> simp [bitLenAux]
        · have := ih2 h2
          have hpos : 0 < bitLenAux fuel (n / 2) := by
            by_contra hc
            have : bitLenAux fuel (n / 2) = 0 := by omega
            rw [this] at ih1
            simp at ih1
            exact h2 ih1
          obtain ⟨k, hk⟩ : ∃ k, bitLenAux fuel (n / 2) = k + 1 := ⟨_, (Nat.succ_pred_eq_of_pos hpos).symm⟩
          rw [hk] at this ⊢
          simp only [Nat.add_sub_cancel] at this
          rw [pow_succ]; omega

theorem lt_two_pow_bitLen (n : Nat) : n < 2 ^ bitLen n :=
  (bitLenAux_spec n n le_rfl).1

theorem two_pow_le_of_bitLen (n : Nat) (h : n ≠ 0) : 2 ^ (bitLen n - 1) ≤ n :=
  (bitLenAux_spec n n le_rfl).2 h

/-- When the rounding position is above zero the quotient has more than 53 bits. -/
theorem two_pow_le_of_shift (q : Nat) (hs : 0 < bitLen q - 53) :
    2 ^ 52 * 2 ^ (bitLen q - 53) ≤ q := by
  have hq : q ≠ 0 := by
    rintro rfl
    simp [bitLen, bitLenAux] at hs
  have := two_pow_le_of_bitLen q hq
  rw [← pow_add]
  have e : 52 + (bitLen q - 53) = bitLen q - 1 := by omega
  rw [e]; exact this

theorem lt_of_shift (q : Nat) : q < 2 ^ 53 * 2 ^ (bitLen q - 53) := by
  have := lt_two_pow_bitLen q
  rw [← pow_add]
  exact lt_of_lt_of_le this (Nat.pow_le_pow_right (by norm_num) (by omega))

theorem roundHalfEven_scale (N D c : Nat) (hc : 0 < c) :
    roundHalfEven (N * c) (D * c) = roundHalfEven N D := by
  unfold roundHalfEven
  simp only
  rw [Nat.mul_div_mul_right _ _ hc, Nat.mul_mod_mul_right]
  have e1 : (2 * (N % D * c) < D * c) ↔ (2 * (N % D) < D) := by
    rw [← Nat.mul_assoc]; exact Nat.mul_lt_mul_right hc
  have e2 : (D * c < 2 * (N % D * c)) ↔ (D < 2 * (N % D)) := by
    rw [← Nat.mul_assoc]; exact Nat.mul_lt_mul_right hc
  simp only [e1, e2]

theorem round_scale (N D c : Nat) (hc : 0 < c) : round (N * c) (D * c) = round N D := by
  unfold round
  simp only
  have e : N * c * SCALE = N * SCALE * c := by ring
  rw [e, Nat.mul_div_mul_right _ _ hc]
  have e2 : ∀ s, D * c * 2 ^ s = D * 2 ^ s * c := fun s => by ring
  rw [e2, roundHalfEven_scale _ _ _ hc]

/-- Rounding never goes below a representable value that the exact result reaches. -/
theorem round_lb (N D A i : Nat) (hA : A < 2 ^ 53) (hD : 0 < D)
    (h : A * 2 ^ i * D ≤ N * SCALE) : A * 2 ^ i ≤ round N D := by
  unfold round
  simp only
  generalize N * SCALE = X at h ⊢
  have hYq : A * 2 ^ i ≤ X / D := (Nat.le_div_iff_mul_le hD).2 h
  have hs := two_pow_le_of_shift (X / D)
  generalize bitLen (X / D) - 53 = s at hs ⊢
  have hm := roundHalfEven_ge X (D * 2 ^ s)
  rw [← Nat.div_div_eq_div_mul] at hm
  have hP : 0 < 2 ^ s := by positivity
  by_cases his : s ≤ i
  · obtain ⟨j, rfl⟩ : ∃ j, i = j + s := ⟨i - s, by omega⟩
    rw [pow_add, ← Nat.mul_assoc] at hYq ⊢
    have : A * 2 ^ j ≤ X / D / 2 ^ s := (Nat.le_div_iff_mul_le hP).2 hYq
    exact Nat.mul_le_mul_right _ (le_trans this hm)
  · have hs0 : 0 < s := by omega
    have h1 := hs hs0
    have h2 : 2 ^ 52 ≤ X / D / 2 ^ s := (Nat.le_div_iff_mul_le hP).2 h1
    have h3 : A * 2 ^ i ≤ 2 ^ 52 * 2 ^ s := by
      have : 2 ^ 53 * 2 ^ i ≤ 2 ^ 52 * 2 ^ s := by
        rw [← pow_add, ← pow_add]
        exact Nat.pow_le_pow_right (by norm_num) (by omega)
      exact le_trans (Nat.mul_le_mul_right _ hA.le) this
    exact le_trans h3 (Nat.mul_le_mul_right _ (le_trans h2 hm))

/-- Rounding never goes above a representable value that bounds the exact result. -/
theorem round_ub (N D A i : Nat) (hA : A < 2 ^ 53) (hD : 0 < D)
    (h : N * SCALE ≤ A * 2 ^ i * D) : round N D ≤ A * 2 ^ i := by
  unfold round
  simp only
  generalize N * SCALE = X at h ⊢
  have hqY : X / D ≤ A * 2 ^ i := Nat.div_le_of_le_mul (by rw [Nat.mul_comm]; exact h)
  have hs := two_pow_le_of_shift (X / D)
  generalize bitLen (X / D) - 53 = s at hs ⊢
  have hP : 0 < 2 ^ s := by positivity
  have hD2 : 0 < D * 2 ^ s := Nat.mul_pos hD hP
  by_cases his : s ≤ i
  · obtain ⟨j, rfl⟩ : ∃ j, i = j + s := ⟨i - s, by omega⟩
    rw [pow_add, ← Nat.mul_assoc] at h ⊢
    apply Nat.mul_le_mul_right
    have h2 : X ≤ (D * 2 ^ s) * (A * 2 ^ j) := by
      calc X ≤ A * 2 ^ j * 2 ^ s * D := h
        _ = (D * 2 ^ s) * (A * 2 ^ j) := by ring
    have hq0 : X / (D * 2 ^ s) ≤ A * 2 ^ j := Nat.div_le_of_le_mul h2
    rcases Nat.lt_or_ge (X / (D * 2 ^ s)) (A * 2 ^ j) with hlt | hge
    · exact le_trans (roundHalfEven_le _ _) hlt
    · have heq : X / (D * 2 ^ s) = A * 2 ^ j := le_antisymm hq0 hge
      have h3 : (D * 2 ^ s) * (X / (D * 2 ^ s)) + X % (D * 2 ^ s) = X := Nat.div_add_mod _ _
      rw [heq] at h3
      have hr : X % (D * 2 ^ s) = 0 := by omega
      rw [roundHalfEven_down _ _ (by rw [hr]; omega), heq]
  · exfalso
    have hs0 : 0 < s := by omega
    have h1 := hs hs0
    have : 2 ^ 53 * 2 ^ i ≤ 2 ^ 52 * 2 ^ s := by
      rw [← pow_add, ← pow_add]
      exact Nat.pow_le_pow_right (by norm_num) (by omega)
    have h4 : A * 2 ^ i < 2 ^ 53 * 2 ^ i := Nat.mul_lt_mul_of_pos_right hA (by positivity)
    omega

/-- A result less than half a unit in the last place above `Y` rounds to `Y`. -/
theorem round_near_down (N D Y : Nat) (hD : 0 < D)
    (hdvd : 2 ^ (bitLen (N * SCALE / D) - 53) ∣ Y) (hle : Y * D ≤ N * SCALE)
    (hnear : 2 * (N * SCALE - Y * D) < D * 2 ^ (bitLen (N * SCALE / D) - 53)) :
    round N D = Y := by
  unfold round
  simp only
  generalize N * SCALE = X at *
  generalize bitLen (X / D) - 53 = s at *
  obtain ⟨Z, rfl⟩ := hdvd
  have hP : 0 < 2 ^ s := by positivity
  have hD2 : 0 < D * 2 ^ s := Nat.mul_pos hD hP
  have e : 2 ^ s * Z * D = (D * 2 ^ s) * Z := by ring
  rw [e] at hle hnear
  have key := (Nat.div_mod_unique hD2).2
    (show (X - D * 2 ^ s * Z) + D * 2 ^ s * Z = X ∧ X - D * 2 ^ s * Z < D * 2 ^ s from
      ⟨by omega, by omega⟩)
  rw [roundHalfEven_down _ _ (by rw [key.2]; exact hnear), key.1, Nat.mul_comm]

/-- A result more than half a unit in the last place below `Y` rounds below `Y`. -/
theorem round_lt_of_far (N D Y : Nat) (hD : 0 < D)
    (hdvd : 2 ^ (bitLen (N * SCALE / D) - 53) ∣ Y) (hlt : N * SCALE < Y * D)
    (hfar : D * 2 ^ (bitLen (N * SCALE / D) - 53) < 2 * (Y * D - N * SCALE)) :
    round N D < Y := by
  unfold round
  simp only
  generalize N * SCALE = X at *
  generalize bitLen (X / D) - 53 = s at *
  obtain ⟨Z, rfl⟩ := hdvd
  have hP : 0 < 2 ^ s := by positivity
  have hD2 : 0 < D * 2 ^ s := Nat.mul_pos hD hP
  have e : 2 ^ s * Z * D = Z * (D * 2 ^ s) := by ring
  rw [e] at hlt hfar
  rw [Nat.mul_comm (2 ^ s) Z]
  apply Nat.mul_lt_mul_of_pos_right _ hP
  have hq0 : X / (D * 2 ^ s) < Z := (Nat.div_lt_iff_lt_mul hD2).2 hlt
  by_cases hm : roundHalfEven X (D * 2 ^ s) = X / (D * 2 ^ s)
  · rw [hm]; exact hq0
  · have hup := roundHalfEven_up _ _ hm
    have hle := roundHalfEven_le X (D * 2 ^ s)
    rcases Nat.lt_or_ge (X / (D * 2 ^ s) + 1) Z with h1 | h1
    · omega
    · exfalso
      have hZ : Z = X / (D * 2 ^ s) + 1 := by omega
      have h3 : (D * 2 ^ s) * (X / (D * 2 ^ s)) + X % (D * 2 ^ s) = X := Nat.div_add_mod _ _
      have h4 : Z * (D * 2 ^ s) = (D * 2 ^ s) * (X / (D * 2 ^ s)) + D * 2 ^ s := by
        rw [hZ]; ring
      omega

theorem bitLen_le_of_lt (n k : Nat) (h : n < 2 ^ k) : bitLen n ≤ k := by
  by_cases hn : n = 0
  · subst hn; simp [bitLen, bitLenAux]
  · have h1 := two_pow_le_of_bitLen n hn
    have h2 : 2 ^ (bitLen n - 1) < 2 ^ k := lt_of_le_of_lt h1 h
    have := (Nat.pow_lt_pow_iff_right (by norm_num : 1 < 2)).1 h2
    omega

theorem SCALE_eq : SCALE = 2 ^ 1074 := by
  unfold SCALE; rfl

theorem two_pow_dvd_SCALE (s : Nat) (h : s ≤ 1074) : 2 ^ s ∣ SCALE := by
  rw [SCALE_eq]
  exact pow_dvd_pow 2 h

theorem two_pow_le_SCALE (k : Nat) (h : k ≤ 1074) : 2 ^ k ≤ SCALE :=
  Nat.le_of_dvd SCALE_pos (two_pow_dvd_SCALE k h)

theorem round_lb_nat (N D K : Nat) (hK : K < 2 ^ 53) (hD : 0 < D) (h : K * D ≤ N) :
    K * SCALE ≤ round N D := by
  have h1 : K * 2 ^ 1074 * D ≤ N * SCALE := by
    rw [← SCALE_eq]
    calc K * SCALE * D = (K * D) * SCALE := by ring
      _ ≤ N * SCALE := Nat.mul_le_mul_right _ h
  have h2 := round_lb N D K 1074 hK hD h1
  rw [← SCALE_eq] at h2
  exact h2

theorem round_ub_nat (N D K : Nat) (hK : K < 2 ^ 53) (hD : 0 < D) (h : N ≤ K * D) :
    round N D ≤ K * SCALE := by
  have h1 : N * SCALE ≤ K * 2 ^ 1074 * D := by
    rw [← SCALE_eq]
    calc N * SCALE ≤ (K * D) * SCALE := Nat.mul_le_mul_right _ h
      _ = K * SCALE * D := by ring
  have h2 := round_ub N D K 1074 hK hD h1
  rw [← SCALE_eq] at h2
  exact h2

theorem ofNat_exact (n : Nat) (h : n < 2 ^ 53) : ofNat n = n * SCALE :=
  le_antisymm (round_ub_nat n 1 n h (by norm_num) (by omega))
    (round_lb_nat n 1 n h (by norm_num) (by omega))

theorem ofNat_lb (n K : Nat) (hK : K < 2 ^ 53) (h : K ≤ n) : K * SCALE ≤ ofNat n :=
  round_lb_nat n 1 K hK (by norm_num) (by omega)

theorem mul_nat (a b : Nat) (h : a * b < 2 ^ 53) :
    mul (a * SCALE) (b * SCALE) = a * b * SCALE := by
  unfold mul
  have e : a * SCALE * (b * SCALE) = (a * b) * (SCALE * SCALE) := by ring
  have e1 : round (a * b * (SCALE * SCALE)) (SCALE * SCALE)
      = round (a * b * (SCALE * SCALE)) (1 * (SCALE * SCALE)) := by rw [Nat.one_mul]
  rw [e, e1, round_scale _ _ _ (Nat.mul_pos SCALE_pos SCALE_pos)]
  exact ofNat_exact _ h

theorem trunc_div_nat (a c : Nat) (ha : a < 2 ^ 53) (hc : 0 < c) (hc2 : c < 2 ^ 53) :
    trunc (div (a * SCALE) (c * SCALE)) = a / c := by
  unfold div trunc
  rw [round_scale _ _ _ SCALE_pos]
  have hS := SCALE_pos
  have hQc : a / c * c ≤ a := Nat.div_mul_le_self a c
  have hQ : a / c < 2 ^ 53 := lt_of_le_of_lt (Nat.div_le_self a c) ha
  have hlo : a / c * SCALE ≤ round a c := round_lb_nat a c (a / c) hQ hc hQc
  have hac : a < (a / c + 1) * c := by
    rw [Nat.mul_comm]; exact Nat.lt_mul_div_succ a hc
  have hqlt : a * SCALE / c < 2 ^ 53 * SCALE :=
    lt_of_le_of_lt (Nat.div_le_self _ _) (Nat.mul_lt_mul_of_pos_right ha hS)
  have hsle : bitLen (a * SCALE / c) - 53 ≤ 1074 := by
    have : bitLen (a * SCALE / c) ≤ 53 + 1074 :=
      bitLen_le_of_lt _ _ (by rw [pow_add, ← SCALE_eq]; exact hqlt)
    omega
  have hhi : round a c < (a / c + 1) * SCALE := by
    apply round_lt_of_far a c _ hc
    · exact Dvd.dvd.mul_left (two_pow_dvd_SCALE _ hsle) _
    · calc a * SCALE < (a / c + 1) * c * SCALE := Nat.mul_lt_mul_of_pos_right hac hS
        _ = (a / c + 1) * SCALE * c := by ring
    · have hs := two_pow_le_of_shift (a * SCALE / c)
      generalize bitLen (a * SCALE / c) - 53 = s at hs hsle ⊢
      have hcs : c * 2 ^ s < 2 * SCALE := by
        rcases Nat.eq_zero_or_pos s with h0 | h0
        · subst h0
          have : 2 ^ 53 ≤ SCALE := two_pow_le_SCALE 53 (by norm_num)
          omega
        · have h1 := hs h0
          have h2 : c * (a * SCALE / c) ≤ a * SCALE := Nat.mul_div_le _ _
          have h3 : c * (2 ^ 52 * 2 ^ s) ≤ a * SCALE :=
            le_trans (Nat.mul_le_mul_left _ h1) h2
          have h4 : a * SCALE < 2 ^ 53 * SCALE := Nat.mul_lt_mul_of_pos_right ha hS
          have h5 : 2 ^ 52 * (c * 2 ^ s) < 2 ^ 52 * (2 * SCALE) := by
            calc 2 ^ 52 * (c * 2 ^ s) = c * (2 ^ 52 * 2 ^ s) := by ring
              _ ≤ a * SCALE := h3
              _ < 2 ^ 53 * SCALE := h4
              _ = 2 ^ 52 * (2 * SCALE) := by ring
          exact Nat.lt_of_mul_lt_mul_left h5
      have hd : SCALE ≤ (a / c + 1) * SCALE * c - a * SCALE := by
        have : (a + 1) * SCALE ≤ (a / c + 1) * SCALE * c := by
          calc (a + 1) * SCALE ≤ ((a / c + 1) * c) * SCALE := Nat.mul_le_mul_right _ hac
            _ = (a / c + 1) * SCALE * c := by ring
        have e : (a + 1) * SCALE = a * SCALE + SCALE := by ring
        omega
      omega
  exact Nat.div_eq_of_lt_le hlo hhi

theorem SCALE_eq_mul (i j : Nat) (h : i + j = 1074) : SCALE = 2 ^ i * 2 ^ j := by
  rw [SCALE_eq, ← pow_add, h]

theorem ceil_nat (k : Nat) : ceil (k * SCALE) = k := by
  unfold ceil
  have hS := SCALE_pos
  apply Nat.div_eq_of_lt_le
  · omega
  · have : (k + 1) * SCALE = k * SCALE + SCALE := by ring
    omega

theorem mul_tenth (a : Nat) :
    mul (a * SCALE) tenth = round (a * 3602879701896397) (2 ^ 55) := by
  unfold mul tenth
  have hS : SCALE = 2 ^ 55 * 2 ^ 1019 := SCALE_eq_mul 55 1019 (by norm_num)
  have e1 : a * SCALE * (3602879701896397 * 2 ^ 1019)
      = (a * 3602879701896397) * (2 ^ 1019 * SCALE) := by ring
  have e2 : SCALE * SCALE = 2 ^ 55 * (2 ^ 1019 * SCALE) := by
    nth_rewrite 1 [hS]; ring
  rw [e1, e2, round_scale _ _ _ (Nat.mul_pos (by positivity) SCALE_pos)]

/-- The product `n * 0.1` followed by `std::ceil` is the exact ceiling of `n / 10`. -/
theorem ceil_mul_tenth (n : Nat) (h : n < 2 ^ 52) :
    ceil (mul (ofNat n) tenth) = (n + 9) / 10 := by
  rw [ofNat_exact n (lt_trans h (by norm_num)), mul_tenth]
  have hSpos := SCALE_pos
  have hD : 0 < 2 ^ 55 := by norm_num
  obtain ⟨k, r, hr, rfl⟩ : ∃ k r, r < 10 ∧ n = 10 * k + r :=
    ⟨n / 10, n % 10, Nat.mod_lt _ (by norm_num), (Nat.div_add_mod n 10).symm⟩
  rcases Nat.eq_zero_or_pos r with hr0 | hr0
  · -- a multiple of ten: the product rounds to `k` exactly
    subst hr0
    have hgoal : (10 * k + 0 + 9) / 10 = k := by omega
    rw [hgoal]
    have hS : SCALE = 2 ^ 1019 * 2 ^ 55 := SCALE_eq_mul 1019 55 (by norm_num)
    have hq : (10 * k + 0) * 3602879701896397 * SCALE / 2 ^ 55
        = (10 * k + 0) * 3602879701896397 * 2 ^ 1019 := by
      rw [hS, ← Nat.mul_assoc]
      exact Nat.mul_div_cancel _ hD
    have hkS : k * SCALE ≤ (10 * k + 0) * 3602879701896397 * 2 ^ 1019 := by
      have : k * 2 ^ 55 ≤ (10 * k + 0) * 3602879701896397 := by omega
      calc k * SCALE = (k * 2 ^ 55) * 2 ^ 1019 := by rw [hS]; ring
        _ ≤ _ := Nat.mul_le_mul_right _ this
    have hround : round ((10 * k + 0) * 3602879701896397) (2 ^ 55) = k * SCALE := by
      apply round_near_down _ _ _ hD
      · apply Dvd.dvd.mul_left
        apply two_pow_dvd_SCALE
        rw [hq]
        have hlt : (10 * k + 0) * 3602879701896397 * 2 ^ 1019 < 2 ^ (52 + 52 + 1019) := by
          rw [pow_add]
          apply Nat.mul_lt_mul_of_pos_right _ (by positivity)
          rw [pow_add]
          exact Nat.mul_lt_mul_of_lt_of_lt h (by norm_num)
        have := bitLen_le_of_lt _ _ hlt
        omega
      · have : k * 2 ^ 55 ≤ (10 * k + 0) * 3602879701896397 := by omega
        calc k * SCALE * 2 ^ 55 = (k * 2 ^ 55) * SCALE := by ring
          _ ≤ _ := Nat.mul_le_mul_right _ this
      · have hlt := lt_of_shift ((10 * k + 0) * 3602879701896397 * SCALE / 2 ^ 55)
        generalize bitLen ((10 * k + 0) * 3602879701896397 * SCALE / 2 ^ 55) - 53 = s at hlt ⊢
        rw [hq] at hlt
        have e : (10 * k + 0) * 3602879701896397 * SCALE - k * SCALE * 2 ^ 55
            = 2 * (k * SCALE) := by
          have e1 : (10 * k + 0) * 3602879701896397 = k * 2 ^ 55 + 2 * k := by omega
          rw [e1]
          have e2 : (k * 2 ^ 55 + 2 * k) * SCALE = k * SCALE * 2 ^ 55 + 2 * (k * SCALE) := by
            ring
          omega
        rw [e]
        generalize 2 ^ s = P at hlt ⊢
        omega
    rw [hround, ceil_nat]
  · -- otherwise the product lies strictly between `k` and `k + 1`
    have hgoal : (10 * k + r + 9) / 10 = k + 1 := by omega
    rw [hgoal]
    have hk : k < 2 ^ 49 := by omega
    have hS4 : SCALE = 2 ^ 1070 * 2 ^ 4 := SCALE_eq_mul 1070 4 (by norm_num)
    have hlo : (16 * k + 1) * 2 ^ 1070
        ≤ round ((10 * k + r) * 3602879701896397) (2 ^ 55) := by
      apply round_lb _ _ _ _ (by omega) hD
      have : (16 * k + 1) * 2 ^ 55 ≤ (10 * k + r) * 3602879701896397 * 2 ^ 4 := by omega
      calc (16 * k + 1) * 2 ^ 1070 * 2 ^ 55 = ((16 * k + 1) * 2 ^ 55) * 2 ^ 1070 := by ring
        _ ≤ ((10 * k + r) * 3602879701896397 * 2 ^ 4) * 2 ^ 1070 :=
          Nat.mul_le_mul_right _ this
        _ = (10 * k + r) * 3602879701896397 * SCALE := by rw [hS4]; ring
    have hhi : round ((10 * k + r) * 3602879701896397) (2 ^ 55) ≤ (k + 1) * SCALE := by
      apply round_ub_nat _ _ _ (by omega) hD
      omega
    generalize round ((10 * k + r) * 3602879701896397) (2 ^ 55) = R at hlo hhi
    unfold ceil
    have hW : 0 < 2 ^ 1070 := by positivity
    rw [hS4] at hhi hSpos ⊢
    generalize 2 ^ 1070 = W at *
    have e1 : (16 * k + 1) * W = 16 * (k * W) + W := by ring
    have e2 : (k + 1) * (W * 2 ^ 4) = 16 * (k * W) + 16 * W := by ring
    rw [e1] at hlo
    rw [e2] at hhi
    apply Nat.div_eq_of_lt_le
    · rw [e2]; omega
    · have e3 : (k + 1 + 1) * (W * 2 ^ 4) = 16 * (k * W) + 32 * W := by ring
      rw [e3]; omega

/-- From ten thousand rows on, the product `n * 0.1` is at least one thousand. -/
theorem ceil_mul_tenth_ge (n : Nat) (h : 10000 ≤ n) :
    1000 ≤ ceil (mul (ofNat n) tenth) := by
  have h1 : 10000 * SCALE ≤ ofNat n := ofNat_lb n 10000 (by norm_num) h
  have hS : SCALE = 2 ^ 55 * 2 ^ 1019 := SCALE_eq_mul 55 1019 (by norm_num)
  have hSpos := SCALE_pos
  have h2 : 1000 * SCALE ≤ mul (ofNat n) tenth := by
    unfold mul
    apply round_lb_nat _ _ _ (by norm_num) (Nat.mul_pos SCALE_pos SCALE_pos)
    have h3 : SCALE ≤ 10 * tenth := by
      unfold tenth
      rw [hS]
      calc 2 ^ 55 * 2 ^ 1019 ≤ (10 * 3602879701896397) * 2 ^ 1019 :=
          Nat.mul_le_mul_right _ (by norm_num)
        _ = 10 * (3602879701896397 * 2 ^ 1019) := by ring
    calc 1000 * (SCALE * SCALE) = 1000 * SCALE * SCALE := by ring
      _ ≤ 1000 * SCALE * (10 * tenth) := Nat.mul_le_mul_left _ h3
      _ = (10000 * SCALE) * tenth := by ring
      _ ≤ ofNat n * tenth := Nat.mul_le_mul_right _ h1
  unfold ceil
  apply (Nat.le_div_iff_mul_le hSpos).2
  omega

theorem round_zero (D : Nat) (hD : 0 < D) : round 0 D = 0 := by
  have := round_ub_nat 0 D 0 (by norm_num) hD (by omega)
  omega

theorem mul_ofNat (a b : Nat) (h : a * b < 2 ^ 53) :
    mul (ofNat a) (ofNat b) = a * b * SCALE := by
  have hSS : 0 < SCALE * SCALE := Nat.mul_pos SCALE_pos SCALE_pos
  rcases Nat.eq_zero_or_pos a with ha | ha
  · subst ha
    rw [ofNat_exact 0 (by norm_num)]
    unfold mul
    simp only [Nat.zero_mul]
    exact round_zero _ hSS
  rcases Nat.eq_zero_or_pos b with hb | hb
  · subst hb
    rw [ofNat_exact 0 (by norm_num)]
    unfold mul
    simp only [Nat.zero_mul, Nat.mul_zero]
    exact round_zero _ hSS
  have ha2 : a < 2 ^ 53 := lt_of_le_of_lt (Nat.le_mul_of_pos_right a hb) h
  have hb2 : b < 2 ^ 53 := lt_of_le_of_lt (Nat.le_mul_of_pos_left b ha) h
  rw [ofNat_exact a ha2, ofNat_exact b hb2]
  exact mul_nat a b h

/-- The truncated double quotient `(double)a * (double)b / (double)c` is the
integer quotient when product and divisor are below `2 ^ 53`. -/
theorem trunc_div_mul_ofNat (a b c : Nat) (h : a * b < 2 ^ 53) (hc : 0 < c) (hc2 : c < 2 ^ 53) :
    trunc (div (mul (ofNat a) (ofNat b)) (ofNat c)) = a * b / c := by
  rw [mul_ofNat a b h, ofNat_exact c hc2]
  exact trunc_div_nat (a * b) c h hc hc2

end Dbl

/-! ## Properties of `OrderBy.cpp` -/

namespace ral.operators

theorem compute_total_samples_formula (num_rows : Nat) :
    compute_total_samples num_rows
      = min num_rows (max 100 (min 1000 ((num_rows + 9) / 10))) := by
  unfold compute_total_samples
  simp only
  rcases Nat.lt_or_ge num_rows 10000 with h | h
  · rw [Dbl.ceil_mul_tenth num_rows (lt_trans h (by norm_num))]
    split_ifs <;> omega
  · have h1 := Dbl.ceil_mul_tenth_ge num_rows h
    generalize Dbl.ceil (Dbl.mul (Dbl.ofNat num_rows) Dbl.tenth) = c at h1 ⊢
    split_ifs <;> omega

theorem int32_eq (x : Int) (h1 : -2147483648 ≤ x) (h2 : x ≤ 2147483647) : int32 x = x := by
  unfold int32
  omega

theorem int32_add_sub_one (t n : Int) : int32 (int32 (t + n) - 1) = int32 (t + n - 1) := by
  unfold int32
  omega

theorem int32_of_double_range (a : Nat) :
    -2147483648 ≤ int32_of_double a ∧ int32_of_double a ≤ 2147483647 := by
  unfold int32_of_double
  split_ifs <;> omega

theorem total_num_partitions_quotient_range (rows bytes : Nat) (ctx : Context) :
    1 ≤ total_num_partitions_quotient rows bytes ctx ∧
      total_num_partitions_quotient rows bytes ctx ≤ 2147483647 := by
  unfold total_num_partitions_quotient
  simp only
  have h := int32_of_double_range (Dbl.div (Dbl.mul (Dbl.ofNat rows) (Dbl.ofNat bytes))
    (Dbl.ofNat (ctx.NUM_BYTES_PER_ORDER_BY_PARTITION.getD 400000000)))
  split_ifs <;> omega

/-- The converted quotient where the `double` quotient is exact and fits an
`int`: the floor of the exact quotient, raised to 1. -/
theorem total_num_partitions_quotient_eq (rows bytes : Nat) (ctx : Context)
    (hprod : rows * bytes < 2 ^ 53)
    (hnb0 : 0 < ctx.NUM_BYTES_PER_ORDER_BY_PARTITION.getD 400000000)
    (hnb : ctx.NUM_BYTES_PER_ORDER_BY_PARTITION.getD 400000000 < 2 ^ 53)
    (hfit : rows * bytes / ctx.NUM_BYTES_PER_ORDER_BY_PARTITION.getD 400000000 ≤ 2147483647) :
    total_num_partitions_quotient rows bytes ctx
      = max ((rows * bytes / ctx.NUM_BYTES_PER_ORDER_BY_PARTITION.getD 400000000 : Nat) : Int) 1 := by
  unfold total_num_partitions_quotient int32_of_double
  simp only
  rw [Dbl.trunc_div_mul_ofNat _ _ _ hprod hnb0 hnb]
  generalize rows * bytes / ctx.NUM_BYTES_PER_ORDER_BY_PARTITION.getD 400000000 = Q at hfit ⊢
  split_ifs <;> omega

/-- Rounding `t` up to a multiple of `n` with the truncating division of C++. -/
theorem round_up_bounds (t n : Int) (ht : 1 ≤ t) (hn : 1 ≤ n) :
    Int.tdiv (t + n - 1) n = (t + n - 1) / n ∧
      t ≤ (t + n - 1) / n * n ∧ (t + n - 1) / n * n ≤ t + n - 1 := by
  have hn0 : n ≠ 0 := by omega
  have h1 := Int.ediv_mul_le (t + n - 1) hn0
  have h2 := Int.lt_ediv_add_one_mul_self (t + n - 1) (by omega : 0 < n)
  have e : ((t + n - 1) / n + 1) * n = (t + n - 1) / n * n + n := by ring
  rw [e] at h2
  refine ⟨Int.tdiv_eq_ediv (by omega) (by omega), by omega, h1⟩

/-- The partition count when neither the rounding-up sum nor the cap leaves the
range of `int`: the converted quotient rounded up to a multiple of `num_nodes`,
then capped. -/
theorem generate_partition_plan_of_fit (rows bytes : Nat) (ctx : Context)
    (hn : 1 ≤ ctx.total_nodes)
    (hfit : total_num_partitions_quotient rows bytes ctx + ctx.total_nodes - 1 ≤ 2147483647)
    (hcap1 : -2147483648 ≤ ctx.MAX_NUM_ORDER_BY_PARTITIONS_PER_NODE.getD 8 * ctx.total_nodes)
    (hcap2 : ctx.MAX_NUM_ORDER_BY_PARTITIONS_PER_NODE.getD 8 * ctx.total_nodes ≤ 2147483647) :
    generate_partition_plan rows bytes ctx
      = some (min
          ((total_num_partitions_quotient rows bytes ctx + ctx.total_nodes - 1)
            / ctx.total_nodes * ctx.total_nodes)
          (ctx.MAX_NUM_ORDER_BY_PARTITIONS_PER_NODE.getD 8 * ctx.total_nodes)) := by
  unfold generate_partition_plan
  simp only
  have ht1 := (total_num_partitions_quotient_range rows bytes ctx).1
  generalize total_num_partitions_quotient rows bytes ctx = t at hfit ht1 ⊢
  generalize ctx.MAX_NUM_ORDER_BY_PARTITIONS_PER_NODE.getD 8 = M at hcap1 hcap2 ⊢
  generalize ctx.total_nodes = n at hn hfit hcap1 hcap2 ⊢
  obtain ⟨hdiv, hlo, hhi⟩ := round_up_bounds t n ht1 hn
  have hg0 : 0 ≤ (t + n - 1) / n := Int.ediv_nonneg (by omega) (by omega)
  have hg1 : (t + n - 1) / n ≤ t + n - 1 := Int.ediv_le_self _ (by omega)
  rw [int32_add_sub_one, int32_eq (t + n - 1) (by omega) (by omega),
    if_neg (by omega), hdiv, int32_eq ((t + n - 1) / n) (by omega) (by omega),
    int32_eq ((t + n - 1) / n * n) (by omega) (by omega), int32_eq (M * n) hcap1 hcap2]
  congr 1
  generalize (t + n - 1) / n * n = R
  split_ifs <;> omega

/-- The partition count inside the range where the `double` quotient is exact
and no 32-bit operation overflows. -/
theorem generate_partition_plan_some (rows bytes : Nat) (ctx : Context)
    (hprod : rows * bytes < 2 ^ 53)
    (hnb0 : 0 < ctx.NUM_BYTES_PER_ORDER_BY_PARTITION.getD 400000000)
    (hnb : ctx.NUM_BYTES_PER_ORDER_BY_PARTITION.getD 400000000 < 2 ^ 53)
    (hn : 1 ≤ ctx.total_nodes)
    (hfit : max ((rows * bytes / ctx.NUM_BYTES_PER_ORDER_BY_PARTITION.getD 400000000 : Nat) : Int) 1
      + ctx.total_nodes ≤ 2147483647)
    (hcap1 : -2147483648 ≤ ctx.MAX_NUM_ORDER_BY_PARTITIONS_PER_NODE.getD 8 * ctx.total_nodes)
    (hcap2 : ctx.MAX_NUM_ORDER_BY_PARTITIONS_PER_NODE.getD 8 * ctx.total_nodes ≤ 2147483647) :
    generate_partition_plan rows bytes ctx
      = some (min
          ((max ((rows * bytes / ctx.NUM_BYTES_PER_ORDER_BY_PARTITION.getD 400000000 : Nat) : Int) 1
            + ctx.total_nodes - 1) / ctx.total_nodes * ctx.total_nodes)
          (ctx.MAX_NUM_ORDER_BY_PARTITIONS_PER_NODE.getD 8 * ctx.total_nodes)) := by
  have hq := total_num_partitions_quotient_eq rows bytes ctx hprod hnb0 hnb (by omega)
  rw [generate_partition_plan_of_fit rows bytes ctx hn (by omega) hcap1 hcap2, hq]

theorem spec_partition_count_eq (Q M n : Int) (hn : 1 ≤ n) :
    spec_partition_count Q M n = min ((max Q 1 + n - 1) / n * n) (M * n) := by
  unfold spec_partition_count
  simp only
  have ht1 : 1 ≤ max Q 1 := le_max_right _ _
  generalize max Q 1 = t at ht1 ⊢
  have hn0 : n ≠ 0 := by omega
  have hnpos : 0 < n := by omega
  obtain ⟨_, hlo, hhi⟩ := round_up_bounds t n ht1 hn
  rcases le_or_lt t (M * n) with hle | hgt
  · rw [min_eq_left hle]
    have hg : (t + n - 1) / n < M + 1 := by
      apply (Int.ediv_lt_iff_lt_mul hnpos).2
      have e : (M + 1) * n = M * n + n := by ring
      omega
    have hgM : (t + n - 1) / n * n ≤ M * n :=
      Int.mul_le_mul_of_nonneg_right (by omega) (by omega)
    rw [min_eq_left hgM]
  · rw [min_eq_right hgt.le]
    have e : M * n + n - 1 = (n - 1) + n * M := by ring
    rw [e, Int.add_mul_ediv_left _ _ hn0, Int.ediv_eq_zero_of_lt (by omega) (by omega),
      Int.zero_add]
    have : M * n ≤ (t + n - 1) / n * n := by omega
    rw [min_eq_right this]

/-! ### C1: sample size -/

/-- C1 (counterexample): for a batch of 50 rows `compute_total_samples` returns
50, not the claimed `max(100, min(1000, ceil(0.1 * 50))) = 100`. -/
theorem compute_total_samples_not_clamped :
    compute_total_samples 50 = 50 ∧
      compute_total_samples 50 ≠ max 100 (min 1000 ((50 + 9) / 10)) := by
  decide!

/-- C1 (amended): for every batch row count `n` (a `std::size_t`),
`compute_total_samples n = min(n, max(100, min(1000, ceil(n / 10))))`: the
clamped sample size, but never more than the batch has rows. -/
theorem compute_total_samples_eq (num_rows : Nat) (h : num_rows < 2 ^ 64) :
    compute_total_samples num_rows
      = min num_rows (max 100 (min 1000 ((num_rows + 9) / 10))) := by
  have _ := h
  exact compute_total_samples_formula num_rows

/-- Instance of `compute_total_samples_eq` at a batch of 2500 rows. -/
theorem compute_total_samples_eq_witness :
    compute_total_samples 2500 = min 2500 (max 100 (min 1000 ((2500 + 9) / 10))) :=
  compute_total_samples_eq 2500 (by norm_num)

/-! ### C2 to C5: partition count -/

/-- C2 (counterexample): 150,000,000 rows of 4 bytes with the default target of
400,000,000 bytes on one node give `total_num_partitions = 1`; the claimed
formula, with the ceiling of `1.5`, gives `2`. -/
theorem generate_partition_plan_not_ceil :
    generate_partition_plan 150000000 4 ⟨none, none, 1, [150000000], 0⟩ = some 1 ∧
      generate_partition_plan 150000000 4 ⟨none, none, 1, [150000000], 0⟩
        ≠ some (spec_partition_count ((150000000 * 4 + 400000000 - 1) / 400000000) 8 1) := by
  decide!

/-- C2 (amended): with `table_num_rows * avg_bytes_per_row` and the byte target
below `2 ^ 53`, the byte target positive, the per-node cap and `num_nodes` at
least 1, and no 32-bit overflow, `total_num_partitions` equals
`clamp(floor(table_num_rows * avg_bytes_per_row / NUM_BYTES_PER_ORDER_BY_PARTITION), 1,
MAX_NUM_ORDER_BY_PARTITIONS_PER_NODE * num_nodes)` rounded up to a multiple of
`num_nodes`: the quotient is truncated, not rounded up. -/
theorem generate_partition_plan_eq_floor (rows bytes : Nat) (ctx : Context)
    (hprod : rows * bytes < 2 ^ 53)
    (hnb0 : 0 < ctx.NUM_BYTES_PER_ORDER_BY_PARTITION.getD 400000000)
    (hnb : ctx.NUM_BYTES_PER_ORDER_BY_PARTITION.getD 400000000 < 2 ^ 53)
    (hmax : 1 ≤ ctx.MAX_NUM_ORDER_BY_PARTITIONS_PER_NODE.getD 8)
    (hn : 1 ≤ ctx.total_nodes)
    (hfit : max ((rows * bytes / ctx.NUM_BYTES_PER_ORDER_BY_PARTITION.getD 400000000 : Nat) : Int) 1
      + ctx.total_nodes ≤ 2147483647)
    (hcap : ctx.MAX_NUM_ORDER_BY_PARTITIONS_PER_NODE.getD 8 * ctx.total_nodes ≤ 2147483647) :
    generate_partition_plan rows bytes ctx
      = some (spec_partition_count
          ((rows * bytes / ctx.NUM_BYTES_PER_ORDER_BY_PARTITION.getD 400000000 : Nat) : Int)
          (ctx.MAX_NUM_ORDER_BY_PARTITIONS_PER_NODE.getD 8) ctx.total_nodes) := by
  have hcap1 : -2147483648 ≤ ctx.MAX_NUM_ORDER_BY_PARTITIONS_PER_NODE.getD 8 * ctx.total_nodes := by
    have : 0 ≤ ctx.MAX_NUM_ORDER_BY_PARTITIONS_PER_NODE.getD 8 * ctx.total_nodes :=
      Int.mul_nonneg (by omega) (by omega)
    omega
  rw [generate_partition_plan_some rows bytes ctx hprod hnb0 hnb hn hfit hcap1 hcap,
    spec_partition_count_eq _ _ _ hn]

/-- Instance of `generate_partition_plan_eq_floor`: 350,000,000 rows of 8 bytes
on three nodes, target 400,000,000 bytes, at most 8 partitions per node. -/
theorem generate_partition_plan_eq_floor_witness :
    generate_partition_plan 350000000 8 ⟨some 400000000, some 8, 3, [], 0⟩
      = some (spec_partition_count ((350000000 * 8 / 400000000 : Nat) : Int) 8 3) :=
  generate_partition_plan_eq_floor 350000000 8 ⟨some 400000000, some 8, 3, [], 0⟩
    (by decide) (by decide) (by decide) (by decide) (by decide) (by decide) (by decide)

/-- C3 (counterexample): with `MAX_NUM_ORDER_BY_PARTITIONS_PER_NODE` configured
as `0` the computed count is `0`, so `1 <= P` fails; and with 2,147,483,647 rows
of one byte, a byte target of 1 and two nodes the rounding-up sum overflows and
the computed count is `-2147483648`. -/
theorem generate_partition_plan_zero_cap :
    (∃ P, generate_partition_plan 1000 4 ⟨none, some 0, 1, [1000], 0⟩ = some P ∧
      ¬ (1 ≤ P ∧ P ≤ 0 * 1)) ∧
    (∃ P, generate_partition_plan 2147483647 1 ⟨some 1, some 8, 2, [], 0⟩ = some P ∧
      P = -2147483648 ∧ ¬ (1 ≤ P ∧ P ≤ 8 * 2)) :=
  ⟨⟨0, by decide!, by decide⟩, ⟨-2147483648, by decide!, rfl, by decide⟩⟩

/-- C3 (amended): when the per-node cap and `num_nodes` are at least 1 and
neither the rounding-up sum `total_num_partitions + num_nodes - 1` nor the cap
`MAX * num_nodes` exceeds the range of `int`, the function computes a count `P`
with `1 <= P <= MAX * num_nodes`. -/
theorem generate_partition_plan_bounds (rows bytes : Nat) (ctx : Context)
    (hmax : 1 ≤ ctx.MAX_NUM_ORDER_BY_PARTITIONS_PER_NODE.getD 8)
    (hn : 1 ≤ ctx.total_nodes)
    (hfit : total_num_partitions_quotient rows bytes ctx + ctx.total_nodes - 1 ≤ 2147483647)
    (hcap : ctx.MAX_NUM_ORDER_BY_PARTITIONS_PER_NODE.getD 8 * ctx.total_nodes ≤ 2147483647) :
    ∃ P, generate_partition_plan rows bytes ctx = some P ∧
      1 ≤ P ∧ P ≤ ctx.MAX_NUM_ORDER_BY_PARTITIONS_PER_NODE.getD 8 * ctx.total_nodes := by
  have hMn : 1 ≤ ctx.MAX_NUM_ORDER_BY_PARTITIONS_PER_NODE.getD 8 * ctx.total_nodes := by
    have := Int.mul_le_mul hmax hn (by omega) (by omega)
    omega
  refine ⟨_, generate_partition_plan_of_fit rows bytes ctx hn hfit (by omega) hcap, ?_, ?_⟩
  · have ht1 := (total_num_partitions_quotient_range rows bytes ctx).1
    obtain ⟨_, hlo, _⟩ :=
      round_up_bounds (total_num_partitions_quotient rows bytes ctx) ctx.total_nodes ht1 hn
    exact le_min (by omega) hMn
  · exact min_le_right _ _

/-- Instance of `generate_partition_plan_bounds`: 2,000,000,000 rows of 16 bytes
on two nodes with the default configuration; the count is computed and lies
between 1 and 16. -/
theorem generate_partition_plan_bounds_witness :
    ∃ P, generate_partition_plan 2000000000 16 ⟨none, none, 2, [], 0⟩ = some P ∧
      1 ≤ P ∧ P ≤ 8 * 2 :=
  generate_partition_plan_bounds 2000000000 16 ⟨none, none, 2, [], 0⟩
    (by decide) (by decide) (by decide!) (by decide)

/-- C5 (counterexample): in the two-node scenario (1,000,000 rows of one int32
key, default byte target, 4 partitions per node at most) the computed count is
not 8. -/
theorem generate_partition_plan_two_nodes_ne_eight :
    generate_partition_plan 1000000 4 ⟨none, some 4, 2, [500000, 500000], 0⟩ ≠ some 8 := by
  decide!

/-- C5 (amended): in the two-node scenario the computed count is `P = 2`: the
quotient `4,000,000 / 400,000,000` truncates to 0, is raised to 1 and rounded up
to the next multiple of 2, below the cap of 8. -/
theorem generate_partition_plan_two_nodes :
    generate_partition_plan 1000000 4 ⟨none, some 4, 2, [500000, 500000], 0⟩ = some 2 := by
  decide!

/-! ### C6: local limit -/

/-- C6 (code at the failing input): on node 0 with 10 local rows and a global
limit of 5 the function returns 0, where the documented local limit is 5. -/
theorem determine_local_limit_stub :
    determine_local_limit ⟨none, none, 1, [10], 0⟩ 10 5 = 0 ∧
      spec_local_limit ⟨none, none, 1, [10], 0⟩ 10 5 = 5 := by
  decide

end ral.operators

/-! ## Properties of `partition_table` -/

namespace cudf

theorem slices_length {α : Type} (input : List α) :
    ∀ (splits : List Nat) (start : Nat), (slices input start splits).length = splits.length + 1
  | [], _ => rfl
  | s :: rest, _ => by
    simp only [slices, List.length_cons, slices_length input rest s]

theorem takeWhile_length_mono {κ : Type} (p q : κ → Bool) (hpq : ∀ x, p x = true → q x = true) :
    ∀ l : List κ, (l.takeWhile p).length ≤ (l.takeWhile q).length
  | [] => le_rfl
  | x :: l => by
    simp only [List.takeWhile_cons]
    by_cases hp : p x = true
    · rw [if_pos hp, if_pos (hpq x hp)]
      simp only [List.length_cons]
      exact Nat.succ_le_succ (takeWhile_length_mono p q hpq l)
    · rw [if_neg hp]
      simp

theorem takeWhile_length_le {κ : Type} (p : κ → Bool) :
    ∀ l : List κ, (l.takeWhile p).length ≤ l.length
  | [] => le_rfl
  | x :: l => by
    simp only [List.takeWhile_cons]
    split_ifs
    · simp only [List.length_cons]
      exact Nat.succ_le_succ (takeWhile_length_le p l)
    · simp

/-- The indices `upper_bound` returns for sorted needles pass the check of
`split`. -/
theorem splits_valid_upper_bound {κ : Type} (lt : κ → κ → Bool)
    (hlt : ∀ a b c, lt b a = false → lt b c = true → lt a c = true) (haystack : List κ) :
    ∀ (needles : List κ) (prev : Nat), prev ≤ haystack.length →
      (∀ v ∈ needles, prev ≤ (haystack.takeWhile fun h => !lt v h).length) →
      needles.Pairwise (fun a b => lt b a = false) →
      splits_valid haystack.length prev (upper_bound lt haystack needles) = true
  | [], prev, hprev, _, _ => by
    simp [upper_bound, splits_valid, hprev]
  | v :: rest, prev, _, hall, hsorted => by
    have h1 : prev ≤ (haystack.takeWhile fun h => !lt v h).length :=
      hall v (List.mem_cons_self _ _)
    have h2 := takeWhile_length_le (fun h => !lt v h) haystack
    have hp := List.pairwise_cons.1 hsorted
    have ih := splits_valid_upper_bound lt hlt haystack rest
      (haystack.takeWhile fun h => !lt v h).length h2
      (fun w hw => by
        apply takeWhile_length_mono
        intro x hx
        have hvw := hp.1 w hw
        cases hwx : lt w x
        · rfl
        · have := hlt v w x hvw hwx
          rw [this] at hx
          simp at hx)
      hp.2
    simp only [upper_bound, List.map_cons, splits_valid, Bool.and_eq_true, decide_eq_true_eq]
    exact ⟨⟨h1, h2⟩, ih⟩

end cudf

namespace ral.operators

/-! ### C7: number of sub-batches -/

/-- C7 (counterexample): for a pivot table with one row (`P = 2`) and a batch
with zero rows `partition_table` returns one sub-batch, not two. -/
theorem partition_table_empty_batch :
    ∃ parts, partition_table id (fun a b : Int => decide (a < b)) [5] [] = some parts ∧
      parts.length ≠ [5].length + 1 :=
  ⟨[[]], by decide, by decide⟩

/-- C7 (amended): for every sorted pivot table with `P - 1` rows,
`partition_table` returns exactly `P` sub-batches for a batch with at least one
row, and exactly one sub-batch, the batch itself, for a batch with zero rows. -/
theorem partition_table_length {α κ : Type} (key : α → κ) (lt : κ → κ → Bool)
    (partitionPlan : List κ) (sortedTable : List α)
    (hlt : ∀ a b c, lt b a = false → lt b c = true → lt a c = true)
    (hsorted : partitionPlan.Pairwise (fun a b => lt b a = false)) :
    (sortedTable ≠ [] →
      ∃ parts, partition_table key lt partitionPlan sortedTable = some parts ∧
        parts.length = partitionPlan.length + 1) ∧
    (sortedTable = [] →
      partition_table key lt partitionPlan sortedTable = some [sortedTable]) := by
  constructor
  · intro hne
    have hlen : sortedTable.length ≠ 0 := fun h => hne (List.length_eq_zero.1 h)
    unfold partition_table
    rw [if_neg hlen]
    simp only
    unfold cudf.split
    have hv := cudf.splits_valid_upper_bound lt hlt (sortedTable.map key) partitionPlan 0
      (Nat.zero_le _) (fun _ _ => Nat.zero_le _) hsorted
    rw [List.length_map] at hv
    rw [if_pos hv]
    refine ⟨_, rfl, ?_⟩
    rw [cudf.slices_length, cudf.upper_bound, List.length_map]
  · intro he
    subst he
    rfl

/-- Instance of `partition_table_length`: two integer pivots and a batch of six
rows give three sub-batches. -/
theorem partition_table_length_witness :
    ∃ parts, partition_table id (fun a b : Int => decide (a < b)) [3, 5] [1, 2, 3, 4, 5, 6]
        = some parts ∧ parts.length = [3, 5].length + 1 :=
  (partition_table_length id (fun a b : Int => decide (a < b)) [3, 5] [1, 2, 3, 4, 5, 6]
    (by
      intro a b c h1 h2
      simp only [decide_eq_false_iff_not, decide_eq_true_eq] at h1 h2 ⊢
      omega)
    (by decide)).1 (by decide)

end ral.operators

/-! ## Properties of `protocols.cpp` -/

namespace comm

theorem to_int32_range (x : Int) : -2147483648 ≤ to_int32 x ∧ to_int32 x < 2147483648 := by
  unfold to_int32
  simp only
  split_ifs <;> omega

theorem of_ucp_tag_wf (tag : Nat) : (of_ucp_tag tag).wf := by
  have h := to_int32_range (Int.ofNat (tag % 4294967296))
  unfold blazing_ucp_tag.wf of_ucp_tag
  simp only
  refine ⟨h.1, h.2, Nat.mod_lt _ (by norm_num), Nat.mod_lt _ (by norm_num)⟩

theorem to_ucp_tag_lt (t : blazing_ucp_tag) : to_ucp_tag t < 2 ^ 64 := by
  unfold to_ucp_tag
  omega

/-- Reading a packed tag gives back the fields that were packed. -/
theorem of_ucp_tag_to_ucp_tag (t : blazing_ucp_tag) (h : t.wf) :
    of_ucp_tag (to_ucp_tag t) = t := by
  obtain ⟨m, o, f⟩ := t
  obtain ⟨h1, h2, h3, h4⟩ := h
  simp only at h1 h2 h3 h4
  unfold of_ucp_tag to_ucp_tag to_int32
  simp only [blazing_ucp_tag.mk.injEq]
  refine ⟨?_, ?_, ?_⟩
  · simp only [Int.ofNat_eq_coe]
    split_ifs <;> omega
  · omega
  · omega

theorem to_ucp_tag_injective (a b : blazing_ucp_tag) (ha : a.wf) (hb : b.wf)
    (h : to_ucp_tag a = to_ucp_tag b) : a = b := by
  rw [← of_ucp_tag_to_ucp_tag a ha, ← of_ucp_tag_to_ucp_tag b hb, h]

theorem wf_with_frame_id (t : blazing_ucp_tag) (h : t.wf) (f : Nat) (hf : f < 65536) :
    blazing_ucp_tag.wf { t with frame_id := f } := by
  unfold blazing_ucp_tag.wf at h ⊢
  exact ⟨h.1, h.2.1, h.2.2.1, hf⟩

theorem of_ucp_tag_send_impl_tag (tag buffer_sent : Nat) :
    of_ucp_tag (send_impl_tag tag buffer_sent)
      = { of_ucp_tag tag with frame_id := (buffer_sent + 1) % 65536 } := by
  unfold send_impl_tag
  simp only
  exact of_ucp_tag_to_ucp_tag _
    (wf_with_frame_id _ (of_ucp_tag_wf tag) _ (Nat.mod_lt _ (by norm_num)))

theorem of_ucp_tag_with_ack (tag : Nat) :
    of_ucp_tag (to_ucp_tag { of_ucp_tag tag with frame_id := 0xFFFF })
      = { of_ucp_tag tag with frame_id := 0xFFFF } := by
  exact of_ucp_tag_to_ucp_tag _ (wf_with_frame_id _ (of_ucp_tag_wf tag) _ (by norm_num))

/-! ### C8: message tag -/

/-- C8: for a message id in the signed 32-bit range and a `ral_id` in 16 bits,
the tag returned by `generate_message_tag` is the 64-bit word with the message
id in the first 32 bits, `ral_id` in the next 16 and frame id 0 in the last 16;
reading the tag back gives exactly `(message id, ral_id, 0)`, the global counter
moves on by one, and two field triples with the same tag are equal. -/
theorem generate_message_tag_layout (atomic_message_id ral_id : Int)
    (hm1 : -2147483648 ≤ atomic_message_id) (hm2 : atomic_message_id < 2147483648)
    (hr1 : 0 ≤ ral_id) (hr2 : ral_id < 65536) :
    (generate_message_tag atomic_message_id ral_id).1
        = (atomic_message_id % 4294967296).toNat + 4294967296 * ral_id.toNat
          + 281474976710656 * 0 ∧
      (generate_message_tag atomic_message_id ral_id).1 < 2 ^ 64 ∧
      of_ucp_tag (generate_message_tag atomic_message_id ral_id).1
        = { message_id := atomic_message_id, worker_origin_id := ral_id.toNat, frame_id := 0 } ∧
      (generate_message_tag atomic_message_id ral_id).2 = to_int32 (atomic_message_id + 1) ∧
      (∀ a b : blazing_ucp_tag, a.wf → b.wf → to_ucp_tag a = to_ucp_tag b → a = b) := by
  have hr : (ral_id % 65536).toNat = ral_id.toNat := by omega
  refine ⟨?_, to_ucp_tag_lt _, ?_, rfl, to_ucp_tag_injective⟩
  · unfold generate_message_tag to_ucp_tag
    simp only [hr]
    omega
  · unfold generate_message_tag
    simp only [hr]
    apply of_ucp_tag_to_ucp_tag
    exact ⟨hm1, hm2, by show ral_id.toNat < 65536; omega, by norm_num⟩

/-- Instance of `generate_message_tag_layout`: message id 7 drawn on node 3. -/
theorem generate_message_tag_layout_witness :
    of_ucp_tag (generate_message_tag 7 3).1
      = { message_id := 7, worker_origin_id := 3, frame_id := 0 } :=
  (generate_message_tag_layout 7 3 (by decide) (by decide) (by decide) (by decide)).2.2.1

/-! ### C9: data frame tags -/

/-- C9: for a frame index `k <= 65533` the tag `send_impl` uses has
`frame_id = k + 1`, which is neither 0 nor 0xFFFF, the message id and the origin
of the transport tag are unchanged, and another frame index in that range gets
another frame id. -/
theorem send_impl_tag_frame_id (tag k : Nat) (hk : k ≤ 65533) :
    (of_ucp_tag (send_impl_tag tag k)).frame_id = k + 1 ∧
      (of_ucp_tag (send_impl_tag tag k)).frame_id ≠ 0 ∧
      (of_ucp_tag (send_impl_tag tag k)).frame_id ≠ 0xFFFF ∧
      (of_ucp_tag (send_impl_tag tag k)).message_id = (of_ucp_tag tag).message_id ∧
      (of_ucp_tag (send_impl_tag tag k)).worker_origin_id
        = (of_ucp_tag tag).worker_origin_id ∧
      (∀ j, j ≤ 65533 → j ≠ k →
        (of_ucp_tag (send_impl_tag tag j)).frame_id
          ≠ (of_ucp_tag (send_impl_tag tag k)).frame_id) := by
  have e : (of_ucp_tag (send_impl_tag tag k)).frame_id = k + 1 := by
    rw [of_ucp_tag_send_impl_tag]
    show (k + 1) % 65536 = k + 1
    omega
  refine ⟨e, by omega, by omega, ?_, ?_, ?_⟩
  · rw [of_ucp_tag_send_impl_tag]
  · rw [of_ucp_tag_send_impl_tag]
  · intro j hj hjk
    rw [e, of_ucp_tag_send_impl_tag]
    show (j + 1) % 65536 ≠ k + 1
    omega

/-- Instance of `send_impl_tag_frame_id`: the last admissible frame index,
65533, on the tag of message 7 from node 3, gets frame id 65534. -/
theorem send_impl_tag_frame_id_witness :
    (of_ucp_tag (send_impl_tag (generate_message_tag 7 3).1 65533)).frame_id = 65533 + 1 :=
  (send_impl_tag_frame_id (generate_message_tag 7 3).1 65533 (by decide)).1

/-! ### C10: acknowledgment tag -/

/-- C10: in `send_begin_transmission` and in `recv_begin_transmission_ack` the
tag on which the acknowledgment is awaited is the transport tag with `frame_id`
set to 0xFFFF; the message id and the origin are those of the transport tag,
that is, the low 48 bits of the tag are unchanged. -/
theorem acknowledge_tag_frame_id (tag : Nat) :
    of_ucp_tag (send_begin_transmission_acknowledge_tag tag)
        = { message_id := (of_ucp_tag tag).message_id
            worker_origin_id := (of_ucp_tag tag).worker_origin_id
            frame_id := 0xFFFF } ∧
      of_ucp_tag (recv_begin_transmission_ack_acknowledge_tag tag)
        = { message_id := (of_ucp_tag tag).message_id
            worker_origin_id := (of_ucp_tag tag).worker_origin_id
            frame_id := 0xFFFF } ∧
      send_begin_transmission_acknowledge_tag tag % 2 ^ 48 = tag % 2 ^ 48 ∧
      recv_begin_transmission_ack_acknowledge_tag tag % 2 ^ 48 = tag % 2 ^ 48 := by
  have hbits : to_ucp_tag { of_ucp_tag tag with frame_id := 0xFFFF } % 2 ^ 48 = tag % 2 ^ 48 := by
    unfold to_ucp_tag of_ucp_tag to_int32
    simp only [Int.ofNat_eq_coe]
    split_ifs <;> omega
  exact ⟨of_ucp_tag_with_ack tag, of_ucp_tag_with_ack tag, hbits, hbits⟩

end comm
/-! ## Properties of the transport send path -/

namespace comm

/-! ### C11: send errors -/

/-- The header half of C11 holds: `send_begin_transmission` does not return
normally when the header send to the first destination ends in an error. -/
theorem send_begin_transmission_header_error (nd : node) (events : begin_transmission_events)
    (rest : List (node × begin_transmission_events)) (n : Nat) (code : Int)
    (h : poll_status events.send_status events.send_checks = some (ucs_status_t.UCS_ERR code)) :
    send_begin_transmission ((nd, events) :: rest) n
      = some (.error ("Was not able to send begin transmission to " ++ nd.id)) := by
  simp [send_begin_transmission, h]

/-- C11 (code at the failing input): with one destination whose frame send
returns an error, `send_impl` returns normally and leaves the counter of
transmitted frames at 0; and the completion callback counts a frame as
transmitted whatever the completion status is. -/
theorem send_impl_ignores_error :
    send_impl [ucs_status_ptr_t.error (-1)] 0 = .ok 0 ∧
      send_callback_c (ucs_status_t.UCS_ERR (-1)) 0 = 1 :=
  ⟨rfl, rfl⟩

/-! ### C12: acknowledgment -/

/-- What a normal return of `send_begin_transmission` means: both polls of
every destination ended with `UCS_OK`, and the counter grew by the number of
destinations whose acknowledgment carried `status_code::OK`. -/
theorem send_begin_transmission_ok_iff :
    ∀ (dests : List (node × begin_transmission_events)) (n m : Nat),
      send_begin_transmission dests n = some (.ok m) ↔
        (∀ d ∈ dests,
          poll_status d.2.send_status d.2.send_checks = some ucs_status_t.UCS_OK ∧
          poll_status d.2.recv_status d.2.recv_tests = some ucs_status_t.UCS_OK) ∧
        m = n + dests.countP (fun d => decide (d.2.recv_begin_status = status_code.OK))
  | [], n, m => by
    simp only [send_begin_transmission, Option.some.injEq, Except.ok.injEq, List.not_mem_nil,
      false_implies, implies_true, true_and, List.countP_nil, Nat.add_zero]
    exact eq_comm
  | (nd, ev) :: rest, n, m => by
    unfold send_begin_transmission
    cases hs : poll_status ev.send_status ev.send_checks with
    | none => simp [hs]
    | some st =>
      by_cases hst : st = ucs_status_t.UCS_OK
      swap
      · simp [hs, hst]
      subst hst
      cases hr : poll_status ev.recv_status ev.recv_tests with
      | none => simp [hs, hr]
      | some st2 =>
        by_cases hst2 : st2 = ucs_status_t.UCS_OK
        swap
        · simp [hs, hr, hst2]
        subst hst2
        simp only [ne_eq, not_true_eq_false, if_false, List.mem_cons, forall_eq_or_imp, hs, hr,
          true_and, and_self]
        rw [send_begin_transmission_ok_iff rest _ m, List.countP_cons]
        by_cases hack : ev.recv_begin_status = status_code.OK
        · simp only [hack, if_true, decide_True]
          constructor
          · rintro ⟨h1, h2⟩; exact ⟨h1, by omega⟩
          · rintro ⟨h1, h2⟩; exact ⟨h1, by omega⟩
        · simp only [hack, if_false, decide_False, Bool.false_eq_true]
          constructor
          · rintro ⟨h1, h2⟩; exact ⟨h1, by omega⟩
          · rintro ⟨h1, h2⟩; exact ⟨h1, by omega⟩

/-- C12 (counterexample): with one destination whose acknowledgment carries
`status_code::INVALID`, `send_begin_transmission` returns normally with the
counter still at 0. -/
theorem send_begin_transmission_invalid_ack :
    send_begin_transmission
        [(⟨"node_1"⟩, ⟨ucs_status_t.UCS_OK, [], ucs_status_t.UCS_OK, [], status_code.INVALID⟩)] 0
      = some (.ok 0) ∧
    ¬ ((⟨ucs_status_t.UCS_OK, [], ucs_status_t.UCS_OK, [], status_code.INVALID⟩ :
          begin_transmission_events).recv_begin_status = status_code.OK ∧ (0 : Nat) = 0 + 1) :=
  ⟨rfl, by decide⟩

/-- C12 (amended): whenever `send_begin_transmission` returns normally, the
header send and the acknowledgment receive of every destination completed with
`UCS_OK`, and the begin-transmission counter was incremented exactly once for
each destination whose acknowledgment carried `status_code::OK`; with an
acknowledgment `OK` from every destination that is once per destination. -/
theorem send_begin_transmission_returns (dests : List (node × begin_transmission_events))
    (n m : Nat) (h : send_begin_transmission dests n = some (.ok m)) :
    (∀ d ∈ dests,
      poll_status d.2.send_status d.2.send_checks = some ucs_status_t.UCS_OK ∧
      poll_status d.2.recv_status d.2.recv_tests = some ucs_status_t.UCS_OK) ∧
    m = n + dests.countP (fun d => decide (d.2.recv_begin_status = status_code.OK)) ∧
    ((∀ d ∈ dests, d.2.recv_begin_status = status_code.OK) → m = n + dests.length) := by
  obtain ⟨h1, h2⟩ := (send_begin_transmission_ok_iff dests n m).1 h
  refine ⟨h1, h2, fun hall => ?_⟩
  rw [h2, List.countP_eq_length.2]
  intro d hd
  simp [hall d hd]

/-- Instance of `send_begin_transmission_returns`: two destinations, the first
acknowledges with `OK` after one poll, the second with `INVALID`. -/
theorem send_begin_transmission_returns_witness :
    (1 : Nat) = 0 + List.countP
      (fun d : node × begin_transmission_events =>
        decide (d.2.recv_begin_status = status_code.OK))
      [(⟨"node_1"⟩, ⟨ucs_status_t.UCS_INPROGRESS, [ucs_status_t.UCS_OK], ucs_status_t.UCS_OK, [],
          status_code.OK⟩),
       (⟨"node_2"⟩, ⟨ucs_status_t.UCS_OK, [], ucs_status_t.UCS_OK, [], status_code.INVALID⟩)] :=
  (send_begin_transmission_returns
    [(⟨"node_1"⟩, ⟨ucs_status_t.UCS_INPROGRESS, [ucs_status_t.UCS_OK], ucs_status_t.UCS_OK, [],
        status_code.OK⟩),
     (⟨"node_2"⟩, ⟨ucs_status_t.UCS_OK, [], ucs_status_t.UCS_OK, [], status_code.INVALID⟩)]
    0 1 rfl).2.1

/-! ### C13: completion -/

/-- C13: for two vectors whose sizes have a product below `2 ^ 64`, the
condition of `wait_until_complete` holds exactly when the counter of
transmitted frames is at least `buffer_sizes.size() * destinations.size()`; so
with no frame or no destination it holds with the counter at 0. -/
theorem wait_until_complete_condition_iff (transmitted_frames : Nat) (buffer_sizes : List Nat)
    (destinations : List node)
    (h : buffer_sizes.length * destinations.length < 2 ^ 64) :
    (wait_until_complete_condition transmitted_frames buffer_sizes destinations = true ↔
      buffer_sizes.length * destinations.length ≤ transmitted_frames) ∧
    (buffer_sizes = [] ∨ destinations = [] →
      wait_until_complete_condition 0 buffer_sizes destinations = true) := by
  have e : std.size_mul buffer_sizes.length destinations.length
      = buffer_sizes.length * destinations.length := by
    unfold std.size_mul
    exact Nat.mod_eq_of_lt h
  unfold wait_until_complete_condition
  rw [e]
  constructor
  · simp
  · rintro (h0 | h0) <;> simp [h0]

/-- Instance of `wait_until_complete_condition_iff`: three frames to two
destinations are complete with six frames transmitted. -/
theorem wait_until_complete_condition_iff_witness :
    wait_until_complete_condition 6 [10, 20, 30] [⟨"node_1"⟩, ⟨"node_2"⟩] = true :=
  (wait_until_complete_condition_iff 6 [10, 20, 30] [⟨"node_1"⟩, ⟨"node_2"⟩]
    (by decide)).1.2 (by decide)

end comm

/-! ## Properties of `CalciteInterpreter.cpp` -/

/-! ### C14: output edge -/

/-- C14: when the graph has at least one kernel, `generate_graph` adds the pair
from the last kernel to the `OutputKernel` with a cache of type `CONCATENATING`
when the cluster has exactly one node and `SIMPLE` for every other node count;
when the graph has no kernel it adds no pair. -/
theorem generate_graph_output_pair_spec {κ : Type} (num_nodes : Nat) (last_kernel output : κ)
    (total_nodes : Int) :
    (0 < num_nodes → total_nodes = 1 →
      generate_graph_output_pair num_nodes last_kernel output total_nodes
        = some ⟨last_kernel, output, ⟨ral.cache.CacheType.CONCATENATING, true⟩⟩) ∧
    (0 < num_nodes → total_nodes ≠ 1 →
      generate_graph_output_pair num_nodes last_kernel output total_nodes
        = some ⟨last_kernel, output, ⟨ral.cache.CacheType.SIMPLE, true⟩⟩) ∧
    (num_nodes = 0 →
      generate_graph_output_pair num_nodes last_kernel output total_nodes = none) := by
  unfold generate_graph_output_pair
  refine ⟨fun h1 h2 => ?_, fun h1 h2 => ?_, fun h1 => ?_⟩
  · simp [h1, h2]
  · simp [h1, h2]
  · simp [h1]

/-- Instance of `generate_graph_output_pair_spec`: a graph of five kernels on a
cluster of three nodes gets a `SIMPLE` cache in front of the output kernel. -/
theorem generate_graph_output_pair_spec_witness :
    generate_graph_output_pair 5 (4 : Int) (5 : Int) 3
      = some ⟨4, 5, ⟨ral.cache.CacheType.SIMPLE, true⟩⟩ :=
  (generate_graph_output_pair_spec 5 (4 : Int) (5 : Int) 3).2.1 (by decide) (by decide)

/-! ### C17: table scans -/

namespace ral.operators

/-! ### C16: window functions without `PARTITION BY` -/

/-- C16: for a window-function line whose `OVER` clause has an `ORDER BY` and no
`PARTITION BY`, `get_right_sorts_vars` returns an empty list of column indices
and an empty list of sort orders. -/
theorem get_right_sorts_vars_order_by_only (eu : expression_utils) (query_part : List Char)
    (hwindow : eu.is_window_function query_part = true)
    (horder : eu.window_expression_contains_order_by query_part = true)
    (hpartition : eu.window_expression_contains_partition_by query_part = false) :
    get_right_sorts_vars eu query_part = some ([], []) := by
  unfold get_right_sorts_vars
  simp [hwindow, horder, hpartition]

/-- Instance of `get_right_sorts_vars_order_by_only`, with helper functions that
classify every line as a window function with `ORDER BY` only. -/
theorem get_right_sorts_vars_order_by_only_witness :
    get_right_sorts_vars ⟨fun _ => true, fun _ => true, fun _ => false, fun _ _ => []⟩
      ['O', 'V', 'E', 'R', ' ', '(', 'O', 'R', 'D', 'E', 'R', ' ', 'B', 'Y', ' ', '$', '3', ')']
        = some ([], []) :=
  get_right_sorts_vars_order_by_only ⟨fun _ => true, fun _ => true, fun _ => false, fun _ _ => []⟩
    _ rfl rfl rfl

/-! ### C18: sample size against batch size -/

/-- C18: for every batch row count `n`, `compute_total_samples n` is at most
`n`, it equals `n` exactly when `n <= 100`, and an empty batch gives 0. -/
theorem compute_total_samples_le (num_rows : Nat) :
    compute_total_samples num_rows ≤ num_rows ∧
      (compute_total_samples num_rows = num_rows ↔ num_rows ≤ 100) ∧
      compute_total_samples 0 = 0 := by
  rw [compute_total_samples_formula num_rows, compute_total_samples_formula 0]
  omega

end ral.operators


/-! ## Properties of the string functions -/

theorem map_or_throw_eq_some {α β : Type} (f : α → Option β) (g : α → β) :
    ∀ l : List α, (∀ a ∈ l, f a = some (g a)) → map_or_throw f l = some (l.map g)
  | [], _ => rfl
  | a :: l, h => by
    unfold map_or_throw
    rw [h a (List.mem_cons_self _ _),
      map_or_throw_eq_some f g l (fun b hb => h b (List.mem_cons_of_mem _ hb))]
    rfl

namespace std

theorem isPrefixOf_cons_ne (h c : Char) (p s : List Char) (hne : c ≠ h) :
    (h :: p).isPrefixOf (c :: s) = false := by
  rw [List.isPrefixOf_cons₂]
  have : (h == c) = false := by
    rw [beq_eq_false_iff_ne]
    exact fun e => hne e.symm
  rw [this, Bool.false_and]

theorem find_aux_match (pat t : List Char) (i : Nat) (hm : pat.isPrefixOf t = true) :
    find_aux pat t i = i := by
  cases t with
  | nil =>
    cases pat with
    | nil => rfl
    | cons h p => simp at hm
  | cons c s =>
    unfold find_aux
    rw [if_pos hm]

theorem find_aux_cons_ne (pat : List Char) (c : Char) (s : List Char) (i : Nat)
    (hm : pat.isPrefixOf (c :: s) = false) :
    find_aux pat (c :: s) i = find_aux pat s (i + 1) := by
  rw [find_aux]
  simp [hm]

theorem find_aux_none (h : Char) (p : List Char) :
    ∀ (a : List Char) (i : Nat), h ∉ a → find_aux (h :: p) a i = npos
  | [], _, _ => rfl
  | c :: a, i, hc => by
    have hne : c ≠ h := fun e => hc (e ▸ List.mem_cons_self _ _)
    rw [find_aux_cons_ne _ _ _ _ (isPrefixOf_cons_ne h c p a hne)]
    exact find_aux_none h p a (i + 1) (fun hm => hc (List.mem_cons_of_mem _ hm))

theorem find_aux_skip (h : Char) (p : List Char) (t : List Char) :
    ∀ (a : List Char) (i : Nat), h ∉ a →
      find_aux (h :: p) (a ++ t) i = find_aux (h :: p) t (i + a.length)
  | [], _, _ => rfl
  | c :: a, i, hc => by
    have hne : c ≠ h := fun e => hc (e ▸ List.mem_cons_self _ _)
    rw [List.cons_append, find_aux_cons_ne _ _ _ _ (isPrefixOf_cons_ne h c p _ hne),
      find_aux_skip h p t a (i + 1) (fun hm => hc (List.mem_cons_of_mem _ hm))]
    simp only [List.length_cons]
    congr 1
    omega

theorem rfind_aux_none (x : Char) :
    ∀ (post : List Char) (i best : Nat), x ∉ post → rfind_aux [x] post i best = best
  | [], _, _, _ => rfl
  | c :: post, i, best, hc => by
    have hne : c ≠ x := fun e => hc (e ▸ List.mem_cons_self _ _)
    rw [rfind_aux, isPrefixOf_cons_ne x c [] post hne]
    exact rfind_aux_none x post (i + 1) best (fun hm => hc (List.mem_cons_of_mem _ hm))

theorem rfind_aux_last (x : Char) (post : List Char) (hpost : x ∉ post) :
    ∀ (a : List Char) (i best : Nat), rfind_aux [x] (a ++ x :: post) i best = i + a.length
  | [], i, best => by
    rw [List.nil_append, rfind_aux, rfind_aux_none x post _ _ hpost]
    simp [List.isPrefixOf]
  | c :: a, i, best => by
    rw [List.cons_append, rfind_aux, rfind_aux_last x post hpost a]
    simp only [List.length_cons]
    omega

/-! ### Decimal numerals -/

theorem digitChar_isDigit : ∀ d < 10, (Nat.digitChar d).isDigit = true := by decide

theorem digitChar_value : ∀ d < 10, (Nat.digitChar d).toNat - 48 = d := by decide

theorem toDigitsCore_isDigit :
    ∀ (fuel n : Nat) (acc : List Char), (∀ c ∈ acc, c.isDigit = true) →
      ∀ c ∈ Nat.toDigitsCore 10 fuel n acc, c.isDigit = true
  | 0, _, acc, hacc => by
    simpa [Nat.toDigitsCore] using hacc
  | fuel + 1, n, acc, hacc => by
    have hd : (Nat.digitChar (n % 10)).isDigit = true :=
      digitChar_isDigit _ (Nat.mod_lt _ (by norm_num))
    have hacc2 : ∀ c ∈ Nat.digitChar (n % 10) :: acc, c.isDigit = true := by
      intro c hc
      rcases List.mem_cons.1 hc with rfl | h
      · exact hd
      · exact hacc c h
    rw [Nat.toDigitsCore]
    split_ifs
    · exact hacc2
    · exact toDigitsCore_isDigit fuel (n / 10) _ hacc2

theorem to_string_isDigit (n : Nat) : ∀ c ∈ to_string n, c.isDigit = true :=
  toDigitsCore_isDigit (n + 1) n [] (fun _ h => absurd h (List.not_mem_nil _))

theorem not_mem_to_string (x : Char) (n : Nat) (hx : x.isDigit = false) : x ∉ to_string n :=
  fun h => by
    have := to_string_isDigit n x h
    rw [hx] at this
    exact Bool.false_ne_true this

theorem toDigitsCore_ne_nil :
    ∀ (fuel n : Nat) (acc : List Char), 0 < fuel → Nat.toDigitsCore 10 fuel n acc ≠ []
  | fuel + 1, n, acc, _ => by
    rw [Nat.toDigitsCore]
    split_ifs with h
    · simp
    · rcases Nat.eq_zero_or_pos fuel with h0 | h0
      · subst h0
        simp [Nat.toDigitsCore]
      · exact toDigitsCore_ne_nil fuel _ _ h0

theorem to_string_ne_nil (n : Nat) : to_string n ≠ [] :=
  toDigitsCore_ne_nil (n + 1) n [] (Nat.succ_pos n)

theorem foldl_toDigitsCore :
    ∀ (fuel n : Nat) (acc : List Char), n < fuel →
      (Nat.toDigitsCore 10 fuel n acc).foldl (fun a c => 10 * a + (c.toNat - 48)) 0
        = acc.foldl (fun a c => 10 * a + (c.toNat - 48)) n
  | 0, _, _, h => absurd h (Nat.not_lt_zero _)
  | fuel + 1, n, acc, h => by
    have hv := digitChar_value (n % 10) (Nat.mod_lt _ (by norm_num))
    rw [Nat.toDigitsCore]
    split_ifs with h0
    · rw [List.foldl_cons, hv]
      congr 1
      omega
    · rw [foldl_toDigitsCore fuel (n / 10) _ (by omega), List.foldl_cons, hv]
      congr 1
      omega

theorem digits_value_to_string (n : Nat) : digits_value (to_string n) = n := by
  unfold digits_value to_string Nat.toDigits
  rw [foldl_toDigitsCore (n + 1) n [] (Nat.lt_succ_self n)]
  rfl

theorem to_string_injective (m n : Nat) (h : to_string m = to_string n) : m = n := by
  rw [← digits_value_to_string m, ← digits_value_to_string n, h]

theorem takeWhile_eq_self_of_all {p : Char → Bool} :
    ∀ l : List Char, (∀ c ∈ l, p c = true) → l.takeWhile p = l
  | [], _ => rfl
  | c :: l, h => by
    rw [List.takeWhile_cons, h c (List.mem_cons_self _ _)]
    simp only [if_true]
    rw [takeWhile_eq_self_of_all l (fun x hx => h x (List.mem_cons_of_mem _ hx))]

theorem isspace_of_isDigit (c : Char) (h : c.isDigit = true) : isspace c = false := by
  unfold isspace
  unfold Char.isDigit at h
  simp only [Bool.and_eq_true, decide_eq_true_eq] at h
  have h1 : c ≠ ' ' := by rintro rfl; revert h; decide
  have h2 : c ≠ '\t' := by rintro rfl; revert h; decide
  have h3 : c ≠ '\n' := by rintro rfl; revert h; decide
  have h4 : c ≠ '\x0b' := by rintro rfl; revert h; decide
  have h5 : c ≠ '\x0c' := by rintro rfl; revert h; decide
  have h6 : c ≠ '\x0d' := by rintro rfl; revert h; decide
  simp [h1, h2, h3, h4, h5, h6]

/-- On a numeral, `std::stoi` gives the number. -/
theorem stoi_to_string (n : Nat) (h : n ≤ 2147483647) : stoi (to_string n) = some (n : Int) := by
  obtain ⟨c, l, hcl⟩ : ∃ c l, to_string n = c :: l := by
    cases hts : to_string n with
    | nil => exact absurd hts (to_string_ne_nil n)
    | cons c l => exact ⟨c, l, rfl⟩
  have hall := to_string_isDigit n
  have hv := digits_value_to_string n
  rw [hcl] at hall hv
  have hc : c.isDigit = true := hall c (List.mem_cons_self _ _)
  have hsp : isspace c = false := isspace_of_isDigit c hc
  have hminus : c ≠ '-' := by rintro rfl; revert hc; decide
  have hplus : c ≠ '+' := by rintro rfl; revert hc; decide
  unfold stoi
  rw [hcl]
  simp only [List.dropWhile_cons, hsp, Bool.false_eq_true, if_false, List.head?_cons,
    Option.some.injEq, hminus, hplus, or_self, takeWhile_eq_self_of_all _ hall, hv,
    List.isEmpty_cons, decide_False]
  rw [if_pos (by omega)]

/-- On a numeral, `std::stoull` gives the number. -/
theorem stoull_to_string (n : Nat) (h : n ≤ 18446744073709551615) :
    stoull (to_string n) = some n := by
  obtain ⟨c, l, hcl⟩ : ∃ c l, to_string n = c :: l := by
    cases hts : to_string n with
    | nil => exact absurd hts (to_string_ne_nil n)
    | cons c l => exact ⟨c, l, rfl⟩
  have hall := to_string_isDigit n
  have hv := digits_value_to_string n
  rw [hcl] at hall hv
  have hc : c.isDigit = true := hall c (List.mem_cons_self _ _)
  have hsp : isspace c = false := isspace_of_isDigit c hc
  have hplus : c ≠ '+' := by rintro rfl; revert hc; decide
  unfold stoull
  rw [hcl]
  simp only [List.dropWhile_cons, hsp, Bool.false_eq_true, if_false, List.head?_cons,
    Option.some.injEq, hplus, takeWhile_eq_self_of_all _ hall, hv,
    List.isEmpty_cons]
  rw [if_pos h]

end std


namespace std

/-- Two numerals followed by the same character that is not a digit: if one is a
prefix of the other, they are equal. -/
theorem digits_prefix_eq (x : Char) (hx : x.isDigit = false) :
    ∀ (a b r t : List Char), (∀ c ∈ a, c.isDigit = true) → (∀ c ∈ b, c.isDigit = true) →
      (a ++ x :: r) <+: (b ++ x :: t) → a = b
  | [], [], _, _, _, _, _ => rfl
  | [], d :: b, r, t, _, hb, h => by
    rw [List.nil_append, List.cons_append, List.cons_prefix_cons] at h
    have := hb d (List.mem_cons_self _ _)
    rw [← h.1, hx] at this
    exact absurd this Bool.false_ne_true
  | d :: a, [], r, t, ha, _, h => by
    rw [List.nil_append, List.cons_append, List.cons_prefix_cons] at h
    have := ha d (List.mem_cons_self _ _)
    rw [h.1, hx] at this
    exact absurd this Bool.false_ne_true
  | d :: a, e :: b, r, t, ha, hb, h => by
    rw [List.cons_append, List.cons_append, List.cons_prefix_cons] at h
    rw [h.1, digits_prefix_eq x hx a b r t (fun c hc => ha c (List.mem_cons_of_mem _ hc))
      (fun c hc => hb c (List.mem_cons_of_mem _ hc)) h.2]

/-- The numeral of `i` followed by `=` starts the numeral of `j` followed by `=`
only when `i = j`. -/
theorem to_string_prefix_iff (i j : Nat) (r t : List Char) :
    (to_string i ++ '=' :: r).isPrefixOf (to_string j ++ '=' :: t) = true →
      i = j := by
  intro h
  rw [List.isPrefixOf_iff_prefix] at h
  exact to_string_injective i j
    (digits_prefix_eq '=' (by decide) _ _ r t (to_string_isDigit i) (to_string_isDigit j) h)

theorem isPrefixOf_append_left (l a b : List Char) :
    (l ++ a).isPrefixOf (l ++ b) = a.isPrefixOf b := by
  rw [Bool.eq_iff_iff, List.isPrefixOf_iff_prefix, List.isPrefixOf_iff_prefix,
    List.prefix_append_right_inj]

theorem isPrefixOf_self_append (l b : List Char) : l.isPrefixOf (l ++ b) = true := by
  rw [List.isPrefixOf_iff_prefix]
  exact List.prefix_append l b

end std

namespace StringUtil

theorem split_aux_ne_nil (sep : List Char) :
    ∀ (s : List Char) (skip : Nat), split_aux sep s skip ≠ []
  | [], _ => by simp [split_aux]
  | _ :: s, skip + 1 => by
    rw [split_aux]
    exact split_aux_ne_nil sep s skip
  | c :: s, 0 => by
    rw [split_aux]
    split_ifs
    · simp
    · split <;> simp

theorem split_aux_drop (sep t : List Char) :
    ∀ a : List Char, split_aux sep (a ++ t) a.length = split_aux sep t 0
  | [] => rfl
  | c :: a => by
    rw [List.cons_append, List.length_cons, split_aux]
    exact split_aux_drop sep t a

theorem split_aux_token (h : Char) (p t token : List Char) (rest : List (List Char))
    (ht : split_aux (h :: p) t 0 = token :: rest) :
    ∀ a : List Char, h ∉ a → split_aux (h :: p) (a ++ t) 0 = (a ++ token) :: rest
  | [], _ => ht
  | c :: a, hc => by
    have hne : c ≠ h := fun e => hc (e ▸ List.mem_cons_self _ _)
    rw [List.cons_append, split_aux, std.isPrefixOf_cons_ne h c p _ hne,
      split_aux_token h p t token rest ht a (fun hm => hc (List.mem_cons_of_mem _ hm))]
    rfl

theorem split_aux_sep (h : Char) (p t : List Char) :
    split_aux (h :: p) (h :: p ++ t) 0 = [] :: split_aux (h :: p) t 0 := by
  rw [List.cons_append, split_aux]
  have hm : (h :: p).isPrefixOf (h :: (p ++ t)) = true := by
    rw [← List.cons_append]
    exact std.isPrefixOf_self_append _ _
  rw [if_pos hm]
  simp only [List.length_cons, Nat.add_sub_cancel]
  rw [split_aux_drop]

theorem split_single (h : Char) (p a : List Char) (ha : h ∉ a) : split a (h :: p) = [a] := by
  have := split_aux_token h p [] [] [] rfl a ha
  rw [List.append_nil] at this
  exact this

theorem intercalate_cons_cons (sep x y : List Char) (rest : List (List Char)) :
    List.intercalate sep (x :: y :: rest) = x ++ (sep ++ List.intercalate sep (y :: rest)) := by
  simp [List.intercalate, List.intersperse]

theorem intercalate_singleton (sep x : List Char) : List.intercalate sep [x] = x := by
  simp [List.intercalate, List.intersperse]

/-- Splitting the items joined by a separator gives back the items when none
contains the first character of the separator. -/
theorem split_intercalate (h : Char) (p : List Char) :
    ∀ items : List (List Char), items ≠ [] → (∀ x ∈ items, h ∉ x) →
      split (List.intercalate (h :: p) items) (h :: p) = items
  | [], hne, _ => absurd rfl hne
  | [x], _, hall => by
    rw [intercalate_singleton]
    exact split_single h p x (hall x (List.mem_cons_self _ _))
  | x :: y :: rest, _, hall => by
    rw [intercalate_cons_cons]
    have ih := split_intercalate h p (y :: rest) (List.cons_ne_nil _ _)
      (fun z hz => hall z (List.mem_cons_of_mem _ hz))
    unfold split at ih ⊢
    have hsep := split_aux_sep h p (List.intercalate (h :: p) (y :: rest))
    rw [ih] at hsep
    rw [split_aux_token h p _ [] (y :: rest) hsep x (hall x (List.mem_cons_self _ _)),
      List.append_nil]

theorem replace_aux_id (h : Char) (p r : List Char) :
    ∀ a : List Char, h ∉ a → replace_aux (h :: p) r a 0 = a
  | [], _ => rfl
  | c :: a, hc => by
    have hne : c ≠ h := fun e => hc (e ▸ List.mem_cons_self _ _)
    rw [replace_aux, std.isPrefixOf_cons_ne h c p _ hne,
      replace_aux_id h p r a (fun hm => hc (List.mem_cons_of_mem _ hm))]
    rfl

/-- Removing `$` from a scalar reference leaves its numeral. -/
theorem replace_dollar (n : Nat) :
    replace ('$' :: std.to_string n) ['$'] [] = std.to_string n := by
  unfold replace
  rw [replace_aux]
  simp only [List.isPrefixOf_cons₂_self, List.isPrefixOf, if_true, List.nil_append,
    List.length_singleton, Nat.sub_self]
  exact replace_aux_id '$' [] [] _ (std.not_mem_to_string '$' n (by decide))

end StringUtil


namespace std

theorem size_add_eq (a b : Nat) (h : a + b < 18446744073709551616) : size_add a b = a + b :=
  Nat.mod_eq_of_lt h

theorem size_sub_eq (a b : Nat) (hba : b ≤ a) (h : a < 18446744073709551616) :
    size_sub a b = a - b := by
  unfold size_sub
  omega

theorem substr_middle (a b c : List Char) :
    substr (a ++ (b ++ c)) a.length b.length = some b := by
  unfold substr
  rw [if_neg (by simp), List.drop_left, List.take_left]

theorem not_mem_intercalate (x : Char) (sep : List Char) (hsep : x ∉ sep) :
    ∀ items : List (List Char), (∀ item ∈ items, x ∉ item) → x ∉ List.intercalate sep items
  | [], _ => by simp [List.intercalate]
  | [a], h => by
    rw [StringUtil.intercalate_singleton]
    exact h a (List.mem_cons_self _ _)
  | a :: b :: rest, h => by
    rw [StringUtil.intercalate_cons_cons]
    have ih := not_mem_intercalate x sep hsep (b :: rest)
      (fun z hz => h z (List.mem_cons_of_mem _ hz))
    simp only [List.mem_append, not_or]
    exact ⟨h a (List.mem_cons_self _ _), hsep, ih⟩

end std

namespace ral.operators

/-- A character that is not a digit, `$`, a comma or a blank does not occur in a
`PARTITION BY` list. -/
theorem not_mem_partition_by_list (x : Char) (columns : List Nat) (hd : x.isDigit = false)
    (h1 : x ≠ '$') (h2 : x ≠ ',') (h3 : x ≠ ' ') : x ∉ partition_by_list columns := by
  unfold partition_by_list
  apply std.not_mem_intercalate
  · simp [h2, h3]
  · intro item hitem
    obtain ⟨a, _, rfl⟩ := List.mem_map.1 hitem
    simp [h1, std.not_mem_to_string x a hd]

theorem find_partition_by (rest : List Char) : std.find (PARTITION_BY ++ rest) PARTITION_BY = 0 :=
  std.find_aux_match _ _ 0 (std.isPrefixOf_self_append _ _)

/-- Looking for `ORDER BY ` passes over the text `PARTITION BY `. -/
theorem find_order_by_after_partition_by (rest : List Char) :
    std.find (PARTITION_BY ++ rest) ORDER_BY = std.find_aux ORDER_BY rest 13 := by
  simp [std.find, std.find_aux, PARTITION_BY, ORDER_BY, List.isPrefixOf]

theorem find_aux_order_by_tail (tail : List Char) (i : Nat)
    (htail : tail = [] ∨ ∃ rest, tail = ' ' :: (ORDER_BY ++ rest)) :
    std.find_aux ORDER_BY tail i = if tail = [] then std.npos else i + 1 := by
  rcases htail with rfl | ⟨rest, rfl⟩
  · rfl
  · rw [std.find_aux_cons_ne _ _ _ _ (by simp [ORDER_BY, List.isPrefixOf]),
      std.find_aux_match _ _ _ (std.isPrefixOf_self_append _ _)]
    simp

/-- The text `get_vars_to_partition` cuts out of the `OVER` expression is the
`PARTITION BY` list. -/
theorem partition_values (columns : List Nat) (tail : List Char)
    (htail : tail = [] ∨ ∃ rest, tail = ' ' :: (ORDER_BY ++ rest))
    (hlen : (PARTITION_BY ++ (partition_by_list columns ++ tail)).length + 1
      < 18446744073709551616) :
    std.substr (PARTITION_BY ++ (partition_by_list columns ++ tail))
      (std.size_add (std.find (PARTITION_BY ++ (partition_by_list columns ++ tail)) PARTITION_BY)
        PARTITION_BY.length)
      (std.size_sub (std.size_sub
        (if std.find (PARTITION_BY ++ (partition_by_list columns ++ tail)) ORDER_BY = std.npos
          then std.size_add (PARTITION_BY ++ (partition_by_list columns ++ tail)).length 1
          else std.find (PARTITION_BY ++ (partition_by_list columns ++ tail)) ORDER_BY)
        (std.size_add (std.find (PARTITION_BY ++ (partition_by_list columns ++ tail)) PARTITION_BY)
          PARTITION_BY.length)) 1)
      = some (partition_by_list columns) := by
  have hO : 'O' ∉ partition_by_list columns :=
    not_mem_partition_by_list 'O' columns (by decide) (by decide) (by decide) (by decide)
  have hP : PARTITION_BY.length = 13 := rfl
  rw [find_partition_by, find_order_by_after_partition_by]
  have hfind : std.find_aux ORDER_BY (partition_by_list columns ++ tail) 13
      = if tail = [] then std.npos else 13 + (partition_by_list columns).length + 1 := by
    have := std.find_aux_skip 'O' ['R', 'D', 'E', 'R', ' ', 'B', 'Y', ' '] tail
      (partition_by_list columns) 13 hO
    rw [show ('O' :: ['R', 'D', 'E', 'R', ' ', 'B', 'Y', ' ']) = ORDER_BY from rfl] at this
    rw [this, find_aux_order_by_tail _ _ htail]
  rw [hfind]
  simp only [List.length_append, hP] at hlen ⊢
  have hstart : std.size_add 0 13 = 13 := rfl
  rw [hstart]
  have hlenval : std.size_sub (std.size_sub
      (if (if tail = [] then std.npos else 13 + (partition_by_list columns).length + 1)
          = std.npos
        then std.size_add (13 + ((partition_by_list columns).length + tail.length)) 1
        else (if tail = [] then std.npos else 13 + (partition_by_list columns).length + 1))
      13) 1 = (partition_by_list columns).length := by
    have hT : tail = [] → tail.length = 0 := fun h => by rw [h]; rfl
    generalize (partition_by_list columns).length = L at hlen ⊢
    generalize tail.length = T at hlen hT ⊢
    unfold std.size_sub std.size_add std.npos
    by_cases ht : tail = []
    · have := hT ht
      simp only [ht, if_true]
      omega
    · simp only [ht, if_false]
      split_ifs <;> omega
  rw [hlenval]
  have := std.substr_middle PARTITION_BY (partition_by_list columns) tail
  rw [hP] at this
  exact this

end ral.operators


namespace ral.operators

/-! ### C19: `PARTITION BY` columns -/

/-- C19: when the `OVER` expression of the plan is `PARTITION BY $a1, ..., $am`,
alone or followed by ` ORDER BY ...`, `get_vars_to_partition` returns the column
indices `[a1, ..., am]` in that order and as many orders, all `ASCENDING`; and it
returns two empty lists when the plan has no `PARTITION BY` expression. -/
theorem get_vars_to_partition_spec (eu : expression_utils) (logical_plan : List Char) :
    (∀ (columns : List Nat) (tail : List Char),
      columns ≠ [] → (∀ a ∈ columns, a ≤ 2147483647) →
      (tail = [] ∨ ∃ rest, tail = ' ' :: (ORDER_BY ++ rest)) →
      eu.get_first_over_expression_from_logical_plan logical_plan PARTITION_BY
        = PARTITION_BY ++ (partition_by_list columns ++ tail) →
      (PARTITION_BY ++ (partition_by_list columns ++ tail)).length + 1 < 18446744073709551616 →
      get_vars_to_partition eu logical_plan
        = some (columns.map Int.ofNat, columns.map fun _ => cudf.order.ASCENDING)) ∧
    (eu.get_first_over_expression_from_logical_plan logical_plan PARTITION_BY = [] →
      get_vars_to_partition eu logical_plan = some ([], [])) := by
  constructor
  · intro columns tail hne hint htail hover hlen
    unfold get_vars_to_partition
    simp only [hover]
    rw [if_neg (by simp [PARTITION_BY])]
    simp only [Option.bind_eq_bind, Option.pure_def]
    rw [partition_values columns tail htail hlen, Option.some_bind]
    have hsplit : StringUtil.split (partition_by_list columns) [',', ' ']
        = columns.map fun a => '$' :: std.to_string a := by
      unfold partition_by_list
      apply StringUtil.split_intercalate
      · simpa using hne
      · intro item hitem
        obtain ⟨a, _, rfl⟩ := List.mem_map.1 hitem
        simp [std.not_mem_to_string ',' a (by decide)]
    rw [hsplit]
    have hmap : map_or_throw (fun s => std.stoi (StringUtil.replace s ['$'] []))
        (columns.map fun a => '$' :: std.to_string a)
        = some ((columns.map fun a => '$' :: std.to_string a).map
            fun s => (std.digits_value (s.drop 1) : Int)) := by
      apply map_or_throw_eq_some
      intro s hs
      obtain ⟨a, ha, rfl⟩ := List.mem_map.1 hs
      rw [StringUtil.replace_dollar, std.stoi_to_string a (hint a ha), List.drop_one,
        List.tail_cons, std.digits_value_to_string]
    rw [hmap, Option.some_bind]
    simp only [List.map_map, Option.some.injEq, Prod.mk.injEq]
    refine ⟨List.map_congr_left fun a _ => ?_, List.map_congr_left fun a _ => rfl⟩
    simp [std.digits_value_to_string]
  · intro hover
    unfold get_vars_to_partition
    simp [hover]

/-- Instance of `get_vars_to_partition_spec`: the expression
`PARTITION BY $1, $2 ORDER BY $3` gives `<[1, 2], [ASCENDING, ASCENDING]>`. -/
theorem get_vars_to_partition_spec_witness :
    get_vars_to_partition
        ⟨fun _ => true, fun _ => true, fun _ => true,
          fun _ _ => "PARTITION BY $1, $2 ORDER BY $3".toList⟩
        "min_keys=[MIN($0) OVER (PARTITION BY $1, $2 ORDER BY $3)], n_nationkey=[$0]".toList
      = some ([1, 2], [cudf.order.ASCENDING, cudf.order.ASCENDING]) :=
  (get_vars_to_partition_spec
    ⟨fun _ => true, fun _ => true, fun _ => true,
      fun _ _ => "PARTITION BY $1, $2 ORDER BY $3".toList⟩
    "min_keys=[MIN($0) OVER (PARTITION BY $1, $2 ORDER BY $3)], n_nationkey=[$0]".toList).1
    [1, 2] " ORDER BY $3".toList (by decide) (by decide) (Or.inr ⟨['$', '3'], by decide⟩)
    (by decide) (by decide)

end ral.operators


namespace ral.operators

theorem find_aux_rows_partition_by (rest : List Char) (i : Nat) :
    std.find_aux ['R', 'O', 'W', 'S'] (PARTITION_BY ++ rest) i
      = std.find_aux ['R', 'O', 'W', 'S'] rest (i + 13) := by
  simp [std.find_aux, PARTITION_BY, List.isPrefixOf, Nat.add_assoc]

theorem find_aux_rows_order_by (rest : List Char) (i : Nat) :
    std.find_aux ['R', 'O', 'W', 'S'] (ORDER_BY ++ rest) i
      = std.find_aux ['R', 'O', 'W', 'S'] rest (i + 9) := by
  simp [std.find_aux, ORDER_BY, List.isPrefixOf, Nat.add_assoc]

theorem find_aux_order_by_partition_by (rest : List Char) (i : Nat) :
    std.find_aux ORDER_BY (PARTITION_BY ++ rest) i = std.find_aux ORDER_BY rest (i + 13) := by
  simp [std.find_aux, PARTITION_BY, ORDER_BY, List.isPrefixOf, Nat.add_assoc]

/-- A character that is not a digit, `$`, a comma, a blank or one of `D`, `E`,
`S`, `C` does not occur in an `ORDER BY` list. -/
theorem not_mem_order_by_list (x : Char) (columns : List (Nat × cudf.order))
    (hd : x.isDigit = false) (h1 : x ≠ '$') (h2 : x ≠ ',') (h3 : x ≠ ' ')
    (h4 : x ≠ 'D') (h5 : x ≠ 'E') (h6 : x ≠ 'S') (h7 : x ≠ 'C') :
    x ∉ order_by_list columns := by
  unfold order_by_list
  apply std.not_mem_intercalate
  · simp [h2, h3]
  · intro item hitem
    obtain ⟨p, _, rfl⟩ := List.mem_map.1 hitem
    unfold order_by_item DESCENDING_ORDER_SORT_TEXT
    split_ifs <;> simp [h1, h3, h4, h5, h6, h7, std.not_mem_to_string x p.1 hd]

theorem comma_not_mem_order_by_item (column : Nat) (direction : cudf.order) :
    ',' ∉ order_by_item column direction := by
  unfold order_by_item DESCENDING_ORDER_SORT_TEXT
  split_ifs <;> simp [std.not_mem_to_string ',' column (by decide)]

end ral.operators

namespace ral.operators

theorem find_order_by_pre (pre rest : List Char)
    (hpre : pre = [] ∨
      ∃ partition_columns, pre = PARTITION_BY ++ (partition_by_list partition_columns ++ [' '])) :
    std.find (pre ++ (ORDER_BY ++ rest)) ORDER_BY = pre.length := by
  rcases hpre with rfl | ⟨pc, rfl⟩
  · exact std.find_aux_match _ _ 0 (std.isPrefixOf_self_append _ _)
  · have hO : 'O' ∉ partition_by_list pc :=
      not_mem_partition_by_list 'O' pc (by decide) (by decide) (by decide) (by decide)
    have hskip := std.find_aux_skip 'O' ['R', 'D', 'E', 'R', ' ', 'B', 'Y', ' ']
      (' ' :: (ORDER_BY ++ rest)) (partition_by_list pc) 13 hO
    rw [show ('O' :: ['R', 'D', 'E', 'R', ' ', 'B', 'Y', ' ']) = ORDER_BY from rfl] at hskip
    simp only [List.append_assoc, List.singleton_append]
    rw [find_order_by_after_partition_by, hskip,
      find_aux_order_by_tail _ _ (Or.inr ⟨rest, rfl⟩)]
    simp [PARTITION_BY]
    omega

theorem find_aux_rows_pre (pre rest : List Char)
    (hpre : pre = [] ∨
      ∃ partition_columns, pre = PARTITION_BY ++ (partition_by_list partition_columns ++ [' '])) :
    std.find_aux ['R', 'O', 'W', 'S'] (pre ++ rest) 0
      = std.find_aux ['R', 'O', 'W', 'S'] rest pre.length := by
  rcases hpre with rfl | ⟨pc, rfl⟩
  · rfl
  · have hR : 'R' ∉ partition_by_list pc :=
      not_mem_partition_by_list 'R' pc (by decide) (by decide) (by decide) (by decide)
    simp only [List.append_assoc, List.singleton_append]
    rw [find_aux_rows_partition_by, std.find_aux_skip 'R' _ _ _ _ hR,
      std.find_aux_cons_ne _ _ _ _ (by simp [List.isPrefixOf])]
    congr 1
    simp [PARTITION_BY]
    omega

theorem find_rows (pre tail : List Char) (columns : List (Nat × cudf.order))
    (hpre : pre = [] ∨
      ∃ partition_columns, pre = PARTITION_BY ++ (partition_by_list partition_columns ++ [' ']))
    (htail : tail = [] ∨ ∃ rest, tail = ' ' :: 'R' :: 'O' :: 'W' :: 'S' :: rest) :
    std.find (pre ++ (ORDER_BY ++ (order_by_list columns ++ tail))) ['R', 'O', 'W', 'S']
      = if tail = [] then std.npos
        else pre.length + 9 + (order_by_list columns).length + 1 := by
  have hR : 'R' ∉ order_by_list columns :=
    not_mem_order_by_list 'R' columns (by decide) (by decide) (by decide) (by decide)
      (by decide) (by decide) (by decide) (by decide)
  unfold std.find
  rw [find_aux_rows_pre pre _ hpre, find_aux_rows_order_by, std.find_aux_skip 'R' _ _ _ _ hR]
  rcases htail with rfl | ⟨rest, rfl⟩
  · rfl
  · rw [std.find_aux_cons_ne _ _ _ _ (by simp [List.isPrefixOf]),
      std.find_aux_match _ _ _ (by simp [List.isPrefixOf])]
    simp

/-- The text `get_vars_to_orders` cuts out of the `OVER` expression is the
`ORDER BY` list. -/
theorem order_values (pre tail : List Char) (columns : List (Nat × cudf.order))
    (hpre : pre = [] ∨
      ∃ partition_columns, pre = PARTITION_BY ++ (partition_by_list partition_columns ++ [' ']))
    (htail : tail = [] ∨ ∃ rest, tail = ' ' :: 'R' :: 'O' :: 'W' :: 'S' :: rest)
    (hlen : (pre ++ (ORDER_BY ++ (order_by_list columns ++ tail))).length + 1
      < 18446744073709551616) :
    std.substr (pre ++ (ORDER_BY ++ (order_by_list columns ++ tail)))
      (std.size_add (std.find (pre ++ (ORDER_BY ++ (order_by_list columns ++ tail))) ORDER_BY)
        ORDER_BY.length)
      (std.size_sub
        (if std.find (pre ++ (ORDER_BY ++ (order_by_list columns ++ tail))) ['R', 'O', 'W', 'S']
            ≠ std.npos
          then std.size_sub
            (std.find (pre ++ (ORDER_BY ++ (order_by_list columns ++ tail))) ['R', 'O', 'W', 'S']) 1
          else (pre ++ (ORDER_BY ++ (order_by_list columns ++ tail))).length)
        (std.size_add (std.find (pre ++ (ORDER_BY ++ (order_by_list columns ++ tail))) ORDER_BY)
          ORDER_BY.length))
      = some (order_by_list columns) := by
  have hO : ORDER_BY.length = 9 := rfl
  rw [find_order_by_pre pre _ hpre, find_rows pre tail columns hpre htail]
  simp only [List.length_append, hO] at hlen ⊢
  have hT : tail = [] → tail.length = 0 := fun h => by rw [h]; rfl
  have hlenval : std.size_sub
      (if (if tail = [] then std.npos else pre.length + 9 + (order_by_list columns).length + 1)
          ≠ std.npos
        then std.size_sub
          (if tail = [] then std.npos else pre.length + 9 + (order_by_list columns).length + 1) 1
        else pre.length + (9 + ((order_by_list columns).length + tail.length)))
      (std.size_add pre.length 9) = (order_by_list columns).length := by
    generalize (order_by_list columns).length = L at hlen ⊢
    generalize tail.length = T at hlen hT ⊢
    generalize pre.length = P at hlen ⊢
    unfold std.size_sub std.size_add std.npos
    by_cases ht : tail = []
    · have := hT ht
      simp only [ht, if_true, ne_eq, not_true_eq_false, if_false]
      omega
    · simp only [ht, if_false]
      split_ifs <;> omega
  have hstart : std.size_add pre.length 9 = pre.length + 9 :=
    std.size_add_eq _ _ (by omega)
  rw [hlenval, hstart]
  have := std.substr_middle (pre ++ ORDER_BY) (order_by_list columns) tail
  rw [List.length_append, hO, List.append_assoc] at this
  exact this

end ral.operators

namespace ral.operators

/-- Splitting an `ORDER BY` item at blanks gives `$i` alone for an ascending
column and `$i` and `DESC` for a descending one. -/
theorem split_order_by_item (column : Nat) (direction : cudf.order) :
    StringUtil.split (order_by_item column direction) [' ']
      = if direction = cudf.order.ASCENDING then ['$' :: std.to_string column]
        else ['$' :: std.to_string column, DESCENDING_ORDER_SORT_TEXT] := by
  have hblank : ' ' ∉ '$' :: std.to_string column := by
    simp [std.not_mem_to_string ' ' column (by decide)]
  unfold order_by_item
  by_cases hd : direction = cudf.order.ASCENDING
  · rw [if_pos hd, if_pos hd, List.append_nil]
    exact StringUtil.split_single ' ' [] _ hblank
  · rw [if_neg hd, if_neg hd]
    have hdesc : StringUtil.split_aux [' '] DESCENDING_ORDER_SORT_TEXT 0
        = [DESCENDING_ORDER_SORT_TEXT] :=
      StringUtil.split_single ' ' [] _ (by simp [DESCENDING_ORDER_SORT_TEXT])
    have hsep := StringUtil.split_aux_sep ' ' [] DESCENDING_ORDER_SORT_TEXT
    rw [hdesc] at hsep
    have := StringUtil.split_aux_token ' ' [] _ [] [DESCENDING_ORDER_SORT_TEXT] hsep
      ('$' :: std.to_string column) hblank
    rw [List.append_nil] at this
    exact this

/-! ### C20: `ORDER BY` columns -/

/-- C20: when the `OVER` expression of the plan is `ORDER BY` and a list of items
`$i` or `$i DESC` separated by `", "`, alone or after `PARTITION BY ... ` and
alone or followed by ` ROWS ...`, `get_vars_to_orders` returns the column
indices in list order, with `ASCENDING` for `$i` and `DESCENDING` for
`$i DESC`. -/
theorem get_vars_to_orders_spec (eu : expression_utils) (logical_plan : List Char)
    (columns : List (Nat × cudf.order)) (pre tail : List Char)
    (hne : columns ≠ []) (hint : ∀ p ∈ columns, p.1 ≤ 2147483647)
    (hpre : pre = [] ∨
      ∃ partition_columns, pre = PARTITION_BY ++ (partition_by_list partition_columns ++ [' ']))
    (htail : tail = [] ∨ ∃ rest, tail = ' ' :: 'R' :: 'O' :: 'W' :: 'S' :: rest)
    (hover : eu.get_first_over_expression_from_logical_plan logical_plan ORDER_BY
      = pre ++ (ORDER_BY ++ (order_by_list columns ++ tail)))
    (hlen : (pre ++ (ORDER_BY ++ (order_by_list columns ++ tail))).length + 1
      < 18446744073709551616) :
    get_vars_to_orders eu logical_plan
      = some (columns.map fun p => (p.1 : Int), columns.map fun p => p.2) := by
  unfold get_vars_to_orders
  simp only [hover]
  rw [if_neg (by simp [ORDER_BY])]
  simp only [Option.bind_eq_bind, Option.pure_def]
  rw [order_values pre tail columns hpre htail hlen, Option.some_bind]
  have hsplit : StringUtil.split (order_by_list columns) [',', ' ']
      = columns.map fun p => order_by_item p.1 p.2 := by
    unfold order_by_list
    apply StringUtil.split_intercalate
    · simpa using hne
    · intro item hitem
      obtain ⟨p, _, rfl⟩ := List.mem_map.1 hitem
      exact comma_not_mem_order_by_item p.1 p.2
  rw [hsplit]
  have hmap : map_or_throw
      (fun e => std.stoi (StringUtil.replace ((StringUtil.split e [' ']).headD []) ['$'] []))
      (columns.map fun p => order_by_item p.1 p.2)
      = some ((columns.map fun p => order_by_item p.1 p.2).map
          fun e => (std.digits_value (((StringUtil.split e [' ']).headD []).drop 1) : Int)) := by
    apply map_or_throw_eq_some
    intro s hs
    obtain ⟨p, hp, rfl⟩ := List.mem_map.1 hs
    have hhead : (StringUtil.split (order_by_item p.1 p.2) [' ']).headD []
        = '$' :: std.to_string p.1 := by
      rw [split_order_by_item]
      split_ifs <;> rfl
    rw [hhead, StringUtil.replace_dollar, std.stoi_to_string p.1 (hint p hp), List.drop_one,
      List.tail_cons, std.digits_value_to_string]
  rw [hmap, Option.some_bind]
  simp only [List.map_map, Option.some.injEq, Prod.mk.injEq]
  constructor
  · apply List.map_congr_left
    intro p _
    have hhead : (StringUtil.split (order_by_item p.1 p.2) [' ']).headD []
        = '$' :: std.to_string p.1 := by
      rw [split_order_by_item]
      split_ifs <;> rfl
    simp only [Function.comp_apply, hhead, List.drop_one, List.tail_cons,
      std.digits_value_to_string]
  · apply List.map_congr_left
    intro p _
    simp only [Function.comp_apply, split_order_by_item]
    cases p.2 <;> simp

/-- Instance of `get_vars_to_orders_spec`: the expression
`PARTITION BY $2 ORDER BY $3, $1 DESC` gives `<[3, 1], [ASCENDING, DESCENDING]>`. -/
theorem get_vars_to_orders_spec_witness :
    get_vars_to_orders
        ⟨fun _ => true, fun _ => true, fun _ => true,
          fun _ _ => "PARTITION BY $2 ORDER BY $3, $1 DESC".toList⟩
        "min_keys=[MIN($0) OVER (PARTITION BY $2 ORDER BY $3, $1 DESC)], n_nationkey=[$0]".toList
      = some ([3, 1], [cudf.order.ASCENDING, cudf.order.DESCENDING]) :=
  get_vars_to_orders_spec
    ⟨fun _ => true, fun _ => true, fun _ => true,
      fun _ _ => "PARTITION BY $2 ORDER BY $3, $1 DESC".toList⟩
    "min_keys=[MIN($0) OVER (PARTITION BY $2 ORDER BY $3, $1 DESC)], n_nationkey=[$0]".toList
    [(3, cudf.order.ASCENDING), (1, cudf.order.DESCENDING)] "PARTITION BY $2 ".toList []
    (by decide) (by decide) (Or.inr ⟨[2], by decide⟩) (Or.inl rfl) (by decide) (by decide)

end ral.operators

namespace ral.operators

theorem gne_cons_ne (name : List Char) (c : Char) (s : List Char)
    (hm : (name ++ ['=', '[']).isPrefixOf (c :: s) = false) :
    get_named_expression (c :: s) name = get_named_expression s name := by
  rw [get_named_expression]
  simp [hm]

theorem gne_match (name : List Char) (c : Char) (s : List Char)
    (hm : (name ++ ['=', '[']).isPrefixOf (c :: s) = true) :
    get_named_expression (c :: s) name
      = ((c :: s).drop (name.length + 2)).takeWhile (fun x => x != ']') := by
  rw [get_named_expression, if_pos hm]

theorem gne_none (h : Char) (p : List Char) :
    ∀ a : List Char, h ∉ a → get_named_expression a (h :: p) = []
  | [], _ => rfl
  | c :: a, hc => by
    have hne : c ≠ h := fun e => hc (e ▸ List.mem_cons_self _ _)
    rw [gne_cons_ne _ _ _ (std.isPrefixOf_cons_ne h c _ a hne)]
    exact gne_none h p a (fun hm => hc (List.mem_cons_of_mem _ hm))

theorem gne_skip (h : Char) (p t : List Char) :
    ∀ a : List Char, h ∉ a →
      get_named_expression (a ++ t) (h :: p) = get_named_expression t (h :: p)
  | [], _ => rfl
  | c :: a, hc => by
    have hne : c ≠ h := fun e => hc (e ▸ List.mem_cons_self _ _)
    rw [List.cons_append, gne_cons_ne _ _ _ (std.isPrefixOf_cons_ne h c _ _ hne)]
    exact gne_skip h p t a (fun hm => hc (List.mem_cons_of_mem _ hm))

theorem count_aux_drop (needle t : List Char) :
    ∀ a : List Char, count_aux needle (a ++ t) a.length = count_aux needle t 0
  | [] => rfl
  | c :: a => by
    rw [List.cons_append, List.length_cons, count_aux]
    exact count_aux_drop needle t a

theorem count_aux_none (h : Char) (p : List Char) :
    ∀ a : List Char, h ∉ a → count_aux (h :: p) a 0 = 0
  | [], _ => rfl
  | c :: a, hc => by
    have hne : c ≠ h := fun e => hc (e ▸ List.mem_cons_self _ _)
    rw [count_aux, std.isPrefixOf_cons_ne h c p a hne]
    exact count_aux_none h p a (fun hm => hc (List.mem_cons_of_mem _ hm))

theorem count_aux_skip (h : Char) (p t : List Char) :
    ∀ a : List Char, h ∉ a → count_aux (h :: p) (a ++ t) 0 = count_aux (h :: p) t 0
  | [], _ => rfl
  | c :: a, hc => by
    have hne : c ≠ h := fun e => hc (e ▸ List.mem_cons_self _ _)
    rw [List.cons_append, count_aux, std.isPrefixOf_cons_ne h c p _ hne]
    exact count_aux_skip h p t a (fun hm => hc (List.mem_cons_of_mem _ hm))

theorem count_aux_hit (h : Char) (p t : List Char) :
    count_aux (h :: p) (h :: p ++ t) 0 = 1 + count_aux (h :: p) t 0 := by
  rw [List.cons_append, count_aux]
  have hm : (h :: p).isPrefixOf (h :: (p ++ t)) = true := by
    rw [← List.cons_append]
    exact std.isPrefixOf_self_append _ _
  rw [if_pos hm]
  simp only [List.length_cons, Nat.add_sub_cancel]
  rw [count_aux_drop]

theorem takeWhile_stop (p : Char → Bool) (x : Char) (r : List Char) (hx : p x = false) :
    ∀ a : List Char, (∀ c ∈ a, p c = true) → (a ++ x :: r).takeWhile p = a
  | [], _ => by simp [List.takeWhile_cons, hx]
  | c :: a, h => by
    rw [List.cons_append, List.takeWhile_cons, h c (List.mem_cons_self _ _)]
    simp only [if_true]
    rw [takeWhile_stop p x r hx a (fun y hy => h y (List.mem_cons_of_mem _ hy))]

/-- The text of a sort direction. -/
theorem sort_param_eq (i column : Nat) (direction : cudf.order) :
    sort_param i column direction
      = 's' :: 'o' :: 'r' :: 't' :: (std.to_string i ++ '=' :: '[' :: '$' ::
          (std.to_string column ++ ']' :: ',' :: ' ' :: 'd' :: 'i' :: 'r' ::
            (std.to_string i ++ '=' :: '[' ::
              ((if direction = cudf.order.ASCENDING then ASCENDING_ORDER_SORT_TEXT
                else DESCENDING_ORDER_SORT_TEXT) ++ [']'])))) := by
  simp [sort_param]

theorem not_mem_direction_text (x : Char) (direction : cudf.order)
    (h1 : x ≠ 'A') (h2 : x ≠ 'S') (h3 : x ≠ 'C') (h4 : x ≠ 'D') (h5 : x ≠ 'E') :
    x ∉ (if direction = cudf.order.ASCENDING then ASCENDING_ORDER_SORT_TEXT
      else DESCENDING_ORDER_SORT_TEXT) := by
  unfold ASCENDING_ORDER_SORT_TEXT DESCENDING_ORDER_SORT_TEXT
  split_ifs <;> simp [h1, h2, h3, h4, h5]

end ral.operators

namespace ral.operators

theorem flatten_map_sep (sep : List Char) :
    ∀ items : List (List Char), items ≠ [] →
      (items.map fun item => sep ++ item).flatten = sep ++ List.intercalate sep items
  | [], h => absurd rfl h
  | [x], _ => by simp [StringUtil.intercalate_singleton]
  | x :: y :: rest, _ => by
    rw [StringUtil.intercalate_cons_cons, List.map_cons, List.flatten_cons,
      flatten_map_sep sep (y :: rest) (List.cons_ne_nil _ _)]
    simp

theorem sort_params_from_eq (tail : List Char) :
    ∀ (columns : List (Nat × cudf.order)) (j : Nat),
      (((columns.enumFrom j).map fun p => sort_param p.1 p.2.1 p.2.2).map
        fun item => [',', ' '] ++ item).flatten ++ tail = sort_params_from j columns tail
  | [], _ => rfl
  | p :: rest, j => by
    rw [List.enumFrom_cons, List.map_cons, List.map_cons, List.flatten_cons, sort_params_from,
      ← sort_params_from_eq tail rest (j + 1)]
    simp

/-- The separator followed by the parameters of a sort line, in the shape of
`sort_params_from`. -/
theorem sep_sort_line_params (columns : List (Nat × cudf.order)) (fetch : Option Nat)
    (hne : columns ≠ [] ∨ fetch ≠ none) :
    ',' :: ' ' :: sort_line_params columns fetch
      = sort_params_from 0 columns (fetch_tail fetch) := by
  unfold sort_line_params
  have hL : (columns.enum.map fun p => sort_param p.1 p.2.1 p.2.2) ++ fetch.toList.map fetch_param
      ≠ [] := by
    rcases hne with h | h
    · cases columns with
      | nil => exact absurd rfl h
      | cons p rest => simp [List.enum_cons]
    · cases fetch with
      | none => exact absurd rfl h
      | some n => simp
  have := flatten_map_sep [',', ' '] _ hL
  rw [List.map_append, List.flatten_append, List.enum_eq_enumFrom, sort_params_from_eq] at this
  have htail : ((fetch.toList.map fetch_param).map fun item => [',', ' '] ++ item).flatten
      = fetch_tail fetch := by
    cases fetch <;> simp [fetch_tail]
  rw [htail] at this
  rw [List.enum_eq_enumFrom, this]
  rfl

theorem sort_line_params_nil : sort_line_params [] none = [] := rfl

end ral.operators

namespace ral.operators

theorem sort_params_from_cons (j : Nat) (p : Nat × cudf.order)
    (rest : List (Nat × cudf.order)) (tail : List Char) :
    sort_params_from j (p :: rest) tail
      = ',' :: ' ' :: 's' :: 'o' :: 'r' :: 't' :: (std.to_string j ++ '=' :: '[' :: '$' ::
          (std.to_string p.1 ++ ']' :: ',' :: ' ' :: 'd' :: 'i' :: 'r' ::
            (std.to_string j ++ '=' :: '[' ::
              ((if p.2 = cudf.order.ASCENDING then ASCENDING_ORDER_SORT_TEXT
                else DESCENDING_ORDER_SORT_TEXT) ++ ']' ::
                  sort_params_from (j + 1) rest tail)))) := by
  simp [sort_params_from, sort_param_eq]

theorem gne_cons_skip (h c : Char) (p s : List Char) (hne : c ≠ h) :
    get_named_expression (c :: s) (h :: p) = get_named_expression s (h :: p) :=
  gne_cons_ne _ _ _ (std.isPrefixOf_cons_ne h c _ s hne)

theorem gne_skip_to_string (h : Char) (p t : List Char) (n : Nat) (hd : h.isDigit = false) :
    get_named_expression (std.to_string n ++ t) (h :: p) = get_named_expression t (h :: p) :=
  gne_skip h p t _ (std.not_mem_to_string h n hd)

theorem gne_skip_direction (h : Char) (p t : List Char) (direction : cudf.order)
    (h1 : h ≠ 'A') (h2 : h ≠ 'S') (h3 : h ≠ 'C') (h4 : h ≠ 'D') (h5 : h ≠ 'E') :
    get_named_expression
        ((if direction = cudf.order.ASCENDING then ASCENDING_ORDER_SORT_TEXT
          else DESCENDING_ORDER_SORT_TEXT) ++ t) (h :: p)
      = get_named_expression t (h :: p) :=
  gne_skip h p t _ (not_mem_direction_text h direction h1 h2 h3 h4 h5)

theorem gne_match_append (name t : List Char) (hname : name ≠ []) :
    get_named_expression (name ++ '=' :: '[' :: t) name
      = t.takeWhile (fun x => x != ']') := by
  cases name with
  | nil => exact absurd rfl hname
  | cons h p =>
    have e : (h :: p) ++ '=' :: '[' :: t = ((h :: p) ++ ['=', '[']) ++ t := by simp
    have hm : ((h :: p) ++ ['=', '[']).isPrefixOf (h :: (p ++ '=' :: '[' :: t)) = true := by
      rw [← List.cons_append, e]
      exact std.isPrefixOf_self_append _ _
    rw [List.cons_append, gne_match _ _ _ hm, ← List.cons_append, e]
    have hl : (h :: p).length + 2 = ((h :: p) ++ ['=', '[']).length := by simp
    rw [hl, List.drop_left]

theorem gne_no_match (h : Char) (w : List Char) (i j : Nat) (t : List Char) (hij : i ≠ j) :
    get_named_expression (h :: (w ++ (std.to_string j ++ '=' :: t))) ((h :: w) ++ std.to_string i)
      = get_named_expression (w ++ (std.to_string j ++ '=' :: t)) ((h :: w) ++ std.to_string i) := by
  apply gne_cons_ne
  rw [← List.cons_append, List.append_assoc, std.isPrefixOf_append_left]
  cases hp : (std.to_string i ++ ['=', '[']).isPrefixOf (std.to_string j ++ '=' :: t) with
  | false => rfl
  | true => exact absurd (std.to_string_prefix_iff i j ['['] t hp) hij

/-- In a sort line, the parameter `sort<i>` has the value `$<c>` of the `i`-th
column. -/
theorem gne_sort_of_mem (tail : List Char) :
    ∀ (columns : List (Nat × cudf.order)) (j : Nat) (p : Nat × Nat × cudf.order),
      p ∈ columns.enumFrom j →
      get_named_expression (sort_params_from j columns tail)
          (['s', 'o', 'r', 't'] ++ std.to_string p.1)
        = '$' :: std.to_string p.2.1
  | [], _, _, h => by simp at h
  | q :: rest, j, p, h => by
    have hs : 's'.isDigit = false := by decide
    rw [List.enumFrom_cons, List.mem_cons] at h
    rw [sort_params_from_cons]
    simp only [List.cons_append, List.nil_append]
    rw [gne_cons_skip _ _ _ _ (by decide), gne_cons_skip _ _ _ _ (by decide)]
    rcases h with rfl | h
    · have := gne_match_append (['s', 'o', 'r', 't'] ++ std.to_string j)
        ('$' :: (std.to_string q.1 ++ ']' :: ',' :: ' ' :: 'd' :: 'i' :: 'r' ::
            (std.to_string j ++ '=' :: '[' ::
              ((if q.2 = cudf.order.ASCENDING then ASCENDING_ORDER_SORT_TEXT
                else DESCENDING_ORDER_SORT_TEXT) ++ ']' ::
                  sort_params_from (j + 1) rest tail)))) (by simp)
      simp only [List.cons_append, List.nil_append, List.append_assoc] at this
      rw [this, ← List.cons_append]
      apply takeWhile_stop _ _ _ (by decide)
      intro c hc
      rcases List.mem_cons.1 hc with rfl | hc
      · decide
      · have hne : c ≠ ']' := fun e => std.not_mem_to_string ']' q.1 (by decide) (e ▸ hc)
        simpa using hne
    · have hle := List.le_fst_of_mem_enumFrom h
      have hij : p.1 ≠ j := by omega
      refine Eq.trans (gne_no_match 's' ['o', 'r', 't'] p.1 j _ hij) ?_
      simp only [List.cons_append, List.nil_append]
      simp only [gne_cons_skip _ _ _ _ (show 'o' ≠ 's' by decide),
        gne_cons_skip _ _ _ _ (show 'r' ≠ 's' by decide),
        gne_cons_skip _ _ _ _ (show 't' ≠ 's' by decide),
        gne_cons_skip _ _ _ _ (show '=' ≠ 's' by decide),
        gne_cons_skip _ _ _ _ (show '[' ≠ 's' by decide),
        gne_cons_skip _ _ _ _ (show ']' ≠ 's' by decide),
        gne_cons_skip _ _ _ _ (show '$' ≠ 's' by decide),
        gne_cons_skip _ _ _ _ (show ',' ≠ 's' by decide),
        gne_cons_skip _ _ _ _ (show ' ' ≠ 's' by decide),
        gne_cons_skip _ _ _ _ (show 'd' ≠ 's' by decide),
        gne_cons_skip _ _ _ _ (show 'i' ≠ 's' by decide),
        gne_skip_to_string _ _ _ _ hs,
        gne_skip_direction _ _ _ _ (show 's' ≠ 'A' by decide) (show 's' ≠ 'S' by decide)
          (show 's' ≠ 'C' by decide) (show 's' ≠ 'D' by decide) (show 's' ≠ 'E' by decide)]
      have ih := gne_sort_of_mem tail rest (j + 1) p h
      simp only [List.cons_append, List.nil_append] at ih
      exact ih

end ral.operators

namespace ral.operators

/-- In a sort line, the parameter `dir<i>` has the direction text of the `i`-th
column. -/
theorem gne_dir_of_mem (tail : List Char) :
    ∀ (columns : List (Nat × cudf.order)) (j : Nat) (p : Nat × Nat × cudf.order),
      p ∈ columns.enumFrom j →
      get_named_expression (sort_params_from j columns tail)
          (['d', 'i', 'r'] ++ std.to_string p.1)
        = (if p.2.2 = cudf.order.ASCENDING then ASCENDING_ORDER_SORT_TEXT
            else DESCENDING_ORDER_SORT_TEXT)
  | [], _, _, h => by simp at h
  | q :: rest, j, p, h => by
    have hd : 'd'.isDigit = false := by decide
    rw [List.enumFrom_cons, List.mem_cons] at h
    rw [sort_params_from_cons]
    simp only [List.cons_append, List.nil_append,
      gne_cons_skip _ _ _ _ (show 'o' ≠ 'd' by decide),
      gne_cons_skip _ _ _ _ (show 'r' ≠ 'd' by decide),
      gne_cons_skip _ _ _ _ (show 't' ≠ 'd' by decide),
      gne_cons_skip _ _ _ _ (show 's' ≠ 'd' by decide),
      gne_cons_skip _ _ _ _ (show '=' ≠ 'd' by decide),
      gne_cons_skip _ _ _ _ (show '[' ≠ 'd' by decide),
      gne_cons_skip _ _ _ _ (show ']' ≠ 'd' by decide),
      gne_cons_skip _ _ _ _ (show '$' ≠ 'd' by decide),
      gne_cons_skip _ _ _ _ (show ',' ≠ 'd' by decide),
      gne_cons_skip _ _ _ _ (show ' ' ≠ 'd' by decide),
      gne_skip_to_string _ _ _ _ hd]
    rcases h with rfl | h
    · have := gne_match_append (['d', 'i', 'r'] ++ std.to_string j)
        ((if q.2 = cudf.order.ASCENDING then ASCENDING_ORDER_SORT_TEXT
                else DESCENDING_ORDER_SORT_TEXT) ++ ']' ::
                  sort_params_from (j + 1) rest tail) (by simp)
      simp only [List.cons_append, List.nil_append, List.append_assoc] at this
      rw [this]
      apply takeWhile_stop _ _ _ (by decide)
      intro c hc
      have hne : c ≠ ']' := by
        intro e
        rw [e] at hc
        exact not_mem_direction_text ']' q.2 (by decide) (by decide) (by decide) (by decide)
          (by decide) hc
      simpa using hne
    · have hle := List.le_fst_of_mem_enumFrom h
      have hij : p.1 ≠ j := by omega
      refine Eq.trans (gne_no_match 'd' ['i', 'r'] p.1 j _ hij) ?_
      simp only [List.cons_append, List.nil_append,
        gne_cons_skip _ _ _ _ (show 'i' ≠ 'd' by decide),
        gne_cons_skip _ _ _ _ (show 'r' ≠ 'd' by decide),
        gne_cons_skip _ _ _ _ (show '=' ≠ 'd' by decide),
        gne_cons_skip _ _ _ _ (show '[' ≠ 'd' by decide),
        gne_cons_skip _ _ _ _ (show ']' ≠ 'd' by decide),
        gne_skip_to_string _ _ _ _ hd,
        gne_skip_direction _ _ _ _ (show 'd' ≠ 'A' by decide) (show 'd' ≠ 'S' by decide)
          (show 'd' ≠ 'C' by decide) (show 'd' ≠ 'D' by decide) (show 'd' ≠ 'E' by decide)]
      have ih := gne_dir_of_mem tail rest (j + 1) p h
      simp only [List.cons_append, List.nil_append] at ih
      exact ih

/-- The sort and direction parameters of a sort line hide no `fetch` parameter. -/
theorem gne_fetch_sort_params_from (tail : List Char) :
    ∀ (columns : List (Nat × cudf.order)) (j : Nat),
      get_named_expression (sort_params_from j columns tail) ['f', 'e', 't', 'c', 'h']
        = get_named_expression tail ['f', 'e', 't', 'c', 'h']
  | [], _ => rfl
  | q :: rest, j => by
    have hf : 'f'.isDigit = false := by decide
    rw [sort_params_from_cons]
    simp only [List.cons_append, List.nil_append,
      gne_cons_skip _ _ _ _ (show 'o' ≠ 'f' by decide),
      gne_cons_skip _ _ _ _ (show 'r' ≠ 'f' by decide),
      gne_cons_skip _ _ _ _ (show 't' ≠ 'f' by decide),
      gne_cons_skip _ _ _ _ (show 's' ≠ 'f' by decide),
      gne_cons_skip _ _ _ _ (show 'd' ≠ 'f' by decide),
      gne_cons_skip _ _ _ _ (show 'i' ≠ 'f' by decide),
      gne_cons_skip _ _ _ _ (show '=' ≠ 'f' by decide),
      gne_cons_skip _ _ _ _ (show '[' ≠ 'f' by decide),
      gne_cons_skip _ _ _ _ (show ']' ≠ 'f' by decide),
      gne_cons_skip _ _ _ _ (show '$' ≠ 'f' by decide),
      gne_cons_skip _ _ _ _ (show ',' ≠ 'f' by decide),
      gne_cons_skip _ _ _ _ (show ' ' ≠ 'f' by decide),
      gne_skip_to_string _ _ _ _ hf,
      gne_skip_direction _ _ _ _ (show 'f' ≠ 'A' by decide) (show 'f' ≠ 'S' by decide)
        (show 'f' ≠ 'C' by decide) (show 'f' ≠ 'D' by decide) (show 'f' ≠ 'E' by decide)]
    exact gne_fetch_sort_params_from tail rest (j + 1)

/-- The `fetch` parameter at the end of a sort line has the text of the limit. -/
theorem gne_fetch_tail (fetch : Option Nat) :
    get_named_expression (fetch_tail fetch) ['f', 'e', 't', 'c', 'h']
      = (fetch.map std.to_string).getD [] := by
  cases fetch with
  | none => rfl
  | some n =>
    unfold fetch_tail fetch_param
    simp only [List.cons_append, List.nil_append,
      gne_cons_skip _ _ _ _ (show ',' ≠ 'f' by decide),
      gne_cons_skip _ _ _ _ (show ' ' ≠ 'f' by decide)]
    have := gne_match_append ['f', 'e', 't', 'c', 'h'] (std.to_string n ++ [']']) (by simp)
    simp only [List.cons_append, List.nil_append] at this
    rw [this]
    apply takeWhile_stop _ _ _ (by decide)
    intro c hc
    have hne : c ≠ ']' := fun e => std.not_mem_to_string ']' n (by decide) (e ▸ hc)
    simpa using hne

theorem count_aux_cons_skip (h c : Char) (p s : List Char) (hne : c ≠ h) :
    count_aux (h :: p) (c :: s) 0 = count_aux (h :: p) s 0 := by
  rw [count_aux, std.isPrefixOf_cons_ne h c p s hne]
  rfl

theorem count_aux_skip_to_string (h : Char) (p t : List Char) (n : Nat)
    (hd : h.isDigit = false) :
    count_aux (h :: p) (std.to_string n ++ t) 0 = count_aux (h :: p) t 0 :=
  count_aux_skip h p t _ (std.not_mem_to_string h n hd)

theorem count_aux_skip_direction (h : Char) (p t : List Char) (direction : cudf.order)
    (h1 : h ≠ 'A') (h2 : h ≠ 'S') (h3 : h ≠ 'C') (h4 : h ≠ 'D') (h5 : h ≠ 'E') :
    count_aux (h :: p)
        ((if direction = cudf.order.ASCENDING then ASCENDING_ORDER_SORT_TEXT
          else DESCENDING_ORDER_SORT_TEXT) ++ t) 0
      = count_aux (h :: p) t 0 :=
  count_aux_skip h p t _ (not_mem_direction_text h direction h1 h2 h3 h4 h5)

/-- A sort line has one occurrence of `sort` for each column. -/
theorem count_sort_params_from (tail : List Char) :
    ∀ (columns : List (Nat × cudf.order)) (j : Nat),
      count_aux ['s', 'o', 'r', 't'] (sort_params_from j columns tail) 0
        = columns.length + count_aux ['s', 'o', 'r', 't'] tail 0
  | [], _ => by simp [sort_params_from]
  | q :: rest, j => by
    have hs : 's'.isDigit = false := by decide
    rw [sort_params_from_cons, count_aux_cons_skip _ _ _ _ (by decide),
      count_aux_cons_skip _ _ _ _ (by decide)]
    refine Eq.trans (count_aux_hit 's' ['o', 'r', 't'] _) ?_
    simp only [List.append_eq, List.cons_append, List.nil_append,
      count_aux_cons_skip _ _ _ _ (show 'd' ≠ 's' by decide),
      count_aux_cons_skip _ _ _ _ (show 'i' ≠ 's' by decide),
      count_aux_cons_skip _ _ _ _ (show 'r' ≠ 's' by decide),
      count_aux_cons_skip _ _ _ _ (show '=' ≠ 's' by decide),
      count_aux_cons_skip _ _ _ _ (show '[' ≠ 's' by decide),
      count_aux_cons_skip _ _ _ _ (show ']' ≠ 's' by decide),
      count_aux_cons_skip _ _ _ _ (show '$' ≠ 's' by decide),
      count_aux_cons_skip _ _ _ _ (show ',' ≠ 's' by decide),
      count_aux_cons_skip _ _ _ _ (show ' ' ≠ 's' by decide),
      count_aux_skip_to_string _ _ _ _ hs,
      count_aux_skip_direction _ _ _ _ (show 's' ≠ 'A' by decide) (show 's' ≠ 'S' by decide)
        (show 's' ≠ 'C' by decide) (show 's' ≠ 'D' by decide) (show 's' ≠ 'E' by decide)]
    rw [count_sort_params_from tail rest (j + 1), List.length_cons]
    omega

theorem count_fetch_tail (fetch : Option Nat) :
    count_aux ['s', 'o', 'r', 't'] (fetch_tail fetch) 0 = 0 := by
  apply count_aux_none
  cases fetch with
  | none => simp [fetch_tail]
  | some n =>
    have := std.not_mem_to_string 's' n (by decide)
    simp [fetch_tail, fetch_param, this]

end ral.operators

theorem map_or_throw_map {α β γ : Type} (f : β → Option γ) (g : α → β) :
    ∀ l : List α, map_or_throw f (l.map g) = map_or_throw (fun a => f (g a)) l
  | [] => rfl
  | a :: l => by
    rw [List.map_cons, map_or_throw, map_or_throw, map_or_throw_map f g l]

namespace ral.operators

theorem gne_sep_sort_line_params (columns : List (Nat × cudf.order)) (fetch : Option Nat)
    (hne : columns ≠ [] ∨ fetch ≠ none) (h : Char) (p : List Char)
    (h1 : ',' ≠ h) (h2 : ' ' ≠ h) :
    get_named_expression (sort_line_params columns fetch) (h :: p)
      = get_named_expression (sort_params_from 0 columns (fetch_tail fetch)) (h :: p) := by
  rw [← sep_sort_line_params columns fetch hne, gne_cons_skip _ _ _ _ h1,
    gne_cons_skip _ _ _ _ h2]

/-- The text between the parentheses of a sort line, found by `find`, `rfind`
and `substr`. -/
theorem sort_line_body (pre body post : List Char) (hpre : '(' ∉ pre) (hpost : ')' ∉ post)
    (hlen : (pre ++ '(' :: (body ++ ')' :: post)).length + 1 < 18446744073709551616) :
    std.substr (pre ++ '(' :: (body ++ ')' :: post))
        (std.size_add (std.find (pre ++ '(' :: (body ++ ')' :: post)) ['(']) 1)
        (std.size_sub (std.size_sub (std.rfind (pre ++ '(' :: (body ++ ')' :: post)) [')'])
          (std.find (pre ++ '(' :: (body ++ ')' :: post)) ['('])) 1)
      = some body := by
  have hfind : std.find (pre ++ '(' :: (body ++ ')' :: post)) ['('] = pre.length := by
    unfold std.find
    rw [std.find_aux_skip _ _ _ _ _ hpre, std.find_aux_match _ _ _ (by simp [List.isPrefixOf])]
    simp
  have hrfind : std.rfind (pre ++ '(' :: (body ++ ')' :: post)) [')']
      = pre.length + 1 + body.length := by
    unfold std.rfind
    have e : pre ++ '(' :: (body ++ ')' :: post) = (pre ++ '(' :: body) ++ ')' :: post := by
      simp
    rw [e, std.rfind_aux_last _ _ hpost]
    simp
    omega
  rw [hfind, hrfind]
  simp only [List.length_append, List.length_cons] at hlen
  have h1 : std.size_add pre.length 1 = (pre ++ ['(']).length := by
    rw [std.size_add_eq _ _ (by omega)]
    simp
  have h2 : std.size_sub (std.size_sub (pre.length + 1 + body.length) pre.length) 1
      = body.length := by
    rw [std.size_sub_eq (pre.length + 1 + body.length) pre.length (by omega) (by omega),
      std.size_sub_eq _ 1 (by omega) (by omega)]
    omega
  rw [h1, h2]
  have e : pre ++ '(' :: (body ++ ')' :: post) = (pre ++ ['(']) ++ (body ++ ')' :: post) := by
    simp
  rw [e, std.substr_middle]

theorem direction_text_eq_iff (direction : cudf.order) :
    (if (if direction = cudf.order.ASCENDING then ASCENDING_ORDER_SORT_TEXT
          else DESCENDING_ORDER_SORT_TEXT) = ASCENDING_ORDER_SORT_TEXT
      then cudf.order.ASCENDING else cudf.order.DESCENDING) = direction := by
  cases direction <;> decide

theorem to_int32_of_le (n : Nat) (h : n ≤ 2147483647) : comm.to_int32 (n : Int) = (n : Int) := by
  unfold comm.to_int32
  simp only
  have e : (n : Int) % 4294967296 = n := Int.emod_eq_of_lt (by omega) (by omega)
  rw [e, if_pos (by omega)]

theorem get_index_column (c : Nat) (h : c ≤ 2147483647) :
    get_index ('$' :: std.to_string c) = some c := by
  unfold get_index
  rw [List.drop_one, List.tail_cons, std.stoull_to_string c (by omega)]

end ral.operators

namespace ral.operators

theorem count_sort_line_params (columns : List (Nat × cudf.order)) (fetch : Option Nat) :
    count_string_occurrence (sort_line_params columns fetch) ['s', 'o', 'r', 't']
      = columns.length := by
  unfold count_string_occurrence
  by_cases hne : columns ≠ [] ∨ fetch ≠ none
  · rw [← count_aux_cons_skip 's' ' ' _ _ (by decide), ← count_aux_cons_skip 's' ',' _ _ (by decide),
      sep_sort_line_params columns fetch hne, count_sort_params_from, count_fetch_tail]
    rfl
  · have h1 : columns = [] := by
      by_contra h
      exact hne (Or.inl h)
    have h2 : fetch = none := by
      by_contra h
      exact hne (Or.inr h)
    subst h1 h2
    rfl

theorem gne_sort_sort_line_params (columns : List (Nat × cudf.order)) (fetch : Option Nat)
    (p : Nat × Nat × cudf.order) (hp : p ∈ columns.enum) :
    get_named_expression (sort_line_params columns fetch)
        (['s', 'o', 'r', 't'] ++ std.to_string p.1)
      = '$' :: std.to_string p.2.1 := by
  have hne : columns ≠ [] := by
    intro h
    rw [h] at hp
    simp at hp
  rw [List.cons_append, gne_sep_sort_line_params columns fetch (Or.inl hne) _ _ (by decide)
    (by decide)]
  exact gne_sort_of_mem _ columns 0 p hp

theorem gne_dir_sort_line_params (columns : List (Nat × cudf.order)) (fetch : Option Nat)
    (p : Nat × Nat × cudf.order) (hp : p ∈ columns.enum) :
    get_named_expression (sort_line_params columns fetch)
        (['d', 'i', 'r'] ++ std.to_string p.1)
      = (if p.2.2 = cudf.order.ASCENDING then ASCENDING_ORDER_SORT_TEXT
          else DESCENDING_ORDER_SORT_TEXT) := by
  have hne : columns ≠ [] := by
    intro h
    rw [h] at hp
    simp at hp
  rw [List.cons_append, gne_sep_sort_line_params columns fetch (Or.inl hne) _ _ (by decide)
    (by decide)]
  exact gne_dir_of_mem _ columns 0 p hp

theorem gne_fetch_sort_line_params (columns : List (Nat × cudf.order)) (fetch : Option Nat) :
    get_named_expression (sort_line_params columns fetch) ['f', 'e', 't', 'c', 'h']
      = (fetch.map std.to_string).getD [] := by
  by_cases hne : columns ≠ [] ∨ fetch ≠ none
  · rw [gne_sep_sort_line_params columns fetch hne _ _ (by decide) (by decide),
      gne_fetch_sort_params_from, gne_fetch_tail]
  · have h1 : columns = [] := by
      by_contra h
      exact hne (Or.inl h)
    have h2 : fetch = none := by
      by_contra h
      exact hne (Or.inr h)
    subst h1 h2
    rfl

/-- C15: for a sort line whose parenthesised parameters are
`sort0=[$c0], dir0=[d0], ..., sort(k-1)=[$c(k-1)], dir(k-1)=[d(k-1)]` with each
direction `ASC` or `DESC`, optionally followed by `fetch=[N]`, `get_sort_vars`
returns the column indices `c0 .. c(k-1)` in that order, the orders (`ASCENDING`
for `ASC`, `DESCENDING` for `DESC`), and the limit `N`, or `-1` when the line has
no `fetch` parameter. The indices and the limit are values of an `int`. -/
theorem get_sort_vars_spec (pre post : List Char) (columns : List (Nat × cudf.order))
    (fetch : Option Nat) (hpre : '(' ∉ pre) (hpost : ')' ∉ post)
    (hcol : ∀ p ∈ columns, p.1 ≤ 2147483647) (hfetch : ∀ n ∈ fetch, n ≤ 2147483647)
    (hlen : (pre ++ '(' :: (sort_line_params columns fetch ++ ')' :: post)).length + 1
      < 18446744073709551616) :
    get_sort_vars (pre ++ '(' :: (sort_line_params columns fetch ++ ')' :: post))
      = some (columns.map (fun p => (p.1 : Int)), columns.map (fun p => p.2),
          (fetch.map Int.ofNat).getD (-1)) := by
  unfold get_sort_vars
  simp only [Option.bind_eq_bind, Option.pure_def]
  rw [sort_line_body pre _ post hpre hpost hlen, Option.some_bind,
    count_sort_line_params, gne_fetch_sort_line_params]
  have hsort : map_or_throw
      (fun i => (get_index (get_named_expression (sort_line_params columns fetch)
          (['s', 'o', 'r', 't'] ++ std.to_string i))).map fun (index : Nat) => comm.to_int32 (Int.ofNat index))
      (List.range columns.length) = some (columns.map fun p => (p.1 : Int)) := by
    rw [← List.enum_map_fst, map_or_throw_map,
      map_or_throw_eq_some _ (fun p : Nat × Nat × cudf.order => (p.2.1 : Int))]
    · conv_rhs => rw [← List.enum_map_snd columns, List.map_map]
      rfl
    · intro p hp
      have hmem : p.2 ∈ columns := by
        rw [← List.enum_map_snd columns]
        exact List.mem_map_of_mem _ hp
      rw [gne_sort_sort_line_params columns fetch p hp, get_index_column _ (hcol _ hmem),
        Option.map_some']
      exact congrArg some (to_int32_of_le _ (hcol _ hmem))
  have hdir : ((List.range columns.length).map fun i =>
      if get_named_expression (sort_line_params columns fetch)
          (['d', 'i', 'r'] ++ std.to_string i) = ASCENDING_ORDER_SORT_TEXT
      then cudf.order.ASCENDING else cudf.order.DESCENDING) = columns.map fun p => p.2 := by
    rw [← List.enum_map_fst, List.map_map]
    conv_rhs => rw [← List.enum_map_snd columns, List.map_map]
    apply List.map_congr_left
    intro p hp
    simp only [Function.comp_apply]
    rw [gne_dir_sort_line_params columns fetch p hp, direction_text_eq_iff]
  rw [hsort, Option.some_bind, hdir]
  cases fetch with
  | none => rfl
  | some n =>
    have hn : n ≤ 2147483647 := hfetch n rfl
    have hne : (std.to_string n).isEmpty = false := by
      cases h : std.to_string n with
      | nil => exact absurd h (std.to_string_ne_nil n)
      | cons c l => rfl
    simp only [Option.map_some', Option.getD_some, hne, Bool.not_false, if_true]
    rw [std.stoi_to_string n hn]
    rfl

/-- Instance of `get_sort_vars_spec`: a sort line with two columns and a limit. -/
theorem get_sort_vars_spec_witness :
    get_sort_vars "LogicalSort(sort0=[$3], dir0=[ASC], sort1=[$12], dir1=[DESC], fetch=[7])".toList
      = some ([3, 12], [cudf.order.ASCENDING, cudf.order.DESCENDING], 7) :=
  get_sort_vars_spec "LogicalSort".toList [] [(3, cudf.order.ASCENDING), (12, cudf.order.DESCENDING)]
    (some 7) (by decide) (by decide) (by decide) (by decide) (by decide)

end ral.operators

/-! ## Properties of `graph.h` -/

theorem foldl_push_back_eq_map {α β : Type} (f : α → β) :
    ∀ (l : List α) (init : List β),
      l.foldl (fun machines i => machines ++ [f i]) init = init ++ l.map f
  | [], init => by simp
  | a :: l, init => by
    rw [List.foldl_cons, foldl_push_back_eq_map f l, List.map_cons, List.append_assoc]
    rfl

namespace ral.cache

theorem create_cache_machine_some (config : cache_settings) (concat_cache_num_bytes : Nat) :
    ∃ make : List Char → CacheMachine,
      (∀ cache_machine_name,
        create_cache_machine config concat_cache_num_bytes cache_machine_name
          = some (make cache_machine_name)) ∧
      ∀ cache_machine_name, (make cache_machine_name).name = cache_machine_name := by
  cases htype : config.type
  · exact ⟨CacheMachine.make_CacheMachine,
      fun _ => by simp [create_cache_machine, htype], fun _ => rfl⟩
  · exact ⟨CacheMachine.make_ConcatenatingCacheMachine concat_cache_num_bytes config.concat_all,
      fun _ => by simp [create_cache_machine, htype], fun _ => rfl⟩
  · exact ⟨CacheMachine.make_CacheMachine,
      fun _ => by simp [create_cache_machine, htype], fun _ => rfl⟩

/-! ### C21: cache machines of an edge -/

/-- C21: for every `cache_settings`, source port and source kernel id,
`create_cache_machines` returns `max(1, num_partitions)` cache machines, none of
them null, named `<kernel id>_<port>_<i>` for `i = 0 .. num_partitions-1` when
`num_partitions > 1` and `<kernel id>_<port>` otherwise, and the names of one
call are pairwise distinct. -/
theorem create_cache_machines_spec (config : cache_settings) (num_partitions : Int)
    (concat_cache_num_bytes : Nat) (source_port : List Char) (source_kernel_id : Int) :
    ∃ machines : List CacheMachine,
      create_cache_machines config num_partitions concat_cache_num_bytes source_port
          source_kernel_id = machines.map some ∧
      (machines.length : Int) = max 1 num_partitions ∧
      machines.map CacheMachine.name
        = (if num_partitions > 1 then
            (List.range num_partitions.toNat).map fun i =>
              std.to_string_int source_kernel_id ++ ['_'] ++ source_port ++ ['_']
                ++ std.to_string i
          else [std.to_string_int source_kernel_id ++ ['_'] ++ source_port]) ∧
      (machines.map CacheMachine.name).Nodup := by
  obtain ⟨make, hmake, hname⟩ := create_cache_machine_some config concat_cache_num_bytes
  have hnames : ∀ l : List (List Char), (l.map make).map CacheMachine.name = l := by
    intro l
    rw [List.map_map]
    conv_rhs => rw [← List.map_id l]
    exact List.map_congr_left fun n _ => hname n
  by_cases hn : num_partitions > 1
  · refine ⟨((List.range num_partitions.toNat).map fun i =>
        std.to_string_int source_kernel_id ++ ['_'] ++ source_port ++ ['_']
          ++ std.to_string i).map make, ?_, ?_, ?_, ?_⟩
    · unfold create_cache_machines
      rw [if_pos hn]
      simp only [hmake]
      rw [foldl_push_back_eq_map, List.nil_append, List.map_map, List.map_map]
      rfl
    · rw [List.length_map, List.length_map, List.length_range]
      omega
    · rw [hnames, if_pos hn]
    · rw [hnames]
      apply List.Nodup.map _ (List.nodup_range _)
      intro i j hij
      exact std.to_string_injective i j (List.append_cancel_left hij)
  · refine ⟨[make (std.to_string_int source_kernel_id ++ ['_'] ++ source_port)], ?_, ?_, ?_, ?_⟩
    · unfold create_cache_machines
      rw [if_neg hn]
      simp only [hmake]
      rfl
    · simp only [List.length_singleton]
      omega
    · rw [if_neg hn]
      simp [hname]
    · simp

end ral.cache

/-! ## Properties of the limit in `OrderBy.cpp` -/

namespace ral.operators

theorem to_int32_of_range (x : Int) (h0 : 0 ≤ x) (h1 : x ≤ 2147483647) : comm.to_int32 x = x := by
  unfold comm.to_int32
  simp only
  have e : x % 4294967296 = x := Int.emod_eq_of_lt h0 (by omega)
  rw [e, if_pos (by omega)]

theorem logicalLimit_control_split (num_rows limitRows : Int) (h0 : 0 < limitRows)
    (h1 : limitRows < num_rows) :
    logicalLimit_control num_rows limitRows = logicalLimit_path.split := by
  unfold logicalLimit_control
  rw [if_neg (by simpa using h1), if_neg (by omega), if_pos h1]

theorem logicalLimit_take {α : Type} (table : List α) (k : Nat) (h0 : 0 < k)
    (h1 : k < table.length) : logicalLimit table (k : Int) = some (table.take k) := by
  unfold logicalLimit
  rw [logicalLimit_control_split _ _ (by omega) (by omega)]
  simp only
  rw [if_neg (by omega)]
  have hvalid : cudf.splits_valid table.length 0 [k] = true := by
    simp [cudf.splits_valid]
    omega
  simp [cudf.split, hvalid, cudf.slices]

/-! ### C22: result of `limit_table` -/

/-- C22: for every table with `r` rows and every limit `L`, `limit_table` returns
the first `min(max(L, 0), r)` rows of the table, a flag that is true exactly when
`L > 0` and `L >= r`, and a remaining limit that is `L - r` when the flag is true
and `0` when it is false; the rows returned and the remaining limit add up to `L`
whenever the flag is true. The row count of a table is a `cudf::size_type`. -/
theorem limit_table_spec {α : Type} (table : ral.frame.BlazingTable α) (num_rows_limit : Int)
    (hrows : table.num_rows ≤ 2147483647) :
    limit_table table num_rows_limit
      = some (⟨table.view.take (min (max num_rows_limit 0) table.num_rows).toNat, table.names⟩,
          decide (num_rows_limit > 0 ∧ num_rows_limit ≥ table.num_rows),
          if num_rows_limit > 0 ∧ num_rows_limit ≥ table.num_rows
          then num_rows_limit - table.num_rows else 0) ∧
    ∀ limited flag remaining, limit_table table num_rows_limit = some (limited, flag, remaining) →
      flag = true → limited.num_rows + remaining = num_rows_limit := by
  have hmain : limit_table table num_rows_limit
      = some (⟨table.view.take (min (max num_rows_limit 0) table.num_rows).toNat, table.names⟩,
          decide (num_rows_limit > 0 ∧ num_rows_limit ≥ table.num_rows),
          if num_rows_limit > 0 ∧ num_rows_limit ≥ table.num_rows
          then num_rows_limit - table.num_rows else 0) := by
    unfold ral.frame.BlazingTable.num_rows at hrows ⊢
    unfold limit_table
    simp only [ral.frame.BlazingTable.num_rows]
    by_cases h0 : num_rows_limit ≤ 0
    · rw [if_pos h0, if_neg (by omega)]
      have hz : (min (max num_rows_limit 0) (table.view.length : Int)).toNat = 0 := by omega
      have hd : decide (num_rows_limit > 0 ∧ num_rows_limit ≥ (table.view.length : Int)) = false := by
        simp only [decide_eq_false_iff_not]
        omega
      rw [hz, hd, List.take_zero]
    · rw [if_neg h0]
      by_cases h1 : num_rows_limit ≥ (table.view.length : Int)
      · rw [if_pos h1, if_pos ⟨by omega, h1⟩]
        have hz : (min (max num_rows_limit 0) (table.view.length : Int)).toNat
            = table.view.length := by omega
        have hd : decide (num_rows_limit > 0 ∧ num_rows_limit ≥ (table.view.length : Int)) = true := by
          simp only [decide_eq_true_eq]
          omega
        rw [hz, hd, List.take_length]
      · rw [if_neg h1, if_neg (fun h => h1 h.2)]
        obtain ⟨k, rfl⟩ := Int.eq_ofNat_of_zero_le (show 0 ≤ num_rows_limit by omega)
        have hz : (min (max (k : Int) 0) (table.view.length : Int)).toNat = k := by omega
        have hd : decide ((k : Int) > 0 ∧ (k : Int) ≥ (table.view.length : Int)) = false := by
          simp only [decide_eq_false_iff_not]
          omega
        rw [hz, hd, to_int32_of_range _ (by omega) (by omega),
          logicalLimit_take _ _ (by omega) (by omega)]
        rfl
  refine ⟨hmain, ?_⟩
  intro limited flag remaining hres hflag
  rw [hmain] at hres
  simp only [Option.some.injEq, Prod.mk.injEq] at hres
  obtain ⟨h1, h2, h3⟩ := hres
  subst h1 h3
  rw [← h2] at hflag
  have hcond := of_decide_eq_true hflag
  rw [if_pos hcond]
  unfold ral.frame.BlazingTable.num_rows at hcond ⊢
  simp only [List.length_take]
  omega

/-- Instance of `limit_table_spec`: a limit of two on a table of three rows. -/
theorem limit_table_spec_witness :
    limit_table (⟨[10, 20, 30], []⟩ : ral.frame.BlazingTable Nat) 2
      = some (⟨[10, 20], []⟩, false, 0) :=
  (limit_table_spec (⟨[10, 20, 30], []⟩ : ral.frame.BlazingTable Nat) 2 (by decide)).1

/-! ### C23: the call of `logicalLimit` -/

/-- C23: every call of `logicalLimit` made by `limit_table` has
`0 < limitRows < table.num_rows()` with `limitRows` equal to the 64-bit limit, so
the assertion of `logicalLimit` holds and the call ends in the split branch,
never in the `limitRows == 0` branch or the whole-table branch; and the result of
`limit_table` is the result of that call. -/
theorem limit_table_logicalLimit_call_spec {α : Type} (table : ral.frame.BlazingTable α)
    (num_rows_limit : Int) (hrows : table.num_rows ≤ 2147483647) (view : List α)
    (limitRows : Int)
    (hcall : limit_table_logicalLimit_call table num_rows_limit = some (view, limitRows)) :
    0 < limitRows ∧ limitRows < view.length ∧ limitRows = num_rows_limit ∧
      logicalLimit_control view.length limitRows = logicalLimit_path.split ∧
      limit_table table num_rows_limit
        = (logicalLimit view limitRows).map fun limited => (⟨limited, table.names⟩, false, 0) := by
  unfold ral.frame.BlazingTable.num_rows at hrows
  unfold limit_table_logicalLimit_call at hcall
  simp only [ral.frame.BlazingTable.num_rows] at hcall
  by_cases h0 : num_rows_limit ≤ 0
  · rw [if_pos h0] at hcall
    exact absurd hcall (by simp)
  · rw [if_neg h0] at hcall
    by_cases h1 : num_rows_limit ≥ (table.view.length : Int)
    · rw [if_pos h1] at hcall
      exact absurd hcall (by simp)
    · rw [if_neg h1, to_int32_of_range _ (by omega) (by omega)] at hcall
      simp only [Option.some.injEq, Prod.mk.injEq] at hcall
      obtain ⟨hv, hl⟩ := hcall
      subst hv hl
      refine ⟨by omega, by omega, rfl, logicalLimit_control_split _ _ (by omega) (by omega), ?_⟩
      unfold limit_table
      simp only [ral.frame.BlazingTable.num_rows]
      rw [if_neg h0, if_neg h1, to_int32_of_range _ (by omega) (by omega)]

/-- Instance of `limit_table_logicalLimit_call_spec`: a limit of two on a table
of three rows reaches `logicalLimit` with the limit two. -/
theorem limit_table_logicalLimit_call_spec_witness :
    limit_table_logicalLimit_call (⟨[10, 20, 30], []⟩ : ral.frame.BlazingTable Nat) 2
        = some ([10, 20, 30], 2) ∧
      logicalLimit_control 3 2 = logicalLimit_path.split :=
  ⟨by decide,
    (limit_table_logicalLimit_call_spec (⟨[10, 20, 30], []⟩ : ral.frame.BlazingTable Nat) 2
      (by decide) [10, 20, 30] 2 (by decide)).2.2.2.1⟩

end ral.operators

/-! ## Properties of `std::set` -/

namespace std

theorem mem_set_insert_of_mem {α : Type} (lt : α → α → Bool) (x z : α) :
    ∀ s : List α, z ∈ s → z ∈ set_insert lt s x
  | [], h => by simp at h
  | y :: s, h => by
    unfold set_insert
    split_ifs
    · exact List.mem_cons_of_mem _ h
    · rcases List.mem_cons.1 h with rfl | h
      · exact List.mem_cons_self _ _
      · exact List.mem_cons_of_mem _ (mem_set_insert_of_mem lt x z s h)
    · exact h

theorem mem_of_mem_set_insert {α : Type} (lt : α → α → Bool) (x z : α) :
    ∀ s : List α, z ∈ set_insert lt s x → z = x ∨ z ∈ s
  | [], h => by
    simp only [set_insert, List.mem_singleton] at h
    exact Or.inl h
  | y :: s, h => by
    unfold set_insert at h
    split_ifs at h
    · rcases List.mem_cons.1 h with rfl | h
      · exact Or.inl rfl
      · exact Or.inr h
    · rcases List.mem_cons.1 h with rfl | h
      · exact Or.inr (List.mem_cons_self _ _)
      · rcases mem_of_mem_set_insert lt x z s h with rfl | h
        · exact Or.inl rfl
        · exact Or.inr (List.mem_cons_of_mem _ h)
    · exact Or.inr h

theorem set_insert_pairwise {α : Type} (lt : α → α → Bool)
    (htrans : ∀ a b c, lt a b = true → lt b c = true → lt a c = true) (x : α) :
    ∀ s : List α, s.Pairwise (fun a b => lt a b = true) →
      (set_insert lt s x).Pairwise (fun a b => lt a b = true)
  | [], _ => by simp [set_insert]
  | y :: s, h => by
    have hy := List.pairwise_cons.1 h
    unfold set_insert
    split_ifs with h1 h2
    · refine List.pairwise_cons.2 ⟨?_, h⟩
      intro z hz
      rcases List.mem_cons.1 hz with rfl | hz
      · exact h1
      · exact htrans _ _ _ h1 (hy.1 z hz)
    · refine List.pairwise_cons.2 ⟨?_, set_insert_pairwise lt htrans x s hy.2⟩
      intro z hz
      rcases mem_of_mem_set_insert lt x z s hz with rfl | hz
      · exact h2
      · exact hy.1 z hz
    · exact h

theorem exists_equiv_set_insert {α : Type} (lt : α → α → Bool) (hirr : ∀ a, lt a a = false)
    (x : α) : ∀ s : List α, ∃ y ∈ set_insert lt s x, lt x y = false ∧ lt y x = false
  | [] => ⟨x, by simp [set_insert], hirr x, hirr x⟩
  | y :: s => by
    unfold set_insert
    split_ifs with h1 h2
    · exact ⟨x, List.mem_cons_self _ _, hirr x, hirr x⟩
    · obtain ⟨z, hz, he⟩ := exists_equiv_set_insert lt hirr x s
      exact ⟨z, List.mem_cons_of_mem _ hz, he⟩
    · exact ⟨y, List.mem_cons_self _ _, by simpa using h1, by simpa using h2⟩

theorem foldl_set_insert_pairwise {α : Type} (lt : α → α → Bool)
    (htrans : ∀ a b c, lt a b = true → lt b c = true → lt a c = true) :
    ∀ (xs s : List α), s.Pairwise (fun a b => lt a b = true) →
      (xs.foldl (set_insert lt) s).Pairwise (fun a b => lt a b = true)
  | [], _, h => h
  | x :: xs, s, h =>
    foldl_set_insert_pairwise lt htrans xs _ (set_insert_pairwise lt htrans x s h)

theorem mem_foldl_set_insert {α : Type} (lt : α → α → Bool) (z : α) :
    ∀ (xs s : List α), z ∈ s → z ∈ xs.foldl (set_insert lt) s
  | [], _, h => h
  | x :: xs, s, h => mem_foldl_set_insert lt z xs _ (mem_set_insert_of_mem lt x z s h)

theorem exists_equiv_foldl_set_insert {α : Type} (lt : α → α → Bool)
    (hirr : ∀ a, lt a a = false) (e : α) :
    ∀ (xs s : List α), e ∈ xs →
      ∃ y ∈ xs.foldl (set_insert lt) s, lt e y = false ∧ lt y e = false
  | [], _, h => by simp at h
  | x :: xs, s, h => by
    rcases List.mem_cons.1 h with rfl | h
    · obtain ⟨y, hy, he⟩ := exists_equiv_set_insert lt hirr e s
      exact ⟨y, mem_foldl_set_insert lt y xs _ hy, he⟩
    · exact exists_equiv_foldl_set_insert lt hirr e xs _ h

end std

namespace ral.cache

theorem Edge.lt_iff (a b : Edge) :
    a.lt b = true ↔ a.target < b.target ∨ (a.target = b.target ∧ a.source < b.source) := by
  simp [Edge.lt]

theorem Edge.lt_eq_false_iff (a b : Edge) :
    a.lt b = false ↔ ¬ (a.target < b.target ∨ (a.target = b.target ∧ a.source < b.source)) := by
  rw [← Edge.lt_iff, Bool.not_eq_true]

theorem Edge.eq_iff (a b : Edge) :
    a.eq b = true ↔ a.source = b.source ∧ a.target = b.target := by
  simp [Edge.eq, and_comm]

theorem Edge.lt_irrefl (a : Edge) : a.lt a = false := by
  rw [Edge.lt_eq_false_iff]
  omega

theorem Edge.lt_trans (a b c : Edge) (hab : a.lt b = true) (hbc : b.lt c = true) :
    a.lt c = true := by
  rw [Edge.lt_iff] at hab hbc ⊢
  omega

theorem Edge.equiv_iff (a b : Edge) :
    (a.lt b = false ∧ b.lt a = false) ↔ a.eq b = true := by
  rw [Edge.lt_eq_false_iff, Edge.lt_eq_false_iff, Edge.eq_iff]
  omega

/-! ### C24: order of the edges -/

/-- C24: `Edge::operator<` is a strict weak ordering (irreflexive, transitive,
with a transitive equivalence) that compares edges by `(target, source)`
lexicographically; two edges are equivalent under it exactly when `operator==`
holds, that is when they have the same source and target, whatever their port
names; so a `std::set<Edge>` built by insertions keeps one edge, and no more,
for each `(source, target)` pair inserted. -/
theorem Edge_order_spec :
    (∀ a : Edge, a.lt a = false) ∧
    (∀ a b c : Edge, a.lt b = true → b.lt c = true → a.lt c = true) ∧
    (∀ a b c : Edge, (a.lt b = false ∧ b.lt a = false) → (b.lt c = false ∧ c.lt b = false) →
      (a.lt c = false ∧ c.lt a = false)) ∧
    (∀ a b : Edge, a.lt b = true ↔
      Prod.Lex (fun x y : Int => x < y) (fun x y : Int => x < y)
        (a.target, a.source) (b.target, b.source)) ∧
    (∀ a b : Edge, (a.lt b = false ∧ b.lt a = false) ↔ a.eq b = true) ∧
    (∀ a b : Edge, a.eq b = true ↔ a.source = b.source ∧ a.target = b.target) ∧
    (∀ edges : List Edge,
      (edges.foldl (std.set_insert Edge.lt) []).Pairwise
          (fun a b => ¬ (a.source = b.source ∧ a.target = b.target)) ∧
        ∀ e ∈ edges, ∃ x ∈ edges.foldl (std.set_insert Edge.lt) [],
          x.source = e.source ∧ x.target = e.target) := by
  refine ⟨Edge.lt_irrefl, Edge.lt_trans, ?_, ?_, Edge.equiv_iff, Edge.eq_iff, ?_⟩
  · intro a b c hab hbc
    rw [Edge.equiv_iff, Edge.eq_iff] at hab hbc ⊢
    omega
  · intro a b
    rw [Edge.lt_iff, Prod.lex_def]
  · intro edges
    constructor
    · refine (std.foldl_set_insert_pairwise Edge.lt Edge.lt_trans edges [] List.Pairwise.nil).imp ?_
      intro a b hab hsame
      have hba : b.lt a = false ∧ a.lt b = false := (Edge.equiv_iff b a).2
        ((Edge.eq_iff b a).2 ⟨hsame.1.symm, hsame.2.symm⟩)
      rw [hab] at hba
      exact Bool.noConfusion hba.2
    · intro e he
      obtain ⟨x, hx, hxe⟩ := std.exists_equiv_foldl_set_insert Edge.lt Edge.lt_irrefl e edges [] he
      have := (Edge.eq_iff e x).1 ((Edge.equiv_iff e x).1 hxe)
      exact ⟨x, hx, this.1.symm, this.2.symm⟩

/-- Instance of `Edge_order_spec`: two edges between the same kernels with
different port names are equivalent, and a set takes only the first of them. -/
theorem Edge_order_spec_witness :
    (Edge.lt ⟨1, 2, ['a'], ['b']⟩ ⟨1, 2, ['c'], ['d']⟩ = false ∧
        Edge.lt ⟨1, 2, ['c'], ['d']⟩ ⟨1, 2, ['a'], ['b']⟩ = false) ∧
      Edge.eq ⟨1, 2, ['a'], ['b']⟩ ⟨1, 2, ['c'], ['d']⟩ = true ∧
      [(⟨1, 2, ['a'], ['b']⟩ : Edge), ⟨1, 2, ['c'], ['d']⟩].foldl (std.set_insert Edge.lt) []
        = [⟨1, 2, ['a'], ['b']⟩] :=
  ⟨(Edge_order_spec.2.2.2.2.1 ⟨1, 2, ['a'], ['b']⟩ ⟨1, 2, ['c'], ['d']⟩).2 (by decide),
    by decide, by decide⟩

end ral.cache

/-! ## Properties of `std::map` -/

namespace std

theorem map_find_append {κ γ : Type} [DecidableEq κ] (k t : κ) (v : γ) :
    ∀ m : List (κ × γ),
      map_find (m ++ [(k, v)]) t
        = (map_find m t).orElse fun _ => if k = t then some v else none
  | [] => by simp [map_find]
  | e :: m => by
    rw [List.cons_append, map_find, map_find]
    by_cases h : e.1 = t
    · rw [if_pos h, if_pos h]
      rfl
    · rw [if_neg h, if_neg h]
      exact map_find_append k t v m

theorem map_find_insert {κ γ : Type} [DecidableEq κ] (m : List (κ × γ)) (k t : κ) (v : γ) :
    map_find (map_insert m k v) t
      = (map_find m t).orElse fun _ => if k = t then some v else none := by
  unfold map_insert
  cases hk : map_find m k with
  | some old =>
    simp only
    cases ht : map_find m t with
    | some g => rfl
    | none =>
      have hne : k ≠ t := by
        intro e
        rw [e, ht] at hk
        exact Option.noConfusion hk
      simp [hne]
  | none =>
    simp only
    exact map_find_append k t v m

theorem map_find_erase {κ γ : Type} [DecidableEq κ] (k t : κ) :
    ∀ m : List (κ × γ), map_find (map_erase m k) t = if k = t then none else map_find m t
  | [] => by simp [map_erase, map_find]
  | e :: m => by
    have ih := map_find_erase k t m
    unfold map_erase at ih ⊢
    rw [List.filter_cons]
    by_cases hek : e.1 = k
    · simp only [hek, ne_eq, not_true_eq_false, decide_False, Bool.false_eq_true, if_false]
      rw [ih, map_find]
      split_ifs with h1 h2
      · rfl
      · exact absurd (hek.symm.trans h2) h1
      · rfl
    · simp only [ne_eq, hek, not_false_eq_true, decide_True, if_true]
      rw [map_find, map_find]
      split_ifs with h1 h2
      · exact absurd (h1.trans h2.symm) hek
      · rfl
      · rw [ih, if_pos ‹k = t›]
      · rw [ih, if_neg ‹¬ k = t›]

end std

/-! ## Properties of the registry of graphs -/

namespace comm

theorem earliest_registration_append {γ : Type} (t : Int) (l₂ : List (graphs_info_call γ)) :
    ∀ l₁ : List (graphs_info_call γ),
      earliest_registration t (l₁ ++ l₂)
        = (earliest_registration t l₁).orElse fun _ => earliest_registration t l₂
  | [] => by simp [earliest_registration]
  | .register_graph ctx_token graph :: l₁ => by
    rw [List.cons_append, earliest_registration, earliest_registration]
    by_cases h : ctx_token = t
    · rw [if_pos h, if_pos h]
      rfl
    · rw [if_neg h, if_neg h]
      exact earliest_registration_append t l₂ l₁
  | .deregister_graph _ :: l₁ => by
    rw [List.cons_append, earliest_registration, earliest_registration]
    exact earliest_registration_append t l₂ l₁

theorem calls_since_last_deregister_append {γ : Type} (t : Int)
    (calls : List (graphs_info_call γ)) (c : graphs_info_call γ) :
    calls_since_last_deregister t (calls ++ [c])
      = if c.deregisters t then [] else calls_since_last_deregister t calls ++ [c] := by
  unfold calls_since_last_deregister
  rw [List.reverse_append, List.reverse_singleton, List.singleton_append, List.takeWhile_cons]
  cases c.deregisters t <;> simp

theorem after_append {γ : Type} (calls : List (graphs_info_call γ)) (c : graphs_info_call γ) :
    graphs_info.after (calls ++ [c]) = (graphs_info.after calls).call c := by
  unfold graphs_info.after
  rw [List.foldl_append]
  rfl

/-- The entry of a token in the registry after a sequence of calls. -/
theorem map_find_after {γ : Type} (t : Int) (calls : List (graphs_info_call γ)) :
    std.map_find (graphs_info.after calls)._ctx_token_to_graph_map t
      = earliest_registration t (calls_since_last_deregister t calls) := by
  induction calls using List.reverseRecOn with
  | nil => rfl
  | append_singleton calls c ih =>
    rw [after_append, calls_since_last_deregister_append]
    cases c with
    | register_graph ctx_token graph =>
      simp only [graphs_info.call, graphs_info.register_graph, graphs_info_call.deregisters,
        Bool.false_eq_true, if_false]
      rw [std.map_find_insert, earliest_registration_append, ih]
      rfl
    | deregister_graph ctx_token =>
      simp only [graphs_info.call, graphs_info_call.deregisters, decide_eq_true_eq]
      have hfind : std.map_find
          ((graphs_info.after calls).deregister_graph ctx_token)._ctx_token_to_graph_map t
          = if ctx_token = t then none
            else std.map_find (graphs_info.after calls)._ctx_token_to_graph_map t := by
        unfold graphs_info.deregister_graph
        cases hk : std.map_find (graphs_info.after calls)._ctx_token_to_graph_map ctx_token with
        | none =>
          simp only
          split_ifs with h
          · rw [← h, hk]
          · rfl
        | some g =>
          simp only
          exact std.map_find_erase ctx_token t _
      rw [hfind]
      split_ifs with h
      · rfl
      · rw [ih, earliest_registration_append]
        simp [earliest_registration]

/-! ### C25: the registry of graphs -/

/-- C25: after every sequence of `register_graph` and `deregister_graph` calls,
`get_graph(t)` returns the graph of the earliest `register_graph(t, .)` made since
the last `deregister_graph(t)` (a later registration of a registered token does
not replace it) and throws `Graph not found` exactly when there is no such
registration; and `deregister_graph` of a token that is not registered leaves the
registry as it is. -/
theorem graphs_info_get_graph_spec {γ : Type} (calls : List (graphs_info_call γ)) (t : Int) :
    (graphs_info.after calls).get_graph t
        = (match earliest_registration t (calls_since_last_deregister t calls) with
          | some graph => Except.ok graph
          | none => Except.error "Graph not found") ∧
      (earliest_registration t (calls_since_last_deregister t calls) = none →
        (graphs_info.after calls).deregister_graph t = graphs_info.after calls) := by
  constructor
  · unfold graphs_info.get_graph
    rw [map_find_after]
    cases earliest_registration t (calls_since_last_deregister t calls) <;> rfl
  · intro h
    unfold graphs_info.deregister_graph
    rw [map_find_after, h]

/-- Instance of `graphs_info_get_graph_spec`: a second registration of token 7
does not replace the first, and after `deregister_graph(7)` the token is not
found. -/
theorem graphs_info_get_graph_spec_witness :
    (graphs_info.after
        [graphs_info_call.register_graph 7 "first", graphs_info_call.register_graph 7 "second"]).get_graph 7
        = Except.ok "first" ∧
      (graphs_info.after
          [graphs_info_call.register_graph 7 "first", graphs_info_call.deregister_graph 7]).deregister_graph 7
        = graphs_info.after
          [graphs_info_call.register_graph 7 "first", graphs_info_call.deregister_graph 7] :=
  ⟨(graphs_info_get_graph_spec
      [graphs_info_call.register_graph 7 "first", graphs_info_call.register_graph 7 "second"] 7).1,
    (graphs_info_get_graph_spec
      [graphs_info_call.register_graph 7 "first", graphs_info_call.deregister_graph 7] 7).2 rfl⟩

end comm
